import Mathlib

/-!
# Lucas–Lehmer engine (`ll`): shallow embedding and verification

The definitions below transcribe the C++ sources of the repository

* `src/prime.cpp`            — `mod_mul`, `mod_pow`, `mr_witness`, `is_prime_exponent`
* `src/mersenne_reduce.cpp`  — `mersenne_reduce_once`
* `src/hash.cpp`             — `sha256`, `make_residue_digest`
* `src/ll_core.cpp`          — `ll_test`

Conventions of the embedding.

* Unsigned machine integers are natural numbers; an operation whose result can
  leave the width is followed by an explicit reduction modulo `2 ^ w`.
* GMP integers (`mpz_t`) are mathematical integers (`Int`).
* A computation that divides by zero or does not terminate yields `none`.
* Loops are structural recursions on a counter that bounds the number of
  iterations; where such a counter could run out the result is `none`.
* Thrown exceptions are values of `LLError`; the calls made to the progress
  sink are recorded, in order, in the run.
-/

namespace ll

/-! ## `src/prime.cpp` -/

/-- `mod_mul(a, b, m)`: the product is formed in 128 bits, reduced modulo `m`
and cast back to 64 bits.  `m = 0` is a division by zero. -/
def mod_mul (a b m : Nat) : Option Nat :=
  if m = 0 then none else some (((a * b) % 2 ^ 128 % m) % 2 ^ 64)

/-- The `while (e)` loop of `mod_pow`; the first argument bounds the number of
iterations (each iteration halves `e`). -/
def mod_pow_loop (m : Nat) : Nat → Nat → Nat → Nat → Option Nat
  | 0, _, e, r => if e = 0 then some r else none
  | fuel + 1, a, e, r =>
    if e = 0 then some r
    else
      (if e &&& 1 ≠ 0 then mod_mul r a m else some r).bind fun r1 =>
      (mod_mul a a m).bind fun a1 =>
      mod_pow_loop m fuel a1 (e >>> 1) r1

/-- `mod_pow(a, e, m)`: square-and-multiply, starting from `r = 1 % m`. -/
def mod_pow (a e m : Nat) : Option Nat :=
  if m = 0 then none else mod_pow_loop m e a e (1 % m)

/-- The loop `while ((d & 1u) == 0) { d >>= 1; ++s; }` of `mr_witness`.
It does not terminate for `d = 0`; the first argument bounds the iterations. -/
def mr_split : Nat → Nat → Nat → Option (Nat × Nat)
  | 0, d, s => if d &&& 1 = 0 then none else some (d, s)
  | fuel + 1, d, s =>
    if d &&& 1 = 0 then mr_split fuel (d >>> 1) ((s + 1) % 2 ^ 32) else some (d, s)

/-- The loop `for (unsigned i = 1; i < s; ++i)` of `mr_witness`; the first
argument is the number of iterations left, `s - i`. -/
def mr_square_loop (n : Nat) : Nat → Nat → Option Bool
  | 0, _ => some false
  | k + 1, x =>
    (mod_mul x x n).bind fun x1 =>
    if x1 = n - 1 then some true else mr_square_loop n k x1

/-- `mr_witness(n, a)`: does `n` pass the Miller–Rabin test to base `a`? -/
def mr_witness (n a : Nat) : Option Bool :=
  if n = 0 then none
  else if a % n = 0 then some true
  else
    (mr_split (n - 1) (n - 1) 0).bind fun ds =>
    (mod_pow a ds.1 n).bind fun x =>
    if x = 1 ∨ x = n - 1 then some true
    else mr_square_loop n (ds.2 - 1) x

/-- The table `small` of `is_prime_exponent`. -/
def small : List Nat := [3, 5, 7, 11, 13, 17, 19, 23, 29, 31, 37]

/-- The table `bases` of `is_prime_exponent`. -/
def bases : List Nat := [2, 3, 5, 7, 11]

/-- The loop over `small`: `some b` when the loop returns `b`, `none` when it
falls through. -/
def small_loop (p : Nat) : List Nat → Option Bool
  | [] => none
  | q :: qs => if p = q then some true else if p % q = 0 then some false else small_loop p qs

/-- The loop over `bases`. -/
def bases_loop (p : Nat) : List Nat → Option Bool
  | [] => some true
  | a :: rest => (mr_witness p a).bind fun w => if w then bases_loop p rest else some false

/-- `is_prime_exponent(p)`. -/
def is_prime_exponent (p : Nat) : Option Bool :=
  if p = 2 then some true
  else if p < 2 ∨ p &&& 1 = 0 then some false
  else
    match small_loop p small with
    | some b => some b
    | none => bases_loop p bases

/-! ## `src/mersenne_reduce.cpp` -/

/-- `mersenne_reduce_once(x, M, p, hi)`: returns the new values of `x` and of
the scratch variable `hi`.  `mpz_tdiv_q_2exp` and `mpz_tdiv_r_2exp` round
towards zero. -/
def mersenne_reduce_once (x M : Int) (p : Nat) (_hi : Int) : Int × Int :=
  let hi := Int.tdiv x (2 ^ p)
  let x1 := Int.tmod x (2 ^ p)
  let x2 := x1 + hi
  let x3 := if x2 ≥ M then x2 - M else x2
  let x4 := if x3 ≥ M then x3 - M else x3
  (x4, hi)

/-! ## `src/hash.cpp` -/

/-- `ResidueDigest`: 32 bytes. -/
structure ResidueDigest where
  bytes : List Nat
deriving DecidableEq

/-- `rotr(x, n)` on 32-bit words. -/
def rotr (x n : Nat) : Nat := (x >>> n) ||| ((x <<< (32 - n)) % 2 ^ 32)

/-- `load_be32(p)`, reading at offset `off` of `b`. -/
def load_be32 (b : List Nat) (off : Nat) : Nat :=
  (b.getD off 0) <<< 24 ||| (b.getD (off + 1) 0) <<< 16 |||
    (b.getD (off + 2) 0) <<< 8 ||| (b.getD (off + 3) 0)

/-- `store_be32(p, v)`: the four bytes written. -/
def store_be32 (v : Nat) : List Nat :=
  [(v >>> 24) % 256, (v >>> 16) % 256, (v >>> 8) % 256, v % 256]

/-- The round constants `K` of `sha256`, in the rows of the source. -/
def K : List Nat :=
  [0x428a2f98, 0x71374491, 0xb5c0fbcf, 0xe9b5dba5, 0x3956c25b] ++
  [0x59f111f1, 0x923f82a4, 0xab1c5ed5, 0xd807aa98, 0x12835b01] ++
  [0x243185be, 0x550c7dc3, 0x72be5d74, 0x80deb1fe, 0x9bdc06a7] ++
  [0xc19bf174, 0xe49b69c1, 0xefbe4786, 0x0fc19dc6, 0x240ca1cc] ++
  [0x2de92c6f, 0x4a7484aa, 0x5cb0a9dc, 0x76f988da, 0x983e5152] ++
  [0xa831c66d, 0xb00327c8, 0xbf597fc7, 0xc6e00bf3, 0xd5a79147] ++
  [0x06ca6351, 0x14292967, 0x27b70a85, 0x2e1b2138, 0x4d2c6dfc] ++
  [0x53380d13, 0x650a7354, 0x766a0abb, 0x81c2c92e, 0x92722c85] ++
  [0xa2bfe8a1, 0xa81a664b, 0xc24b8b70, 0xc76c51a3, 0xd192e819] ++
  [0xd6990624, 0xf40e3585, 0x106aa070, 0x19a4c116, 0x1e376c08] ++
  [0x2748774c, 0x34b0bcb5, 0x391c0cb3, 0x4ed8aa4a, 0x5b9cca4f] ++
  [0x682e6ff3, 0x748f82ee, 0x78a5636f, 0x84c87814, 0x8cc70208] ++
  [0x90befffa, 0xa4506ceb, 0xbef9a3f7, 0xc67178f2]

/-- The initial value of `H` in `sha256`. -/
def H0 : List Nat :=
  [0x6a09e667, 0xbb67ae85, 0x3c6ef372, 0xa54ff53a] ++
  [0x510e527f, 0x9b05688c, 0x1f83d9ab, 0x5be0cd19]

/-- One step of the message-schedule loop `for (int i = 16; i < 64; ++i)`:
appends `w[i]` to the words `w[0..i-1]`. -/
def schedule_step (w : List Nat) (i : Nat) : List Nat :=
  let w15 := w.getD (i - 15) 0
  let w2 := w.getD (i - 2) 0
  let s0 := rotr w15 7 ^^^ rotr w15 18 ^^^ (w15 >>> 3)
  let s1 := rotr w2 17 ^^^ rotr w2 19 ^^^ (w2 >>> 10)
  w ++ [(w.getD (i - 16) 0 + s0 + w.getD (i - 7) 0 + s1) % 2 ^ 32]

/-- The array `w` of `compress` for the 64-byte block `b`. -/
def schedule (b : List Nat) : List Nat :=
  (List.range 48).foldl (fun w j => schedule_step w (j + 16))
    ((List.range 16).map fun i => load_be32 b (4 * i))

/-- The working variables `a, b2, c, d, e, f, g, h` of `compress`. -/
structure Vars where
  a : Nat
  b2 : Nat
  c : Nat
  d : Nat
  e : Nat
  f : Nat
  g : Nat
  h : Nat
deriving DecidableEq

/-- One iteration of the round loop `for (int i = 0; i < 64; ++i)`. -/
def round (w : List Nat) (v : Vars) (i : Nat) : Vars :=
  let S1 := rotr v.e 6 ^^^ rotr v.e 11 ^^^ rotr v.e 25
  let ch := (v.e &&& v.f) ^^^ ((2 ^ 32 - 1 - v.e) &&& v.g)
  let t1 := (v.h + S1 + ch + K.getD i 0 + w.getD i 0) % 2 ^ 32
  let S0 := rotr v.a 2 ^^^ rotr v.a 13 ^^^ rotr v.a 22
  let maj := (v.a &&& v.b2) ^^^ (v.a &&& v.c) ^^^ (v.b2 &&& v.c)
  let t2 := (S0 + maj) % 2 ^ 32
  { a := (t1 + t2) % 2 ^ 32, b2 := v.a, c := v.b2, d := v.c,
    e := (v.d + t1) % 2 ^ 32, f := v.e, g := v.f, h := v.g }

/-- The lambda `compress` of `sha256`: the new value of `H` after the block
`b` (64 bytes). -/
def compress (H : List Nat) (b : List Nat) : List Nat :=
  let w := schedule b
  let v0 : Vars :=
    { a := H.getD 0 0, b2 := H.getD 1 0, c := H.getD 2 0, d := H.getD 3 0,
      e := H.getD 4 0, f := H.getD 5 0, g := H.getD 6 0, h := H.getD 7 0 }
  let v := (List.range 64).foldl (round w) v0
  [(H.getD 0 0 + v.a) % 2 ^ 32, (H.getD 1 0 + v.b2) % 2 ^ 32,
   (H.getD 2 0 + v.c) % 2 ^ 32, (H.getD 3 0 + v.d) % 2 ^ 32,
   (H.getD 4 0 + v.e) % 2 ^ 32, (H.getD 5 0 + v.f) % 2 ^ 32,
   (H.getD 6 0 + v.g) % 2 ^ 32, (H.getD 7 0 + v.h) % 2 ^ 32]

/-- `sha256(data, len, out)` for the byte sequence `data` (`len` is its
length): the 32 bytes written to `out`. -/
def sha256 (data : List Nat) : List Nat :=
  let len := data.length
  let full := len / 64 * 64
  let H1 := (List.range (len / 64)).foldl
    (fun H j => compress H ((data.drop (64 * j)).take 64)) H0
  let rem := len - full
  let block := data.drop full ++ [0x80] ++ List.replicate (64 - rem - 1) 0
  let H2 := if rem ≥ 56 then compress H1 block else H1
  let block1 := if rem ≥ 56 then List.replicate 64 0 else block
  let bits := (len * 8) % 2 ^ 64
  let block2 := block1.take 56 ++
    (List.range 8).map fun k => (bits >>> (8 * (7 - k))) % 256
  let H3 := compress H2 block2
  (List.range 8).flatMap fun i => store_be32 (H3.getD i 0)

/-- `make_residue_digest(data, nbytes)`. -/
def make_residue_digest (data : List Nat) : ResidueDigest :=
  { bytes := sha256 data }

/-! ## `src/ll_core.cpp` -/

/-- `LLConfig`. -/
structure LLConfig where
  p : Nat
  enable_progress : Bool := true
  progress_stride : Nat := 0
deriving DecidableEq

/-- `LLResult`. -/
structure LLResult where
  p : Nat := 0
  is_prime : Bool := false
  iterations : Nat := 0
  ns_elapsed : Nat := 0
  final_residue_is_zero : Bool := false
  engine_info : String := ""
deriving DecidableEq

/-- What `ll_test` can throw.  `undefined` stands for undefined behaviour of
the exponent check (it is shown below never to occur). -/
inductive LLError where
  | invalid_argument (what : String)
  | logic_error (what : String)
  | undefined
deriving DecidableEq

/-- How a call ends: with a returned value or with an exception. -/
inductive Outcome where
  | returned (r : LLResult)
  | thrown (e : LLError)
deriving DecidableEq

/-- What the build and the platform fix: whether the invariant check is
compiled in (`LL_ENABLE_DEBUG_INVARIANTS` or no `NDEBUG`), the width of a GMP
limb in bytes (limbs are stored little-endian), the clock difference
`t1 - t0` in nanoseconds, and the engine description string. -/
structure Env where
  debug_invariants : Bool
  limb_bytes : Nat
  elapsed_ns : Nat
  engine_info : String
deriving DecidableEq

/-- `mpz_size(s)`: the number of limbs of the absolute value. -/
def mpz_size (limb_bytes : Nat) (s : Int) : Nat :=
  if s = 0 then 0 else Nat.log2 s.natAbs / (8 * limb_bytes) + 1

/-- The `mpz_size(s) * sizeof(mp_limb_t)` bytes at `mpz_limbs_read(s)`. -/
def limb_data (limb_bytes : Nat) (s : Int) : List Nat :=
  (List.range (mpz_size limb_bytes s * limb_bytes)).map fun k =>
    (s.natAbs >>> (8 * k)) % 256

/-- The variables of `ll_test` that the loop changes, together with the record
of what happened: `steps` counts the loop bodies that reached the arithmetic,
`calls` lists the invocations of the progress sink, `violated` is set when
the invariant check throws. -/
structure Loop where
  s : Int
  tmp : Int
  hi : Int
  early_composite : Bool := false
  violated : Bool := false
  steps : Nat := 0
  calls : List (Nat × ResidueDigest) := []
deriving DecidableEq

/-- The Lucas–Lehmer loop `for (i = 0; i < total_iters; ++i)` of `ll_test`.
The first numeric argument is `total_iters - i`, the second is `i`; `cb` tells
whether the progress callback is non-empty. -/
def ll_loop (env : Env) (cfg : LLConfig) (cb : Bool) (M : Int) (p total_iters stride : Nat) :
    Nat → Nat → Loop → Loop
  | 0, _, L => L
  | n + 1, i, L =>
    if i > 0 ∧ L.s = 0 then { L with early_composite := true }
    else
      let tmp := L.s * L.s - 2
      let r := mersenne_reduce_once tmp M p L.hi
      let L1 : Loop := { L with s := r.1, tmp := L.s, hi := r.2, steps := L.steps + 1 }
      if env.debug_invariants ∧ (L1.s < 0 ∨ L1.s ≥ M) then { L1 with violated := true }
      else
        let L2 : Loop :=
          if cb ∧ cfg.enable_progress ∧ ((i + 1) % stride = 0 ∨ i + 1 = total_iters) then
            { L1 with calls := L1.calls ++
                [(i, make_residue_digest (limb_data env.limb_bytes L1.s))] }
          else L1
        ll_loop env cfg cb M p total_iters stride n (i + 1) L2

/-- A call of `ll_test`: its outcome, the number of loop bodies executed and
the invocations of the progress sink. -/
structure Run where
  outcome : Outcome
  steps : Nat
  calls : List (Nat × ResidueDigest)
deriving DecidableEq

/-- The effective progress stride computed by `ll_test`. -/
def effective_stride (progress_stride total_iters : Nat) : Nat :=
  if progress_stride ≠ 0 then progress_stride else max 1 (total_iters / 100)

/-- The loop of `ll_test` run from its initial state `s = 4`. -/
def ll_run (env : Env) (cfg : LLConfig) (cb : Bool) : Loop :=
  let p := cfg.p
  let total_iters := p - 2
  ll_loop env cfg cb (2 ^ p - 1) p total_iters
    (effective_stride cfg.progress_stride total_iters) total_iters 0
    { s := 4, tmp := 0, hi := 0 }

/-- `ll_test(cfg, cb)`. -/
def ll_test (env : Env) (cfg : LLConfig) (cb : Bool) : Run :=
  let p := cfg.p
  if p < 2 then
    { outcome := .thrown (.invalid_argument "p must be >= 2"), steps := 0, calls := [] }
  else
    match is_prime_exponent p with
    | none => { outcome := .thrown .undefined, steps := 0, calls := [] }
    | some false =>
      { outcome := .thrown (.invalid_argument "exponent p must be prime"),
        steps := 0, calls := [] }
    | some true =>
      if p = 2 then
        { outcome := .returned
            { p := 2, iterations := 0, ns_elapsed := 0, final_residue_is_zero := true,
              is_prime := true, engine_info := env.engine_info },
          steps := 0, calls := [] }
      else
        let L := ll_run env cfg cb
        if L.violated then
          { outcome := .thrown (.logic_error "LL invariant violated: residue out of range"),
            steps := L.steps, calls := L.calls }
        else
          let frz : Bool := if L.early_composite then false else decide (L.s = 0)
          { outcome := .returned
              { p := p, iterations := p - 2, ns_elapsed := env.elapsed_ns,
                final_residue_is_zero := frz, is_prime := frz,
                engine_info := env.engine_info },
            steps := L.steps, calls := L.calls }

/-- The state after one loop body that passes the invariant check (the last
branch of `ll_loop`, before the loop goes on with `i + 1`). -/
def ll_body (env : Env) (cfg : LLConfig) (cb : Bool) (M : Int) (p total_iters stride : Nat)
    (i : Nat) (L : Loop) : Loop :=
  let r := mersenne_reduce_once (L.s * L.s - 2) M p L.hi
  let L1 : Loop := { L with s := r.1, tmp := L.s, hi := r.2, steps := L.steps + 1 }
  if cb ∧ cfg.enable_progress ∧ ((i + 1) % stride = 0 ∨ i + 1 = total_iters) then
    { L1 with calls := L1.calls ++ [(i, make_residue_digest (limb_data env.limb_bytes L1.s))] }
  else L1

/-! ## `src/hash.cpp`: the overloads and `to_hex` -/

/-- `make_residue_digest(const std::string &s)`: the bytes `s.data()` of
length `s.size()` are passed on. -/
def make_residue_digest_string (s : List Nat) : ResidueDigest :=
  make_residue_digest s

/-- `make_residue_digest(const std::vector<std::uint8_t> &v)`: the bytes
`v.data()` of length `v.size()` are passed on. -/
def make_residue_digest_vector (v : List Nat) : ResidueDigest :=
  make_residue_digest v

/-- The table `hex` of `to_hex`: the characters of the literal
`"0123456789abcdef"`. -/
def hex : List Char := "0123456789abcdef".data

/-- `to_hex(d)`: `d.bytes.size()` is 32; character `2 * i` is
`hex[(d.bytes[i] >> 4) & 0xF]`, character `2 * i + 1` is `hex[d.bytes[i] & 0xF]`. -/
def to_hex (d : ResidueDigest) : String :=
  String.mk ((List.range 32).flatMap fun i =>
    [hex.getD ((d.bytes.getD i 0 >>> 4) &&& 0xF) '0', hex.getD (d.bytes.getD i 0 &&& 0xF) '0'])

/-- The two characters that `to_hex` writes for the byte `b`. -/
def hex_pair (b : Nat) : List Char :=
  [hex.getD ((b >>> 4) &&& 0xF) '0', hex.getD (b &&& 0xF) '0']

/-- A value of the C++ type `ResidueDigest`: 32 bytes, each below 256. -/
def digest_wf (d : ResidueDigest) : Prop :=
  d.bytes.length = 32 ∧ ∀ b ∈ d.bytes, b < 256

/-! ## Reference notions of the specification -/

/-- Generic (not Mersenne-optimised) modular reduction: `x mod M`. -/
def generic_mod (x M : Int) : Int := x % M

/-- The reference Lucas–Lehmer sequence: `r 0 = 4` and
`r (k + 1) = (r k ^ 2 - 2) mod (2 ^ p - 1)`, with generic modular reduction. -/
def reference_residue (p : Nat) : Nat → Int
  | 0 => 4
  | k + 1 => generic_mod (reference_residue p k ^ 2 - 2) (2 ^ p - 1)

/-- Trial division from `d` upwards: no `k ≥ d` with `k * k ≤ p` divides `p`.
The first argument bounds the number of candidates tried. -/
def trial_loop (p : Nat) : Nat → Nat → Bool
  | 0, _ => true
  | fuel + 1, d =>
    if d * d > p then true else if p % d = 0 then false else trial_loop p fuel (d + 1)

/-- Trial-division primality: `p ≥ 2` has no divisor `d` with `2 ≤ d` and
`d * d ≤ p`. -/
def trial_division_prime (p : Nat) : Bool :=
  decide (2 ≤ p) && trial_loop p p 2

/-- The progress schedule of the specification: iteration `i` of `n` reports
when `i + 1` is a multiple of the stride `k` or `i` is the last iteration. -/
def scheduled (k n i : Nat) : Bool :=
  decide ((i + 1) % k = 0 ∨ i + 1 = n)

/-- The value of a hexadecimal digit. -/
def hex_value (c : Char) : Nat :=
  if c.toNat < 58 then c.toNat - 48 else c.toNat - 87

/-- Decoding of a hexadecimal string, two characters to a byte. -/
def from_hex : List Char → List Nat
  | c1 :: c2 :: rest => (16 * hex_value c1 + hex_value c2) :: from_hex rest
  | _ => []

/-! ### SHA-256 as specified in FIPS 180-4

Messages are byte sequences; words are 32 bits wide. -/

/-- Addition of words, modulo `2 ^ 32`. -/
def fips_add (x y : Nat) : Nat := (x + y) % 2 ^ 32

/-- The rotation `ROTR n x = (x >> n) ∨ (x << (32 - n))`. -/
def fips_ROTR (n x : Nat) : Nat := (x >>> n) ||| ((x <<< (32 - n)) % 2 ^ 32)

/-- The shift `SHR n x = x >> n`. -/
def fips_SHR (n x : Nat) : Nat := x >>> n

/-- `Ch(x, y, z) = (x ∧ y) ⊕ (¬x ∧ z)`, the complement being that of a word. -/
def fips_Ch (x y z : Nat) : Nat := (x &&& y) ^^^ ((2 ^ 32 - 1 - x) &&& z)

/-- `Maj(x, y, z) = (x ∧ y) ⊕ (x ∧ z) ⊕ (y ∧ z)`. -/
def fips_Maj (x y z : Nat) : Nat := (x &&& y) ^^^ (x &&& z) ^^^ (y &&& z)

/-- The function written with a capital sigma and index 0. -/
def fips_bigSigma0 (x : Nat) : Nat := fips_ROTR 2 x ^^^ fips_ROTR 13 x ^^^ fips_ROTR 22 x

/-- The function written with a capital sigma and index 1. -/
def fips_bigSigma1 (x : Nat) : Nat := fips_ROTR 6 x ^^^ fips_ROTR 11 x ^^^ fips_ROTR 25 x

/-- The function written with a small sigma and index 0. -/
def fips_smallSigma0 (x : Nat) : Nat := fips_ROTR 7 x ^^^ fips_ROTR 18 x ^^^ fips_SHR 3 x

/-- The function written with a small sigma and index 1. -/
def fips_smallSigma1 (x : Nat) : Nat := fips_ROTR 17 x ^^^ fips_ROTR 19 x ^^^ fips_SHR 10 x

/-- Padding: the bit 1, then `k` zero bits with `k` the smallest solution of
`l + 1 + k ≡ 448 (mod 512)`, then the bit length `l` as a 64-bit big-endian
number.  On bytes: `0x80`, then `(k - 7) / 8` zero bytes, then 8 bytes. -/
def fips_pad (msg : List Nat) : List Nat :=
  let l := 8 * msg.length
  let k := (447 + 512 - l % 512) % 512
  msg ++ [0x80] ++ List.replicate ((k - 7) / 8) 0 ++
    (List.range 8).map fun j => (l % 2 ^ 64) / 2 ^ (8 * (7 - j)) % 256

/-- The block number `i` (from 0) of the padded message: 64 bytes. -/
def fips_block (padded : List Nat) (i : Nat) : List Nat :=
  (padded.drop (64 * i)).take 64

/-- The word number `t` of a block, big-endian. -/
def fips_word (blk : List Nat) (t : Nat) : Nat :=
  blk.getD (4 * t) 0 * 2 ^ 24 + blk.getD (4 * t + 1) 0 * 2 ^ 16 +
    blk.getD (4 * t + 2) 0 * 2 ^ 8 + blk.getD (4 * t + 3) 0

/-- The message schedule `W 0, ..., W 63` of a block: the 16 words of the
block, then `W t = σ1 (W (t - 2)) + W (t - 7) + σ0 (W (t - 15)) + W (t - 16)`. -/
def fips_schedule (blk : List Nat) : List Nat :=
  (List.range 48).foldl
    (fun W j =>
      W ++ [fips_add (fips_add (fips_add (fips_smallSigma1 (W.getD (j + 16 - 2) 0))
        (W.getD (j + 16 - 7) 0)) (fips_smallSigma0 (W.getD (j + 16 - 15) 0)))
        (W.getD (j + 16 - 16) 0)])
    ((List.range 16).map (fips_word blk))

/-- Step `t` on the working variables `a, b, c, d, e, f, g, h`. -/
def fips_step (W : List Nat) (v : List Nat) (t : Nat) : List Nat :=
  match v with
  | [a, b, c, d, e, f, g, h] =>
    let T1 := fips_add (fips_add (fips_add (fips_add h (fips_bigSigma1 e)) (fips_Ch e f g))
      (K.getD t 0)) (W.getD t 0)
    let T2 := fips_add (fips_bigSigma0 a) (fips_Maj a b c)
    [fips_add T1 T2, a, b, c, fips_add d T1, e, f, g]
  | _ => v

/-- The hash value after a block: 64 steps from the previous hash value, whose
words are then added to the working variables. -/
def fips_compress (H : List Nat) (blk : List Nat) : List Nat :=
  List.zipWith fips_add ((List.range 64).foldl (fips_step (fips_schedule blk)) H) H

/-- SHA-256 of a byte sequence: pad, process the blocks in order from the
initial hash value, and write the eight words of the final hash value
big-endian. -/
def fips_sha256 (msg : List Nat) : List Nat :=
  let padded := fips_pad msg
  let H := (List.range (padded.length / 64)).foldl
    (fun H i => fips_compress H (fips_block padded i)) H0
  H.flatMap fun w => [w / 2 ^ 24 % 256, w / 2 ^ 16 % 256, w / 2 ^ 8 % 256, w % 256]

open LucasLehmer LucasLehmer.X

/-! ## The Mersenne reducer -/

/-- The value that `mersenne_reduce_once` leaves in `x`. -/
theorem reduce_fst (x M : Int) (p : Nat) (hi : Int) :
    (mersenne_reduce_once x M p hi).1 =
      (let x2 := Int.tmod x (2 ^ p) + Int.tdiv x (2 ^ p)
       let x3 := if x2 ≥ M then x2 - M else x2
       if x3 ≥ M then x3 - M else x3) := rfl

/-- The folded sum is congruent to `x` and bounded. -/
theorem fold_facts (p : Nat) (x : Int) (hx : 0 ≤ x) :
    ∃ q r : Int, Int.tdiv x (2 ^ p) = q ∧ Int.tmod x (2 ^ p) = r ∧ 0 ≤ q ∧ 0 ≤ r ∧
      r < 2 ^ p ∧ x = 2 ^ p * q + r := by
  have hB : (0 : Int) < 2 ^ p := by positivity
  refine ⟨x / 2 ^ p, x % 2 ^ p, Int.tdiv_eq_ediv hx hB.le, Int.tmod_eq_emod hx hB.le,
    Int.ediv_nonneg hx hB.le, Int.emod_nonneg _ hB.ne', Int.emod_lt_of_pos _ hB, ?_⟩
  exact (Int.ediv_add_emod x (2 ^ p)).symm

/-- When the folded sum is below `3 * M`, two conditional subtractions reduce it:
the reducer returns `x mod M`. -/
theorem reduce_of_sum_lt (p : Nat) (x hi : Int) (hp : 1 ≤ p) (hx : 0 ≤ x)
    (hs : Int.tmod x (2 ^ p) + Int.tdiv x (2 ^ p) < 3 * (2 ^ p - 1)) :
    (mersenne_reduce_once x (2 ^ p - 1) p hi).1 = x % (2 ^ p - 1) := by
  obtain ⟨q, r, hq, hr, hq0, hr0, hrB, hxe⟩ := fold_facts p x hx
  have hB : (2 : Int) ≤ 2 ^ p := by
    calc (2 : Int) = 2 ^ 1 := by norm_num
      _ ≤ 2 ^ p := pow_le_pow_right₀ (by norm_num) hp
  rw [hr, hq] at hs
  rw [reduce_fst, hq, hr]
  have key : ∀ y k : Int, 0 ≤ y → y < 2 ^ p - 1 → r + q = y + k * (2 ^ p - 1) →
      y = x % (2 ^ p - 1) := by
    intro y k hy0 hyM hk
    have : x = y + (q + k) * (2 ^ p - 1) := by rw [hxe]; linear_combination hk
    rw [this, Int.add_mul_emod_self, Int.emod_eq_of_lt hy0 hyM]
  simp only []
  split_ifs with h1 h2
  · exact key _ 2 (by linarith) (by linarith) (by ring)
  · exact key _ 1 (by linarith) (by linarith) (by ring)
  · exact key _ 0 (by linarith) (by linarith) (by ring)

/-- The folded sum of an input below `2 * M ^ 2 + 3 * M` is below `3 * M`. -/
theorem fold_sum_lt (p : Nat) (x : Int) (hx : 0 ≤ x)
    (hlt : x < 2 * (2 ^ p - 1) ^ 2 + 3 * (2 ^ p - 1)) :
    Int.tmod x (2 ^ p) + Int.tdiv x (2 ^ p) < 3 * (2 ^ p - 1) := by
  obtain ⟨q, r, hq, hr, hq0, hr0, hrB, hxe⟩ := fold_facts p x hx
  rw [hq, hr]
  by_contra hcon
  push_neg at hcon
  have hB : (0 : Int) < 2 ^ p := by positivity
  rcases le_or_lt (2 * 2 ^ p - 1) q with h | h
  · nlinarith
  · have hq2 : q = 2 * 2 ^ p - 2 := by omega
    subst hq2
    nlinarith

/-- The bound `2 * M ^ 2 + 3 * M` is sharp: at that input the folded sum is
`3 * M` and two subtractions leave `M`, not `0`. -/
theorem mersenne_reduce_once_at_bound (p : Nat) (hi : Int) (hp : 1 ≤ p) :
    (mersenne_reduce_once (2 * (2 ^ p - 1) ^ 2 + 3 * (2 ^ p - 1)) (2 ^ p - 1) p hi).1
      = 2 ^ p - 1 := by
  have hB : (2 : Int) ≤ 2 ^ p := by
    calc (2 : Int) = 2 ^ 1 := by norm_num
      _ ≤ 2 ^ p := pow_le_pow_right₀ (by norm_num) hp
  have hx : (0 : Int) ≤ 2 * (2 ^ p - 1) ^ 2 + 3 * (2 ^ p - 1) := by nlinarith
  obtain ⟨q, r, hq, hr, hq0, hr0, hrB, hxe⟩ := fold_facts p _ hx
  have hqr : q = 2 * 2 ^ p - 2 ∧ r = 2 ^ p - 1 := by
    have h1 : (2 : Int) ^ p * (q - (2 * 2 ^ p - 2)) = (2 ^ p - 1) - r := by
      linear_combination -hxe
    have h2 : q - (2 * 2 ^ p - 2) = 0 := by
      by_contra hne
      rcases lt_or_gt_of_ne hne with h | h
      · have : q - (2 * 2 ^ p - 2) ≤ -1 := by omega
        nlinarith
      · have : 1 ≤ q - (2 * 2 ^ p - 2) := by omega
        nlinarith
    rw [h2, mul_zero] at h1
    constructor <;> linarith
  rw [reduce_fst, hq, hr, hqr.1, hqr.2]
  simp only []
  have e1 : (2 : Int) ^ p - 1 + (2 * 2 ^ p - 2) ≥ 2 ^ p - 1 := by linarith
  rw [if_pos e1]
  have e2 : (2 : Int) ^ p - 1 + (2 * 2 ^ p - 2) - (2 ^ p - 1) ≥ 2 ^ p - 1 := by linarith
  rw [if_pos e2]
  ring

/-! ## The Lucas–Lehmer sequence never takes the value 1 -/

theorem mersenne_mod_four (p : Nat) (hp : 2 ≤ p) : (2 ^ p - 1) % 4 = 3 := by
  obtain ⟨k, rfl⟩ := Nat.exists_eq_add_of_le hp
  have : 2 ^ (2 + k) = 4 * 2 ^ k := by rw [pow_add]; norm_num
  have h1 : 1 ≤ 2 ^ k := Nat.one_le_two_pow
  omega

theorem mersenne_mod_three (p : Nat) (hodd : p % 2 = 1) : (2 ^ p - 1) % 3 = 1 := by
  obtain ⟨k, rfl⟩ : ∃ k, p = 2 * k + 1 := ⟨p / 2, by omega⟩
  have h4 : 4 ^ k % 3 = 1 := by
    induction k with
    | zero => rfl
    | succ n ih => omega
  have : 2 ^ (2 * k + 1) = 2 * 4 ^ k := by rw [pow_succ, pow_mul]; norm_num; ring
  have h1 : 1 ≤ 4 ^ k := Nat.one_le_pow _ _ (by norm_num)
  omega

/-- By quadratic reciprocity 3 is not a square modulo `2 ^ p - 1` for odd `p`. -/
theorem three_not_square (p : Nat) (hp : 2 ≤ p) (hodd : p % 2 = 1) :
    ¬ IsSquare ((3 : Int) : ZMod (2 ^ p - 1)) := by
  apply ZMod.nonsquare_of_jacobiSym_eq_neg_one
  have h := jacobiSym.quadratic_reciprocity_three_mod_four (a := 3) (b := 2 ^ p - 1) rfl
    (mersenne_mod_four p hp)
  have h2 : jacobiSym ((2 ^ p - 1 : Nat) : Int) 3 = 1 := by
    rw [jacobiSym.mod_left]
    have : (((2 ^ p - 1 : Nat) : Int) % ((3 : Nat) : Int)) = 1 := by
      have := mersenne_mod_three p hodd
      omega
    rw [this]
    exact jacobiSym.one_left 3
  rw [h2] at h
  exact_mod_cast h

theorem sMod_succ (p i : Nat) : sMod p (i + 1) = (sMod p i ^ 2 - 2) % (2 ^ p - 1) := rfl

theorem seven_le_mersenne (p : Nat) (hp : 3 ≤ p) : (7 : Int) ≤ 2 ^ p - 1 := by
  have : (2 : Int) ^ 3 ≤ 2 ^ p := pow_le_pow_right₀ (by norm_num) hp
  linarith

theorem sMod_zero_eq (p : Nat) (hp : 3 ≤ p) : sMod p 0 = 4 := by
  have := seven_le_mersenne p hp
  show (4 : Int) % (2 ^ p - 1) = 4
  exact Int.emod_eq_of_lt (by norm_num) (by linarith)

/-- The Lucas–Lehmer residues never equal 1 (for odd `p ≥ 3`): a successor equal
to 1 would make 3 a square modulo `2 ^ p - 1`. -/
theorem sMod_ne_one (p : Nat) (hp : 3 ≤ p) (hodd : p % 2 = 1) (i : Nat) : sMod p i ≠ 1 := by
  cases i with
  | zero => rw [sMod_zero_eq p hp]; norm_num
  | succ k =>
    intro h
    apply three_not_square p (by omega) hodd
    refine ⟨(sMod p k : ZMod (2 ^ p - 1)), ?_⟩
    rw [sMod_succ] at h
    have hd : ((2 ^ p - 1 : Int)) ∣ (sMod p k ^ 2 - 2) - 1 := by
      have h0 : ((2 ^ p - 1 : Int)) ∣ (sMod p k ^ 2 - 2) - (sMod p k ^ 2 - 2) % (2 ^ p - 1) :=
        Int.dvd_sub_of_emod_eq rfl
      rwa [h] at h0
    have hM : (((2 ^ p - 1 : Nat) : Int)) = 2 ^ p - 1 := by
      have : 1 ≤ 2 ^ p := Nat.one_le_two_pow
      push_cast [Nat.cast_sub this]; ring
    rw [← hM] at hd
    have := (ZMod.intCast_zmod_eq_zero_iff_dvd _ _).2 hd
    push_cast at this
    push_cast
    linear_combination -this

/-! ## The loop of `ll_test` -/

/-- One loop step from a residue `2 ≤ s < M` computes `(s ^ 2 - 2) mod M`. -/
theorem step_residue (p : Nat) (hp : 3 ≤ p) (s hi : Int) (h2 : 2 ≤ s) (hlt : s < 2 ^ p - 1) :
    (mersenne_reduce_once (s * s - 2) (2 ^ p - 1) p hi).1 = (s ^ 2 - 2) % (2 ^ p - 1) := by
  have hx : (0 : Int) ≤ s * s - 2 := by nlinarith
  have hb : s * s - 2 < 2 * (2 ^ p - 1) ^ 2 + 3 * (2 ^ p - 1) := by nlinarith
  rw [reduce_of_sum_lt p _ hi (by omega) hx (fold_sum_lt p _ hx hb)]
  congr 1; ring

theorem ll_body_s (env : Env) (cfg : LLConfig) (cb : Bool) (M : Int) (p t st i : Nat) (L : Loop) :
    (ll_body env cfg cb M p t st i L).s = (mersenne_reduce_once (L.s * L.s - 2) M p L.hi).1 := by
  unfold ll_body; simp only []; split_ifs <;> rfl

theorem ll_body_flags (env : Env) (cfg : LLConfig) (cb : Bool) (M : Int) (p t st i : Nat)
    (L : Loop) :
    (ll_body env cfg cb M p t st i L).violated = L.violated ∧
    (ll_body env cfg cb M p t st i L).early_composite = L.early_composite ∧
    (ll_body env cfg cb M p t st i L).steps = L.steps + 1 := by
  unfold ll_body; simp only []; split_ifs <;> exact ⟨rfl, rfl, rfl⟩

theorem ll_loop_zero (env : Env) (cfg : LLConfig) (cb : Bool) (M : Int) (p t st i : Nat)
    (L : Loop) : ll_loop env cfg cb M p t st 0 i L = L := rfl

theorem ll_loop_early (env : Env) (cfg : LLConfig) (cb : Bool) (M : Int) (p t st n i : Nat)
    (L : Loop) (h : i > 0 ∧ L.s = 0) :
    ll_loop env cfg cb M p t st (n + 1) i L = { L with early_composite := true } := by
  rw [ll_loop]; simp only [if_pos h]

theorem ll_loop_step (env : Env) (cfg : LLConfig) (cb : Bool) (M : Int) (p t st n i : Nat)
    (L : Loop) (h : ¬ (i > 0 ∧ L.s = 0))
    (hr : 0 ≤ (mersenne_reduce_once (L.s * L.s - 2) M p L.hi).1 ∧
      (mersenne_reduce_once (L.s * L.s - 2) M p L.hi).1 < M) :
    ll_loop env cfg cb M p t st (n + 1) i L =
      ll_loop env cfg cb M p t st n (i + 1) (ll_body env cfg cb M p t st i L) := by
  rw [ll_loop]
  simp only [if_neg h]
  have hc : ¬ (env.debug_invariants = true ∧
      ((mersenne_reduce_once (L.s * L.s - 2) M p L.hi).1 < 0 ∨
        (mersenne_reduce_once (L.s * L.s - 2) M p L.hi).1 ≥ M)) := by
    rintro ⟨-, h1 | h1⟩ <;> omega
  rw [if_neg hc]
  rfl

/-- The loop started at iteration `i` from the residue `sMod p i`: the invariant
check never throws; the loop leaves early exactly when an earlier residue is
zero; otherwise all remaining bodies run and the final residue is
`sMod p (i + n)`. -/
theorem ll_loop_spec (env : Env) (cfg : LLConfig) (cb : Bool) (p t st : Nat)
    (hp : 3 ≤ p) (hodd : p % 2 = 1) :
    ∀ (n i : Nat) (L : Loop), L.s = sMod p i → L.violated = false →
      L.early_composite = false →
      (ll_loop env cfg cb (2 ^ p - 1) p t st n i L).violated = false ∧
      ((ll_loop env cfg cb (2 ^ p - 1) p t st n i L).early_composite = true ↔
        ∃ k, i ≤ k ∧ k < i + n ∧ 0 < k ∧ sMod p k = 0) ∧
      ((ll_loop env cfg cb (2 ^ p - 1) p t st n i L).early_composite = false →
        (ll_loop env cfg cb (2 ^ p - 1) p t st n i L).s = sMod p (i + n) ∧
        (ll_loop env cfg cb (2 ^ p - 1) p t st n i L).steps = L.steps + n) := by
  intro n
  induction n with
  | zero =>
    intro i L hs hv he
    rw [ll_loop_zero]
    refine ⟨hv, ?_, fun _ => ⟨hs, rfl⟩⟩
    rw [he]
    constructor
    · intro h; cases h
    · rintro ⟨k, h1, h2, -⟩; omega
  | succ n ih =>
    intro i L hs hv he
    by_cases h : i > 0 ∧ L.s = 0
    · rw [ll_loop_early _ _ _ _ _ _ _ _ _ _ h]
      refine ⟨hv, ?_, ?_⟩
      · simp only [true_iff]
        exact ⟨i, le_refl _, by omega, h.1, by rw [← hs]; exact h.2⟩
      · intro hc; cases hc
    · have hnn := sMod_nonneg p (by omega) i
      have hlt := sMod_lt p (by omega) i
      have hne := sMod_ne_one p hp hodd i
      have h2 : 2 ≤ L.s := by
        rw [hs]
        rcases Nat.eq_zero_or_pos i with h0 | h0
        · subst h0; rw [sMod_zero_eq p hp]; norm_num
        · have : sMod p i ≠ 0 := fun hz => h ⟨h0, by rw [hs]; exact hz⟩
          omega
      have hstep := step_residue p hp L.s L.hi h2 (by rw [hs]; exact hlt)
      have hs1 : (mersenne_reduce_once (L.s * L.s - 2) (2 ^ p - 1) p L.hi).1 =
          sMod p (i + 1) := by rw [hstep, sMod_succ, hs]
      rw [ll_loop_step _ _ _ _ _ _ _ _ _ _ h
        (by rw [hs1]; exact ⟨sMod_nonneg p (by omega) _, sMod_lt p (by omega) _⟩)]
      obtain ⟨f1, f2, f3⟩ := ll_body_flags env cfg cb (2 ^ p - 1) p t st i L
      have hb := ih (i + 1) (ll_body env cfg cb (2 ^ p - 1) p t st i L)
        (by rw [ll_body_s, hs1]) (by rw [f1, hv]) (by rw [f2, he])
      refine ⟨hb.1, ?_, ?_⟩
      · rw [hb.2.1]
        constructor
        · rintro ⟨k, h1, h2, h3, h4⟩; exact ⟨k, by omega, by omega, h3, h4⟩
        · rintro ⟨k, h1, h2, h3, h4⟩
          refine ⟨k, ?_, by omega, h3, h4⟩
          rcases Nat.eq_or_lt_of_le h1 with e | e
          · subst e; exact absurd ⟨h3, by rw [hs]; exact h4⟩ h
          · exact e
      · intro hc
        obtain ⟨g1, g2⟩ := hb.2.2 hc
        refine ⟨by rw [g1]; congr 1; omega, by rw [g2, f3]; omega⟩

/-! ## Exact modular arithmetic in `prime.cpp` -/

/-- On 64-bit operands `mod_mul` is the exact product modulo `m`. -/
theorem mod_mul_eq (a b m : Nat) (hm : m ≠ 0) (hm64 : m ≤ 2 ^ 64) (ha : a < 2 ^ 64)
    (hb : b < 2 ^ 64) : mod_mul a b m = some (a * b % m) := by
  unfold mod_mul
  rw [if_neg hm]
  have h1 : a * b < 2 ^ 128 := by
    calc a * b < 2 ^ 64 * 2 ^ 64 := Nat.mul_lt_mul'' ha hb
      _ = 2 ^ 128 := by norm_num
  have h2 : a * b % m < m := Nat.mod_lt _ (Nat.pos_of_ne_zero hm)
  rw [Nat.mod_eq_of_lt h1, Nat.mod_eq_of_lt (lt_of_lt_of_le h2 hm64)]

/-- The loop of `mod_pow` never runs out of iterations and multiplies `r` by
`a ^ e` modulo `m`. -/
theorem mod_pow_loop_eq (m : Nat) (hm : m ≠ 0) (hm64 : m ≤ 2 ^ 64) :
    ∀ (fuel a e r : Nat), e ≤ fuel → a < 2 ^ 64 → r < m →
      mod_pow_loop m fuel a e r = some (r * a ^ e % m) := by
  intro fuel
  induction fuel with
  | zero =>
    intro a e r he _ hr
    have : e = 0 := by omega
    subst this
    simp [mod_pow_loop, Nat.mod_eq_of_lt hr]
  | succ f ih =>
    intro a e r he ha hr
    rw [mod_pow_loop]
    by_cases h0 : e = 0
    · subst h0; simp [Nat.mod_eq_of_lt hr]
    · rw [if_neg h0]
      have hmpos : 0 < m := Nat.pos_of_ne_zero hm
      have hr64 : r < 2 ^ 64 := lt_of_lt_of_le hr hm64
      have haa : mod_mul a a m = some (a * a % m) := mod_mul_eq a a m hm hm64 ha ha
      have ha1 : a * a % m < 2 ^ 64 := lt_of_lt_of_le (Nat.mod_lt _ hmpos) hm64
      have he2 : e >>> 1 ≤ f := by rw [Nat.shiftRight_eq_div_pow]; omega
      have hpow : (a * a % m) ^ (e >>> 1) % m = a ^ (2 * (e / 2)) % m := by
        rw [Nat.shiftRight_eq_div_pow, pow_one, ← Nat.pow_mod, pow_mul, pow_two]
      rw [Nat.and_one_is_mod]
      by_cases hodd : e % 2 ≠ 0
      · rw [if_pos hodd, mod_mul_eq r a m hm hm64 hr64 ha, haa]
        simp only [Option.some_bind]
        rw [ih _ _ _ he2 ha1 (Nat.mod_lt _ hmpos)]
        congr 1
        have he : e = 2 * (e / 2) + 1 := by omega
        rw [Nat.mul_mod, Nat.mod_mod, hpow, ← Nat.mul_mod]
        conv_rhs => rw [he, pow_succ]
        congr 1; ring
      · rw [if_neg hodd, haa]
        simp only [Option.some_bind]
        rw [ih _ _ _ he2 ha1 hr]
        congr 1
        have he : e = 2 * (e / 2) := by omega
        rw [Nat.mul_mod, hpow, ← Nat.mul_mod]
        conv_rhs => rw [he]

/-- On 64-bit operands `mod_pow` is the exact power modulo `m`. -/
theorem mod_pow_eq (a e m : Nat) (hm : m ≠ 0) (hm64 : m ≤ 2 ^ 64) (ha : a < 2 ^ 64) :
    mod_pow a e m = some (a ^ e % m) := by
  unfold mod_pow
  rw [if_neg hm, mod_pow_loop_eq m hm hm64 e a e (1 % m) (le_refl _) ha]
  · rcases Nat.lt_or_ge 1 m with h | h
    · rw [Nat.mod_eq_of_lt h, one_mul]
    · have : m = 1 := by omega
      subst this; simp [Nat.mod_one]
  · exact Nat.mod_lt _ (Nat.pos_of_ne_zero hm)

/-- The halving loop of `mr_witness` terminates on `d > 0` with `d = d1 * 2 ^ k`,
`d1` odd, and without overflow of the counter. -/
theorem mr_split_spec : ∀ (fuel d s : Nat), 0 < d → d ≤ fuel → d < 2 ^ (32 - s) → s ≤ 32 →
    ∃ d1 k, mr_split fuel d s = some (d1, s + k) ∧ d = d1 * 2 ^ k ∧ d1 % 2 = 1 := by
  intro fuel
  induction fuel with
  | zero => intro d s hd hf; omega
  | succ f ih =>
    intro d s hd hf hlt hs
    rw [mr_split, Nat.and_one_is_mod]
    by_cases hev : d % 2 = 0
    · rw [if_pos hev, Nat.shiftRight_eq_div_pow, pow_one]
      have hs32 : s < 32 := by
        rcases Nat.lt_or_ge s 32 with h | h
        · exact h
        · have : s = 32 := by omega
          subst this
          simp at hlt
          omega
      have hlt2 : d / 2 < 2 ^ (32 - (s + 1)) := by
        have : 2 ^ (32 - s) = 2 * 2 ^ (32 - (s + 1)) := by
          rw [← pow_succ']; congr 1; omega
        omega
      have hw : (s + 1) % 2 ^ 32 = s + 1 := Nat.mod_eq_of_lt (by omega)
      rw [hw]
      obtain ⟨d1, k, h1, h2, h3⟩ := ih (d / 2) (s + 1) (by omega) (by omega) hlt2 (by omega)
      refine ⟨d1, k + 1, ?_, ?_, h3⟩
      · rw [h1]; congr 2; omega
      · rw [pow_succ, ← mul_assoc, ← h2]; omega
    · rw [if_neg hev]
      exact ⟨d, 0, rfl, by simp, by omega⟩

/-- The squaring loop returns true when one of the squarings gives `n - 1`. -/
theorem mr_square_loop_true (n : Nat) (hn : n ≠ 0) (hn64 : n ≤ 2 ^ 64) :
    ∀ (k x : Nat), x < 2 ^ 64 → (∃ j, 1 ≤ j ∧ j ≤ k ∧ x ^ 2 ^ j % n = n - 1) →
      mr_square_loop n k x = some true := by
  intro k
  induction k with
  | zero => rintro x _ ⟨j, h1, h2, -⟩; omega
  | succ k ih =>
    rintro x hx ⟨j, h1, h2, h3⟩
    rw [mr_square_loop, mod_mul_eq x x n hn hn64 hx hx]
    simp only [Option.some_bind]
    by_cases hc : x * x % n = n - 1
    · rw [if_pos hc]
    · rw [if_neg hc]
      apply ih _ (lt_of_lt_of_le (Nat.mod_lt _ (Nat.pos_of_ne_zero hn)) hn64)
      have hj : 2 ≤ j := by
        rcases Nat.lt_or_ge j 2 with h | h
        · have : j = 1 := by omega
          subst this
          rw [pow_one, pow_two] at h3
          exact absurd h3 hc
        · exact h
      refine ⟨j - 1, by omega, by omega, ?_⟩
      rw [← Nat.pow_mod, ← pow_two, ← pow_mul, ← pow_succ']
      have : j - 1 + 1 = j := by omega
      rw [this, h3]

/-! ## Primes pass the exponent check -/

/-- In a field, if `y ^ 2 ^ s = 1` then `y = 1` or some `y ^ 2 ^ j` with `j < s`
is `-1`. -/
theorem pow_two_pow_eq_one {F : Type*} [Field F] (y : F) :
    ∀ s : Nat, y ^ 2 ^ s = 1 → y = 1 ∨ ∃ j, j < s ∧ y ^ 2 ^ j = -1 := by
  intro s
  induction s with
  | zero => intro h; left; simpa using h
  | succ s ih =>
    intro h
    rw [pow_succ, pow_mul, sq_eq_one_iff] at h
    rcases h with h | h
    · rcases ih h with h1 | ⟨j, hj, h1⟩
      · exact Or.inl h1
      · exact Or.inr ⟨j, by omega, h1⟩
    · exact Or.inr ⟨s, by omega, h⟩

theorem natCast_eq_neg_one_iff (n t : Nat) (hn : 2 ≤ n) :
    ((t : ZMod n) = -1) ↔ t % n = n - 1 := by
  have h1 : ((n - 1 : Nat) : ZMod n) = -1 := by
    rw [Nat.cast_sub (by omega)]; simp
  rw [← h1, ZMod.natCast_eq_natCast_iff', Nat.mod_eq_of_lt (a := n - 1) (by omega)]

theorem natCast_eq_one_iff (n t : Nat) (hn : 2 ≤ n) :
    ((t : ZMod n) = 1) ↔ t % n = 1 := by
  have h1 : ((1 : Nat) : ZMod n) = 1 := by simp
  rw [← h1, ZMod.natCast_eq_natCast_iff', Nat.mod_eq_of_lt (a := 1) (by omega)]

/-- A prime passes the Miller–Rabin test to every base. -/
theorem mr_witness_prime (n a : Nat) (hn : Nat.Prime n) (hn32 : n < 2 ^ 32) (ha : a < 2 ^ 64) :
    mr_witness n a = some true := by
  have hn2 := hn.two_le
  have hn0 : n ≠ 0 := by omega
  have hn64 : n ≤ 2 ^ 64 := le_trans hn32.le (Nat.pow_le_pow_right (by norm_num) (by norm_num))
  unfold mr_witness
  rw [if_neg hn0]
  by_cases han : a % n = 0
  · rw [if_pos han]
  rw [if_neg han]
  obtain ⟨d1, k, hsplit, hd, -⟩ :=
    mr_split_spec (n - 1) (n - 1) 0 (by omega) (le_refl _) (by simpa using by omega) (by omega)
  rw [hsplit, zero_add]
  simp only [Option.some_bind]
  rw [mod_pow_eq a d1 n hn0 hn64 ha]
  simp only [Option.some_bind]
  haveI := Fact.mk hn
  have hane : (a : ZMod n) ≠ 0 := by
    rw [Ne, ZMod.natCast_zmod_eq_zero_iff_dvd]
    intro hdvd
    exact han (Nat.mod_eq_zero_of_dvd hdvd)
  have hy : ((a : ZMod n) ^ d1) ^ 2 ^ k = 1 := by
    rw [← pow_mul, ← hd]
    exact ZMod.pow_card_sub_one_eq_one hane
  have hcast : ∀ j, ((((a ^ d1 % n) ^ 2 ^ j : Nat)) : ZMod n) = ((a : ZMod n) ^ d1) ^ 2 ^ j := by
    intro j
    push_cast
    rw [ZMod.natCast_mod]
    push_cast
    rfl
  rcases pow_two_pow_eq_one _ k hy with h1 | ⟨j, hj, h1⟩
  · have : a ^ d1 % n = 1 := by
      have h2 := hcast 0
      rw [pow_zero, pow_one, pow_one, h1, natCast_eq_one_iff n _ hn2, Nat.mod_mod] at h2
      exact h2
    rw [if_pos (Or.inl this)]
  · rcases Nat.eq_zero_or_pos j with hj0 | hj0
    · subst hj0
      have : a ^ d1 % n = n - 1 := by
        have h2 := hcast 0
        rw [h1, pow_zero, pow_one, natCast_eq_neg_one_iff n _ hn2, Nat.mod_mod] at h2
        exact h2
      rw [if_pos (Or.inr this)]
    · split_ifs
      · rfl
      · apply mr_square_loop_true n hn0 hn64 _ _
          (lt_of_lt_of_le (Nat.mod_lt _ (by omega)) hn64)
        refine ⟨j, hj0, by omega, ?_⟩
        have h2 := hcast j
        rw [h1, natCast_eq_neg_one_iff n _ hn2] at h2
        exact h2

theorem small_loop_prime (p : Nat) (hp : Nat.Prime p) :
    ∀ l : List Nat, (∀ q ∈ l, Nat.Prime q) →
      small_loop p l = some true ∨ small_loop p l = none := by
  intro l
  induction l with
  | nil => intro _; right; rfl
  | cons q qs ih =>
    intro hq
    rw [small_loop]
    by_cases h1 : p = q
    · rw [if_pos h1]; left; rfl
    · rw [if_neg h1]
      have hqp : Nat.Prime q := hq q (List.mem_cons_self _ _)
      have h2 : ¬ p % q = 0 := by
        intro h
        have := (Nat.prime_dvd_prime_iff_eq hqp hp).1 (Nat.dvd_of_mod_eq_zero h)
        exact h1 this.symm
      rw [if_neg h2]
      exact ih (fun q' hq' => hq q' (List.mem_cons_of_mem _ hq'))

theorem bases_loop_prime (p : Nat) (hp : Nat.Prime p) (hp32 : p < 2 ^ 32) :
    ∀ l : List Nat, (∀ a ∈ l, a < 2 ^ 64) → bases_loop p l = some true := by
  intro l
  induction l with
  | nil => intro _; rfl
  | cons a rest ih =>
    intro h
    rw [bases_loop, mr_witness_prime p a hp hp32 (h a (List.mem_cons_self _ _))]
    simp only [Option.some_bind, if_true]
    exact ih (fun b hb => h b (List.mem_cons_of_mem _ hb))

theorem small_all_prime : ∀ q ∈ small, Nat.Prime q := by
  intro q hq
  simp only [small, List.mem_cons, List.mem_singleton, List.not_mem_nil, or_false] at hq
  rcases hq with rfl | rfl | rfl | rfl | rfl | rfl | rfl | rfl | rfl | rfl | rfl <;> norm_num

/-- Every prime below `2 ^ 32` is accepted by `is_prime_exponent`. -/
theorem is_prime_exponent_of_prime (p : Nat) (hp : Nat.Prime p) (hp32 : p < 2 ^ 32) :
    is_prime_exponent p = some true := by
  unfold is_prime_exponent
  by_cases h2 : p = 2
  · rw [if_pos h2]
  rw [if_neg h2]
  have hodd : p % 2 = 1 := (hp.eq_two_or_odd).resolve_left h2
  have hc : ¬ (p < 2 ∨ p &&& 1 = 0) := by
    rw [Nat.and_one_is_mod]
    have := hp.two_le
    omega
  rw [if_neg hc]
  rcases small_loop_prime p hp small small_all_prime with h | h
  · rw [h]
  · rw [h]
    exact bases_loop_prime p hp hp32 bases (by
      intro a ha
      simp only [bases, List.mem_cons, List.mem_singleton, List.not_mem_nil, or_false] at ha
      rcases ha with rfl | rfl | rfl | rfl | rfl <;> norm_num)

/-- An accepted exponent other than 2 is odd and at least 3. -/
theorem accepted_odd (p : Nat) (h : is_prime_exponent p = some true) (h2 : p ≠ 2) :
    3 ≤ p ∧ p % 2 = 1 := by
  unfold is_prime_exponent at h
  rw [if_neg h2] at h
  by_cases hc : p < 2 ∨ p &&& 1 = 0
  · rw [if_pos hc] at h; cases h
  · rw [Nat.and_one_is_mod] at hc
    omega

/-! ## The Lucas–Lehmer residue of a Mersenne prime -/

/-- The ring `X q` has characteristic `q`. -/
theorem X_charP (q : ℕ+) : CharP (X q) q := by
  refine ⟨fun n => ⟨fun h => ?_, fun h => ?_⟩⟩
  · have h1 : (n : X q).1 = (0 : X q).1 := by rw [h]
    exact (ZMod.natCast_zmod_eq_zero_iff_dvd n q).1 h1
  · ext
    · exact (ZMod.natCast_zmod_eq_zero_iff_dvd n q).2 h
    · rfl

theorem omega_add_omegab (q : ℕ+) : (ω : X q) + ωb = 4 := by
  ext
  · simp [ω, ωb]; norm_num
  · simp [ω, ωb]

theorem X_natCast_eq (q : ℕ+) (n : Nat) (c : ZMod q) (d : X q) (h : (n : ZMod q) = c)
    (hd1 : d.1 = c) (hd2 : d.2 = 0) : (n : X q) = d := by
  ext
  · rw [X.fst_natCast, h, hd1]
  · rw [X.snd_natCast, hd2]

theorem X_ofNat_pow (q : ℕ+) (a k : Nat) (d : X q) (h : ((a : ZMod q)) ^ k = d.1)
    (hd2 : d.2 = 0) : ((a : Nat) : X q) ^ k = d := by
  have : ((a : Nat) : X q) ^ k = ((a ^ k : Nat) : X q) := by push_cast; rfl
  rw [this]
  exact X_natCast_eq q _ d.1 d (by push_cast; exact h) rfl hd2

/-- For a prime `q` modulo which 2 is a square and 3 is not,
`ω ^ ((q + 1) / 2) = -1` in `X q`. -/
theorem omega_pow_half (q : ℕ+) [hq : Fact (Nat.Prime q)]
    (h3 : ¬ IsSquare (3 : ZMod q)) (h2 : IsSquare (2 : ZMod q)) (hq2 : (q : Nat) ≠ 2) :
    (ω : X q) ^ (((q : Nat) + 1) / 2) = -1 := by
  haveI := X_charP q
  have hodd : (q : Nat) = 2 * ((q : Nat) / 2) + 1 := by
    have := hq.out.eq_two_or_odd
    omega
  have hN : ((q : Nat) + 1) / 2 = (q : Nat) / 2 + 1 := by omega
  have h20 : (2 : ZMod q) ≠ 0 := by
    intro h
    have h' : ((2 : Nat) : ZMod q) = 0 := by exact_mod_cast h
    rw [ZMod.natCast_zmod_eq_zero_iff_dvd] at h'
    exact hq2 ((Nat.prime_dvd_prime_iff_eq hq.out Nat.prime_two).1 h')
  have h30 : (3 : ZMod q) ≠ 0 := by
    intro h; apply h3; rw [h]; exact isSquare_zero
  have h2pow : (2 : ZMod q) ^ ((q : Nat) / 2) = 1 := (ZMod.euler_criterion q h20).1 h2
  have h3pow : (3 : ZMod q) ^ ((q : Nat) / 2) = -1 := by
    rcases ZMod.pow_div_two_eq_neg_one_or_one q h30 with h | h
    · exact absurd ((ZMod.euler_criterion q h30).2 h) h3
    · exact h
  have h2X : (2 : X q) ^ ((q : Nat) / 2) = 1 := by
    have := X_ofNat_pow q 2 ((q : Nat) / 2) 1 (by simpa using h2pow) (by simp)
    simpa using this
  have h3X : (3 : X q) ^ ((q : Nat) / 2) = -1 := by
    have := X_ofNat_pow q 3 ((q : Nat) / 2) (-1) (by simpa using h3pow) (by simp)
    simpa using this
  have hmul : (ω : X q) * ωb = 1 := ω_mul_ωb q
  have hadd := omega_add_omegab q
  have hr2 : ((ω : X q) - 2) ^ 2 = 3 := by linear_combination (ω : X q) * hadd - hmul
  have hrq : ((ω : X q) - 2) ^ (q : Nat) = -(ω - 2) := by
    conv_lhs => rw [hodd]
    rw [pow_succ, pow_mul, hr2, h3X]; ring
  have huq : ((ω : X q) - 1) ^ (q : Nat) = 3 - ω := by
    have : (ω : X q) - 1 = 1 + (ω - 2) := by ring
    rw [this, add_pow_char, one_pow, hrq]; ring
  have hu2 : ((ω : X q) - 1) ^ 2 = 2 * ω := by linear_combination hr2
  have hu : ((ω : X q) - 1) ^ ((q : Nat) + 1) = -2 := by
    rw [pow_succ, huq]; linear_combination -hr2
  have h2ω : (2 * (ω : X q)) ^ (((q : Nat) + 1) / 2) = -2 := by
    rw [← hu2, ← pow_mul]
    have : 2 * (((q : Nat) + 1) / 2) = (q : Nat) + 1 := by omega
    rw [this, hu]
  rw [mul_pow, hN, pow_succ (2 : X q), h2X, one_mul, ← hN] at h2ω
  have hinv : (((((q : Nat) + 1) / 2 : Nat)) : X q) * 2 = 1 := by
    have h1 : ((((q : Nat) + 1) / 2 * 2 : Nat) : X q) = 1 := by
      have : ((q : Nat) + 1) / 2 * 2 = (q : Nat) + 1 := by omega
      rw [this]; push_cast
      rw [CharP.cast_eq_zero (X q) (q : Nat), zero_add]
    exact_mod_cast h1
  calc (ω : X q) ^ (((q : Nat) + 1) / 2)
      = ((((q : Nat) + 1) / 2 : Nat) : X q) * 2 * ω ^ (((q : Nat) + 1) / 2) := by
        rw [hinv, one_mul]
    _ = ((((q : Nat) + 1) / 2 : Nat) : X q) * (2 * ω ^ (((q : Nat) + 1) / 2)) := by ring
    _ = -(((((q : Nat) + 1) / 2 : Nat) : X q) * 2) := by rw [h2ω]; ring
    _ = -1 := by rw [hinv]

theorem two_isSquare_mersenne (p : Nat) (hodd : p % 2 = 1) :
    IsSquare (2 : ZMod (2 ^ p - 1)) := by
  refine ⟨(2 : ZMod (2 ^ p - 1)) ^ ((p + 1) / 2), ?_⟩
  have h1 : ((2 : ZMod (2 ^ p - 1))) ^ p = 1 := by
    have h : (((2 ^ p - 1 + 1 : Nat)) : ZMod (2 ^ p - 1)) = 1 := by
      rw [Nat.cast_add, ZMod.natCast_self, zero_add, Nat.cast_one]
    have e : 2 ^ p - 1 + 1 = 2 ^ p := Nat.sub_add_cancel Nat.one_le_two_pow
    rw [e] at h
    exact_mod_cast h
  rw [← pow_add]
  have : (p + 1) / 2 + (p + 1) / 2 = p + 1 := by omega
  rw [this, pow_succ, h1, one_mul]

/-- The necessity half of the Lucas–Lehmer theorem: if `2 ^ p - 1` is prime (`p`
odd, at least 3) then the residue after `p - 2` steps is zero. -/
theorem lucas_lehmer_necessity (p : Nat) (hp : 3 ≤ p) (hodd : p % 2 = 1)
    (hM : Nat.Prime (2 ^ p - 1)) : sMod p (p - 2) = 0 := by
  obtain ⟨q, hq⟩ : ∃ q : ℕ+, (q : Nat) = 2 ^ p - 1 := ⟨⟨2 ^ p - 1, hM.pos⟩, rfl⟩
  rw [← residue_eq_zero_iff_sMod_eq_zero p (by omega)]
  obtain ⟨p', rfl⟩ : ∃ p', p = p' + 2 := ⟨p - 2, by omega⟩
  unfold lucasLehmerResidue
  rw [sZMod_eq_s]
  have h7 : 7 ≤ 2 ^ (p' + 2) - 1 := by
    have h8 : 2 ^ 3 ≤ 2 ^ (p' + 2) := Nat.pow_le_pow_right (by norm_num) hp
    omega
  haveI : Fact (Nat.Prime (q : Nat)) := ⟨by rw [hq]; exact hM⟩
  have h3 : ¬ IsSquare (3 : ZMod q) := by
    have tr : ∀ (n m : Nat), n = m → ¬ IsSquare (3 : ZMod m) → ¬ IsSquare (3 : ZMod n) := by
      intro n m h; subst h; exact id
    have := three_not_square (p' + 2) (by omega) hodd
    exact tr _ _ hq (by simpa using this)
  have h2 : IsSquare (2 : ZMod q) := by
    have tr : ∀ (n m : Nat), n = m → IsSquare (2 : ZMod m) → IsSquare (2 : ZMod n) := by
      intro n m h; subst h; exact id
    exact tr _ _ hq (two_isSquare_mersenne (p' + 2) hodd)
  have hω := omega_pow_half q h3 h2 (by rw [hq]; omega)
  have hN : ((q : Nat) + 1) / 2 = 2 ^ p' * 2 := by
    rw [hq]
    have : 2 ^ (p' + 2) = 2 ^ p' * 2 * 2 := by rw [pow_add]; norm_num; ring
    have h1 : 1 ≤ 2 ^ p' := Nat.one_le_two_pow
    omega
  rw [hN, pow_mul, pow_two] at hω
  have hAB : (ω : X q) ^ 2 ^ p' * ωb ^ 2 ^ p' = 1 := by
    rw [← mul_pow, ω_mul_ωb, one_pow]
  have hs : ((s (p' + 2 - 2) : Int) : X q) = 0 := by
    rw [closed_form]
    simp only [Nat.add_sub_cancel]
    linear_combination (ωb : X q) ^ 2 ^ p' * hω - (ω : X q) ^ 2 ^ p' * hAB
  have hfst := congrArg Prod.fst hs
  rw [X.fst_intCast] at hfst
  have hcast : ∀ (n m : Nat) (h : n = m) (z : Int), (z : ZMod n) = 0 → (z : ZMod m) = 0 := by
    intro n m h z hz; subst h; exact hz
  exact hcast _ _ hq _ hfst

/-! ## `ll_test` as a whole -/

/-- After a zero residue the sequence is `M - 2, 2, 2, ...`. -/
theorem sMod_after_zero (p : Nat) (hp : 3 ≤ p) (k : Nat) (hk : sMod p k = 0) :
    ∀ j, sMod p (k + 1 + j) = if j = 0 then 2 ^ p - 1 - 2 else 2 := by
  have h7 := seven_le_mersenne p hp
  intro j
  induction j with
  | zero =>
    rw [if_pos rfl, add_zero, sMod_succ, hk]
    have : ((0 : Int) ^ 2 - 2) = (2 ^ p - 1 - 2) + (-1) * (2 ^ p - 1) := by ring
    rw [this, Int.add_mul_emod_self]
    exact Int.emod_eq_of_lt (by linarith) (by linarith)
  | succ j ih =>
    rw [if_neg (Nat.succ_ne_zero j), ← add_assoc, sMod_succ, ih]
    by_cases hj : j = 0
    · rw [if_pos hj]
      have : ((2 : Int) ^ p - 1 - 2) ^ 2 - 2 = 2 + (2 ^ p - 1 - 4) * (2 ^ p - 1) := by ring
      rw [this, Int.add_mul_emod_self]
      exact Int.emod_eq_of_lt (by norm_num) (by linarith)
    · rw [if_neg hj]
      norm_num
      exact Int.emod_eq_of_lt (by norm_num) (by linarith)

/-- After a zero residue the sequence never returns to zero. -/
theorem sMod_ne_zero_after_zero (p : Nat) (hp : 3 ≤ p) (k n : Nat) (hk : sMod p k = 0)
    (hkn : k < n) : sMod p n ≠ 0 := by
  have h7 := seven_le_mersenne p hp
  obtain ⟨j, rfl⟩ : ∃ j, n = k + 1 + j := ⟨n - k - 1, by omega⟩
  rw [sMod_after_zero p hp k hk j]
  split_ifs <;> linarith

/-- The loop of `ll_test` on an odd exponent `p ≥ 3`. -/
theorem ll_run_spec (env : Env) (cfg : LLConfig) (cb : Bool)
    (hp : 3 ≤ cfg.p) (hodd : cfg.p % 2 = 1) :
    (ll_run env cfg cb).violated = false ∧
    ((ll_run env cfg cb).early_composite = true ↔
      ∃ k, 0 < k ∧ k < cfg.p - 2 ∧ sMod cfg.p k = 0) ∧
    ((ll_run env cfg cb).early_composite = false →
      (ll_run env cfg cb).s = sMod cfg.p (cfg.p - 2) ∧
      (ll_run env cfg cb).steps = cfg.p - 2) := by
  have h := ll_loop_spec env cfg cb cfg.p (cfg.p - 2)
    (effective_stride cfg.progress_stride (cfg.p - 2)) hp hodd (cfg.p - 2) 0
    { s := 4, tmp := 0, hi := 0 } (sMod_zero_eq cfg.p hp).symm rfl rfl
  refine ⟨h.1, ?_, ?_⟩
  · show (ll_loop _ _ _ _ _ _ _ _ _ _).early_composite = true ↔ _
    rw [h.2.1]
    constructor
    · rintro ⟨k, -, h2, h3, h4⟩; exact ⟨k, h3, by omega, h4⟩
    · rintro ⟨k, h1, h2, h3⟩; exact ⟨k, Nat.zero_le _, by omega, h1, h3⟩
  · intro he
    have := h.2.2 he
    simpa using this

/-- What `ll_test` returns on an accepted exponent other than 2. -/
theorem ll_test_accepted (env : Env) (cfg : LLConfig) (cb : Bool)
    (hacc : is_prime_exponent cfg.p = some true) (hne : cfg.p ≠ 2) :
    ll_test env cfg cb =
      { outcome := .returned
          { p := cfg.p, iterations := cfg.p - 2, ns_elapsed := env.elapsed_ns,
            final_residue_is_zero :=
              if (ll_run env cfg cb).early_composite then false
              else decide ((ll_run env cfg cb).s = 0),
            is_prime :=
              if (ll_run env cfg cb).early_composite then false
              else decide ((ll_run env cfg cb).s = 0),
            engine_info := env.engine_info },
        steps := (ll_run env cfg cb).steps, calls := (ll_run env cfg cb).calls } := by
  obtain ⟨h3, hodd⟩ := accepted_odd cfg.p hacc hne
  have hv := (ll_run_spec env cfg cb h3 hodd).1
  unfold ll_test
  simp only [hacc, hne, hv, if_neg (show ¬ cfg.p < 2 by omega)]
  simp

/-- The fast path `p = 2`. -/
theorem ll_test_two (env : Env) (cfg : LLConfig) (cb : Bool) (h2 : cfg.p = 2) :
    ll_test env cfg cb =
      { outcome := .returned
          { p := 2, iterations := 0, ns_elapsed := 0, final_residue_is_zero := true,
            is_prime := true, engine_info := env.engine_info },
        steps := 0, calls := [] } := by
  have hacc : is_prime_exponent 2 = some true := rfl
  unfold ll_test
  simp only [h2, hacc, if_neg (show ¬ (2 : Nat) < 2 by omega)]
  simp

/-- A rejected exponent: `invalid_argument`, no loop body, no sink call. -/
theorem ll_test_rejected (env : Env) (cfg : LLConfig) (cb : Bool)
    (h : cfg.p < 2 ∨ is_prime_exponent cfg.p = some false) :
    ∃ w, ll_test env cfg cb =
      { outcome := .thrown (.invalid_argument w), steps := 0, calls := [] } := by
  unfold ll_test
  by_cases h2 : cfg.p < 2
  · refine ⟨"p must be >= 2", ?_⟩
    simp only [if_pos h2]
  · have hf := h.resolve_left h2
    refine ⟨"exponent p must be prime", ?_⟩
    simp only [if_neg h2, hf]

/-- A returned result means that the exponent was accepted. -/
theorem ll_test_returned_inv (env : Env) (cfg : LLConfig) (cb : Bool) (r : LLResult)
    (hret : (ll_test env cfg cb).outcome = .returned r) :
    2 ≤ cfg.p ∧ is_prime_exponent cfg.p = some true := by
  by_cases h2 : cfg.p < 2
  · obtain ⟨w, hw⟩ := ll_test_rejected env cfg cb (Or.inl h2)
    rw [hw] at hret; cases hret
  refine ⟨by omega, ?_⟩
  cases hpe : is_prime_exponent cfg.p with
  | none =>
    unfold ll_test at hret
    simp only [if_neg h2, hpe] at hret
    cases hret
  | some b =>
    cases b with
    | false =>
      obtain ⟨w, hw⟩ := ll_test_rejected env cfg cb (Or.inr hpe)
      rw [hw] at hret; cases hret
    | true => rfl

/-- The verdict computed by the loop is the Lucas–Lehmer residue test. -/
theorem ll_run_verdict (env : Env) (cfg : LLConfig) (cb : Bool)
    (hp : 3 ≤ cfg.p) (hodd : cfg.p % 2 = 1) :
    (if (ll_run env cfg cb).early_composite then false
      else decide ((ll_run env cfg cb).s = 0)) = decide (sMod cfg.p (cfg.p - 2) = 0) := by
  obtain ⟨-, hearly, hfull⟩ := ll_run_spec env cfg cb hp hodd
  cases he : (ll_run env cfg cb).early_composite with
  | true =>
    obtain ⟨k, -, hk2, hk3⟩ := hearly.1 he
    have := sMod_ne_zero_after_zero cfg.p hp k (cfg.p - 2) hk3 hk2
    simp [this]
  | false =>
    rw [(hfull he).1]
    simp

/-- On an accepted exponent other than 2 both flags of the result are the
Lucas–Lehmer residue test `sMod p (p - 2) = 0`. -/
theorem ll_test_verdict (env : Env) (cfg : LLConfig) (cb : Bool)
    (hacc : is_prime_exponent cfg.p = some true) (hne : cfg.p ≠ 2) :
    (ll_test env cfg cb).outcome = .returned
      { p := cfg.p, iterations := cfg.p - 2, ns_elapsed := env.elapsed_ns,
        final_residue_is_zero := decide (sMod cfg.p (cfg.p - 2) = 0),
        is_prime := decide (sMod cfg.p (cfg.p - 2) = 0),
        engine_info := env.engine_info } := by
  obtain ⟨h3, hodd⟩ := accepted_odd cfg.p hacc hne
  rw [ll_test_accepted env cfg cb hacc hne, ll_run_verdict env cfg cb h3 hodd]

theorem mersenne_pos_of_one_le (p : Nat) (hp : 1 ≤ p) : (0 : Int) < 2 ^ p - 1 := by
  have : (2 : Int) ^ 1 ≤ 2 ^ p := pow_le_pow_right₀ (by norm_num) hp
  linarith

/-! ## The claims -/

/-- C2: whenever `ll_test` returns a result with `is_prime = true`, the
Mersenne number `2 ^ p - 1` is prime.  (The exponent check that `ll_test`
performs itself is all that is used of `p`.) -/
theorem ll_test_prime_sound (env : Env) (cfg : LLConfig) (cb : Bool) (r : LLResult)
    (hret : (ll_test env cfg cb).outcome = .returned r) (hprime : r.is_prime = true) :
    Nat.Prime (2 ^ cfg.p - 1) := by
  obtain ⟨h2, hacc⟩ := ll_test_returned_inv env cfg cb r hret
  by_cases hp2 : cfg.p = 2
  · rw [hp2]; norm_num
  · rw [ll_test_verdict env cfg cb hacc hp2] at hret
    injection hret with hr
    subst hr
    have hz : sMod cfg.p (cfg.p - 2) = 0 := by simpa using hprime
    have hres := (residue_eq_zero_iff_sMod_eq_zero cfg.p (by omega)).2 hz
    exact lucas_lehmer_sufficiency cfg.p (by omega) hres

theorem ll_test_prime_sound_witness :
    (ll_test ⟨true, 8, 0, ""⟩ { p := 5 } true).outcome =
        .returned { p := 5, is_prime := true, iterations := 3, ns_elapsed := 0,
                    final_residue_is_zero := true, engine_info := "" } ∧
      Nat.Prime (2 ^ (5 : Nat) - 1) :=
  ⟨by decide,
   ll_test_prime_sound ⟨true, 8, 0, ""⟩ { p := 5 } true
    { p := 5, is_prime := true, iterations := 3, ns_elapsed := 0,
      final_residue_is_zero := true, engine_info := "" }
    (by decide) (by decide)⟩

/-- C3: for every prime 32-bit exponent `p` such that `2 ^ p - 1` is prime,
`ll_test` returns a result (it throws nothing, with or without the invariant
check compiled in) and the result has `is_prime = true` and
`final_residue_is_zero = true`. -/
theorem ll_test_mersenne_prime (env : Env) (cfg : LLConfig) (cb : Bool)
    (hp32 : cfg.p < 2 ^ 32) (hp : Nat.Prime cfg.p) (hM : Nat.Prime (2 ^ cfg.p - 1)) :
    ∃ r, (ll_test env cfg cb).outcome = .returned r ∧ r.is_prime = true ∧
      r.final_residue_is_zero = true := by
  have hacc := is_prime_exponent_of_prime cfg.p hp hp32
  by_cases hp2 : cfg.p = 2
  · rw [ll_test_two env cfg cb hp2]
    exact ⟨_, rfl, rfl, rfl⟩
  · obtain ⟨h3, hodd⟩ := accepted_odd cfg.p hacc hp2
    rw [ll_test_verdict env cfg cb hacc hp2]
    have hz := lucas_lehmer_necessity cfg.p h3 hodd hM
    exact ⟨_, rfl, by simp [hz], by simp [hz]⟩

theorem ll_test_mersenne_prime_witness :
    ((7 : Nat) < 2 ^ 32 ∧ Nat.Prime 7 ∧ Nat.Prime (2 ^ 7 - 1)) ∧
    ∃ r, (ll_test ⟨true, 8, 0, ""⟩ { p := 7 } true).outcome = .returned r ∧
      r.is_prime = true ∧ r.final_residue_is_zero = true :=
  ⟨⟨by norm_num, by norm_num, by norm_num⟩,
   ll_test_mersenne_prime ⟨true, 8, 0, ""⟩ { p := 7 } true (by norm_num) (by norm_num)
    (by norm_num)⟩

/-- C4: the truth table.  With progress disabled and no sink, for every `p`
in {2, 3, 5, 7, 13, 17, 19, 31} `ll_test` returns `p` unchanged,
`is_prime = true`, `final_residue_is_zero = true` and `iterations = p - 2`
(0 for `p = 2`); for every `p` in {11, 23} it returns `is_prime = false` and
`final_residue_is_zero = false`. -/
theorem ll_test_truth_table (env : Env) :
    (∀ p ∈ [2, 3, 5, 7, 13, 17, 19, 31], ∃ r,
      (ll_test env { p := p, enable_progress := false } false).outcome = .returned r ∧
      r.p = p ∧ r.is_prime = true ∧ r.final_residue_is_zero = true ∧
      r.iterations = p - 2) ∧
    (∀ p ∈ [11, 23], ∃ r,
      (ll_test env { p := p, enable_progress := false } false).outcome = .returned r ∧
      r.is_prime = false ∧ r.final_residue_is_zero = false) := by
  have key : ∀ (p : Nat) (b : Bool), is_prime_exponent p = some true → p ≠ 2 →
      decide (sMod p (p - 2) = 0) = b → ∃ r,
      (ll_test env { p := p, enable_progress := false } false).outcome = .returned r ∧
      r.p = p ∧ r.is_prime = b ∧ r.final_residue_is_zero = b ∧ r.iterations = p - 2 := by
    intro p b hacc hne hb
    have := ll_test_verdict env { p := p, enable_progress := false } false hacc hne
    exact ⟨_, this, rfl, hb, hb, rfl⟩
  constructor
  · intro p hp
    simp only [List.mem_cons, List.mem_singleton, List.not_mem_nil, or_false] at hp
    rcases hp with rfl | rfl | rfl | rfl | rfl | rfl | rfl | rfl
    · exact ⟨_, by rw [ll_test_two _ _ _ rfl], rfl, rfl, rfl, rfl⟩
    · exact key 3 true (by decide) (by decide) (by norm_num [sMod])
    · exact key 5 true (by decide) (by decide) (by norm_num [sMod])
    · exact key 7 true (by decide) (by decide) (by norm_num [sMod])
    · exact key 13 true (by decide) (by decide) (by norm_num [sMod])
    · exact key 17 true (by decide) (by decide) (by norm_num [sMod])
    · exact key 19 true (by decide) (by decide) (by norm_num [sMod])
    · exact key 31 true (by decide) (by decide) (by norm_num [sMod])
  · intro p hp
    simp only [List.mem_cons, List.mem_singleton, List.not_mem_nil, or_false] at hp
    rcases hp with rfl | rfl
    · obtain ⟨r, h1, -, h3, h4, -⟩ := key 11 false (by decide) (by decide) (by norm_num [sMod])
      exact ⟨r, h1, h3, h4⟩
    · obtain ⟨r, h1, -, h3, h4, -⟩ := key 23 false (by decide) (by decide) (by norm_num [sMod])
      exact ⟨r, h1, h3, h4⟩

/-- C5: `ll_test` throws `invalid_argument` exactly when `p < 2` or
`is_prime_exponent(p)` returns false; in that case no result is returned, no
loop body is executed and the progress sink is never invoked, whatever the
progress settings and the sink.  Each of 0, 1, 4, 6, 8, 9, 21 is rejected. -/
theorem ll_test_rejects_iff (env : Env) (cfg : LLConfig) (cb : Bool) :
    ((∃ w, (ll_test env cfg cb).outcome = .thrown (.invalid_argument w)) ↔
      (cfg.p < 2 ∨ is_prime_exponent cfg.p = some false)) ∧
    ((cfg.p < 2 ∨ is_prime_exponent cfg.p = some false) →
      (∀ r, (ll_test env cfg cb).outcome ≠ .returned r) ∧
      (ll_test env cfg cb).steps = 0 ∧ (ll_test env cfg cb).calls = []) ∧
    (cfg.p ∈ [0, 1, 4, 6, 8, 9, 21] →
      ∃ w, (ll_test env cfg cb).outcome = .thrown (.invalid_argument w)) := by
  have hrej : (cfg.p < 2 ∨ is_prime_exponent cfg.p = some false) →
      ∃ w, (ll_test env cfg cb).outcome = .thrown (.invalid_argument w) := by
    intro h
    obtain ⟨w, hw⟩ := ll_test_rejected env cfg cb h
    exact ⟨w, by rw [hw]⟩
  refine ⟨⟨?_, hrej⟩, ?_, ?_⟩
  · rintro ⟨w, hw⟩
    by_contra hcon
    push_neg at hcon
    obtain ⟨h2, hne⟩ := hcon
    cases hpe : is_prime_exponent cfg.p with
    | none =>
      unfold ll_test at hw
      simp only [if_neg (not_lt.2 h2), hpe] at hw
      cases hw
    | some b =>
      cases b with
      | false => exact hne hpe
      | true =>
        by_cases hp2 : cfg.p = 2
        · rw [ll_test_two env cfg cb hp2] at hw; cases hw
        · rw [ll_test_verdict env cfg cb hpe hp2] at hw; cases hw
  · intro h
    obtain ⟨w, hw⟩ := ll_test_rejected env cfg cb h
    rw [hw]
    exact ⟨fun r hr => Outcome.noConfusion hr, rfl, rfl⟩
  · intro hp
    apply hrej
    simp only [List.mem_cons, List.mem_singleton, List.not_mem_nil, or_false] at hp
    rcases hp with h | h | h | h | h | h | h <;> rw [h] <;> decide

theorem ll_test_rejects_iff_witness :
    (∃ w, (ll_test ⟨true, 8, 0, ""⟩ { p := 9 } true).outcome =
        .thrown (.invalid_argument w)) ∧
      (∀ r, (ll_test ⟨true, 8, 0, ""⟩ { p := 9 } true).outcome ≠ .returned r) ∧
      (ll_test ⟨true, 8, 0, ""⟩ { p := 9 } true).steps = 0 ∧
      (ll_test ⟨true, 8, 0, ""⟩ { p := 9 } true).calls = [] :=
  ⟨(ll_test_rejects_iff ⟨true, 8, 0, ""⟩ { p := 9 } true).2.2 (by decide),
   (ll_test_rejects_iff ⟨true, 8, 0, ""⟩ { p := 9 } true).2.1 (Or.inr (by decide))⟩

/-- C6, as stated, fails: for `p = 2` (`M = 3`) the input `x = 27` satisfies
`0 ≤ x < 4 * M ^ 2 = 36`, yet `mersenne_reduce_once` leaves `3`, which is
neither `27 mod 3 = 0` nor a value below `M`. -/
theorem mersenne_reduce_once_bound_too_wide :
    (1 ≤ 2 ∧ (0 : Int) ≤ 27 ∧ (27 : Int) < 4 * (2 ^ 2 - 1) ^ 2) ∧
      (mersenne_reduce_once 27 (2 ^ 2 - 1) 2 0).1 = 3 ∧
      (27 : Int) % (2 ^ 2 - 1) = 0 ∧
      ¬ ((mersenne_reduce_once 27 (2 ^ 2 - 1) 2 0).1 < 2 ^ 2 - 1) := by
  decide

/-- C6, amended: for every `p ≥ 1` with `M = 2 ^ p - 1` and every integer `x`
with `0 ≤ x < 2 * M ^ 2 + 3 * M`, `mersenne_reduce_once(x, M, p, hi)` leaves
`x` equal to `x mod M`, a value in `[0, M)`. -/
theorem mersenne_reduce_once_correct (p : Nat) (x hi : Int) (hp : 1 ≤ p) (hx : 0 ≤ x)
    (hlt : x < 2 * (2 ^ p - 1) ^ 2 + 3 * (2 ^ p - 1)) :
    (mersenne_reduce_once x (2 ^ p - 1) p hi).1 = x % (2 ^ p - 1) ∧
      0 ≤ (mersenne_reduce_once x (2 ^ p - 1) p hi).1 ∧
      (mersenne_reduce_once x (2 ^ p - 1) p hi).1 < 2 ^ p - 1 := by
  have hM := mersenne_pos_of_one_le p hp
  rw [reduce_of_sum_lt p x hi hp hx (fold_sum_lt p x hx hlt)]
  exact ⟨rfl, Int.emod_nonneg _ hM.ne', Int.emod_lt_of_pos _ hM⟩

theorem mersenne_reduce_once_correct_witness :
    (1 ≤ 2 ∧ (0 : Int) ≤ 26 ∧ (26 : Int) < 2 * (2 ^ 2 - 1) ^ 2 + 3 * (2 ^ 2 - 1)) ∧
      (mersenne_reduce_once 26 (2 ^ 2 - 1) 2 0).1 = 26 % (2 ^ 2 - 1) ∧
      0 ≤ (mersenne_reduce_once 26 (2 ^ 2 - 1) 2 0).1 ∧
      (mersenne_reduce_once 26 (2 ^ 2 - 1) 2 0).1 < 2 ^ 2 - 1 :=
  ⟨by decide, mersenne_reduce_once_correct 2 26 0 (by decide) (by decide) (by decide)⟩

/-- C7: for every `p ≥ 1` with `M = 2 ^ p - 1` and every integer `x` with
`0 ≤ x < M ^ 2`, the output of `mersenne_reduce_once` equals `x mod M`
computed by generic modular reduction. -/
theorem mersenne_reduce_once_refines_generic (p : Nat) (x hi : Int) (hp : 1 ≤ p) (hx : 0 ≤ x)
    (hlt : x < (2 ^ p - 1) ^ 2) :
    (mersenne_reduce_once x (2 ^ p - 1) p hi).1 = generic_mod x (2 ^ p - 1) := by
  have hM := mersenne_pos_of_one_le p hp
  have hb : x < 2 * (2 ^ p - 1) ^ 2 + 3 * (2 ^ p - 1) := by nlinarith
  exact reduce_of_sum_lt p x hi hp hx (fold_sum_lt p x hx hb)

theorem mersenne_reduce_once_refines_generic_witness :
    (1 ≤ 3 ∧ (0 : Int) ≤ 48 ∧ (48 : Int) < (2 ^ 3 - 1) ^ 2) ∧
      (mersenne_reduce_once 48 (2 ^ 3 - 1) 3 0).1 = generic_mod 48 (2 ^ 3 - 1) :=
  ⟨by decide, mersenne_reduce_once_refines_generic 3 48 0 (by decide) (by decide) (by decide)⟩

/-- C9: for every exponent `p` accepted by `ll_test` (the exponent check
returns true), a result is returned, and the returned `iterations` field
equals `p - 2` (0 on the `p = 2` fast path) and the returned `p` field equals
the input exponent, whether or not the loop stopped early. -/
theorem ll_test_iterations (env : Env) (cfg : LLConfig) (cb : Bool)
    (hacc : is_prime_exponent cfg.p = some true) :
    (∃ r, (ll_test env cfg cb).outcome = .returned r) ∧
    (∀ r, (ll_test env cfg cb).outcome = .returned r →
      r.iterations = cfg.p - 2 ∧ r.p = cfg.p) := by
  by_cases hp2 : cfg.p = 2
  · rw [ll_test_two env cfg cb hp2]
    refine ⟨⟨_, rfl⟩, ?_⟩
    intro r hr
    injection hr with hr
    subst hr
    exact ⟨by rw [hp2], hp2.symm⟩
  · rw [ll_test_verdict env cfg cb hacc hp2]
    refine ⟨⟨_, rfl⟩, ?_⟩
    intro r hr
    injection hr with hr
    subst hr
    exact ⟨rfl, rfl⟩

theorem ll_test_iterations_witness :
    is_prime_exponent 11 = some true ∧
    (∃ r, (ll_test ⟨true, 8, 0, ""⟩ { p := 11 } true).outcome = .returned r) ∧
    (∀ r, (ll_test ⟨true, 8, 0, ""⟩ { p := 11 } true).outcome = .returned r →
      r.iterations = 11 - 2 ∧ r.p = 11) :=
  ⟨by decide, ll_test_iterations ⟨true, 8, 0, ""⟩ { p := 11 } true (by decide)⟩

/-- C10: in every result returned by `ll_test`, `is_prime` is true if and
only if `final_residue_is_zero` is true: both are true on the `p = 2` fast
path, both are false after an early exit, and after a full run of `p - 2`
loop bodies both equal (final residue == 0). -/
theorem ll_test_flags_agree (env : Env) (cfg : LLConfig) (cb : Bool) (r : LLResult)
    (hret : (ll_test env cfg cb).outcome = .returned r) :
    (r.is_prime = true ↔ r.final_residue_is_zero = true) ∧
    (cfg.p = 2 → r.is_prime = true ∧ r.final_residue_is_zero = true) ∧
    (cfg.p ≠ 2 → (ll_run env cfg cb).early_composite = true →
      r.is_prime = false ∧ r.final_residue_is_zero = false) ∧
    (cfg.p ≠ 2 → (ll_run env cfg cb).early_composite = false →
      (ll_run env cfg cb).steps = cfg.p - 2 ∧
      r.is_prime = decide ((ll_run env cfg cb).s = 0) ∧
      r.final_residue_is_zero = decide ((ll_run env cfg cb).s = 0)) := by
  obtain ⟨h2, hacc⟩ := ll_test_returned_inv env cfg cb r hret
  by_cases hp2 : cfg.p = 2
  · rw [ll_test_two env cfg cb hp2] at hret
    injection hret with hr
    subst hr
    exact ⟨Iff.rfl, fun _ => ⟨rfl, rfl⟩, fun h => absurd hp2 h, fun h => absurd hp2 h⟩
  · obtain ⟨h3, hodd⟩ := accepted_odd cfg.p hacc hp2
    rw [ll_test_accepted env cfg cb hacc hp2] at hret
    injection hret with hr
    subst hr
    refine ⟨Iff.rfl, fun h => absurd h hp2, ?_, ?_⟩
    · intro _ he
      simp [he]
    · intro _ he
      exact ⟨((ll_run_spec env cfg cb h3 hodd).2.2 he).2, by simp [he], by simp [he]⟩

theorem ll_test_flags_agree_witness :
    (ll_test ⟨true, 8, 0, ""⟩ { p := 11 } false).outcome =
        .returned { p := 11, is_prime := false, iterations := 9, ns_elapsed := 0,
                    final_residue_is_zero := false, engine_info := "" } ∧
    (ll_run ⟨true, 8, 0, ""⟩ { p := 11 } false).early_composite = false ∧
    (ll_run ⟨true, 8, 0, ""⟩ { p := 11 } false).steps = 11 - 2 ∧
    false = decide ((ll_run ⟨true, 8, 0, ""⟩ { p := 11 } false).s = 0) :=
  ⟨by decide, by decide,
   ((ll_test_flags_agree ⟨true, 8, 0, ""⟩ { p := 11 } false
      { p := 11, is_prime := false, iterations := 9, ns_elapsed := 0,
        final_residue_is_zero := false, engine_info := "" } (by decide)).2.2.2
      (by decide) (by decide)).1,
   ((ll_test_flags_agree ⟨true, 8, 0, ""⟩ { p := 11 } false
      { p := 11, is_prime := false, iterations := 9, ns_elapsed := 0,
        final_residue_is_zero := false, engine_info := "" } (by decide)).2.2.2
      (by decide) (by decide)).2.1⟩

/-! ## The reference sequence and the trace of the sink -/

/-- The reference sequence of the specification is Mathlib's `sMod` for `p ≥ 3`. -/
theorem reference_residue_eq_sMod (p : Nat) (hp : 3 ≤ p) (k : Nat) :
    reference_residue p k = sMod p k := by
  induction k with
  | zero => rw [sMod_zero_eq p hp]; rfl
  | succ k ih => rw [sMod_succ, ← ih]; rfl

/-- What one loop body adds to the record of sink calls. -/
theorem ll_body_calls (env : Env) (cfg : LLConfig) (cb : Bool) (M : Int) (p t st i : Nat)
    (L : Loop) :
    (ll_body env cfg cb M p t st i L).calls =
      L.calls ++
        (if cb = true ∧ cfg.enable_progress = true ∧ scheduled st t i = true then
          [(i, make_residue_digest (limb_data env.limb_bytes
            (mersenne_reduce_once (L.s * L.s - 2) M p L.hi).1))]
        else []) := by
  unfold ll_body scheduled
  simp only [decide_eq_true_eq]
  split_ifs <;> simp

/-- One loop body from a residue of the reference sequence, when the loop does
not leave early: the loop goes on from the next residue. -/
theorem ll_loop_unfold (env : Env) (cfg : LLConfig) (cb : Bool) (p t st : Nat)
    (hp : 3 ≤ p) (hodd : p % 2 = 1) (n i : Nat) (L : Loop) (hs : L.s = sMod p i)
    (h : ¬ (i > 0 ∧ L.s = 0)) :
    ll_loop env cfg cb (2 ^ p - 1) p t st (n + 1) i L =
      ll_loop env cfg cb (2 ^ p - 1) p t st n (i + 1)
        (ll_body env cfg cb (2 ^ p - 1) p t st i L) ∧
    (mersenne_reduce_once (L.s * L.s - 2) (2 ^ p - 1) p L.hi).1 = sMod p (i + 1) := by
  have hnn := sMod_nonneg p (by omega) i
  have hlt := sMod_lt p (by omega) i
  have hne := sMod_ne_one p hp hodd i
  have h2 : 2 ≤ L.s := by
    rw [hs]
    rcases Nat.eq_zero_or_pos i with h0 | h0
    · subst h0; rw [sMod_zero_eq p hp]; norm_num
    · have : sMod p i ≠ 0 := fun hz => h ⟨h0, by rw [hs]; exact hz⟩
      omega
  have hstep := step_residue p hp L.s L.hi h2 (by rw [hs]; exact hlt)
  have hs1 : (mersenne_reduce_once (L.s * L.s - 2) (2 ^ p - 1) p L.hi).1 =
      sMod p (i + 1) := by rw [hstep, sMod_succ, hs]
  refine ⟨?_, hs1⟩
  exact ll_loop_step _ _ _ _ _ _ _ _ _ _ h
    (by rw [hs1]; exact ⟨sMod_nonneg p (by omega) _, sMod_lt p (by omega) _⟩)

/-- The sink calls made by the loop: one for every executed body whose index
is scheduled, in the order of the bodies, each with the digest of the residue
that the body produced. -/
theorem ll_loop_calls (env : Env) (cfg : LLConfig) (cb : Bool) (p t st : Nat)
    (hp : 3 ≤ p) (hodd : p % 2 = 1) :
    ∀ (n i : Nat) (L : Loop), L.s = sMod p i →
      L.steps ≤ (ll_loop env cfg cb (2 ^ p - 1) p t st n i L).steps ∧
      (ll_loop env cfg cb (2 ^ p - 1) p t st n i L).calls =
        L.calls ++
          (if cb = true ∧ cfg.enable_progress = true then
            ((List.range' i ((ll_loop env cfg cb (2 ^ p - 1) p t st n i L).steps - L.steps)).filter
              (scheduled st t)).map
              fun j => (j, make_residue_digest (limb_data env.limb_bytes (sMod p (j + 1))))
          else []) := by
  intro n
  induction n with
  | zero =>
    intro i L _
    rw [ll_loop_zero]
    simp
  | succ n ih =>
    intro i L hs
    by_cases h : i > 0 ∧ L.s = 0
    · rw [ll_loop_early _ _ _ _ _ _ _ _ _ _ h]
      simp
    · obtain ⟨hun, hs1⟩ := ll_loop_unfold env cfg cb p t st hp hodd n i L hs h
      rw [hun]
      obtain ⟨-, -, f3⟩ := ll_body_flags env cfg cb (2 ^ p - 1) p t st i L
      obtain ⟨g1, g2⟩ := ih (i + 1) (ll_body env cfg cb (2 ^ p - 1) p t st i L)
        (by rw [ll_body_s, hs1])
      rw [f3] at g1
      refine ⟨by omega, ?_⟩
      rw [g2, ll_body_calls, hs1, f3, List.append_assoc]
      congr 1
      have hsplit : (ll_loop env cfg cb (2 ^ p - 1) p t st n (i + 1)
          (ll_body env cfg cb (2 ^ p - 1) p t st i L)).steps - L.steps =
          ((ll_loop env cfg cb (2 ^ p - 1) p t st n (i + 1)
          (ll_body env cfg cb (2 ^ p - 1) p t st i L)).steps - (L.steps + 1)) + 1 := by omega
      rw [hsplit, List.range'_succ]
      by_cases hc : cb = true ∧ cfg.enable_progress = true
      · by_cases hsch : scheduled st t i = true
        · simp only [if_pos hc, if_pos (⟨hc.1, hc.2, hsch⟩ :
            cb = true ∧ cfg.enable_progress = true ∧ scheduled st t i = true),
            List.filter_cons_of_pos hsch, List.map_cons, List.singleton_append]
        · simp only [if_pos hc, if_neg (fun hh => hsch hh.2.2 :
            ¬ (cb = true ∧ cfg.enable_progress = true ∧ scheduled st t i = true)),
            List.filter_cons_of_neg hsch, List.nil_append]
      · simp only [if_neg hc, if_neg (fun hh => hc ⟨hh.1, hh.2.1⟩ :
            ¬ (cb = true ∧ cfg.enable_progress = true ∧ scheduled st t i = true)),
            List.append_nil]

/-- Every loop body that was executed after the first one started from a
non-zero residue. -/
theorem ll_loop_executed_nonzero (env : Env) (cfg : LLConfig) (cb : Bool) (p t st : Nat)
    (hp : 3 ≤ p) (hodd : p % 2 = 1) :
    ∀ (n i : Nat) (L : Loop), L.s = sMod p i →
      ∀ j, i ≤ j → j < i + ((ll_loop env cfg cb (2 ^ p - 1) p t st n i L).steps - L.steps) →
        0 < j → sMod p j ≠ 0 := by
  intro n
  induction n with
  | zero =>
    intro i L _ j h1 h2
    rw [ll_loop_zero] at h2
    omega
  | succ n ih =>
    intro i L hs j h1 h2 h3
    by_cases h : i > 0 ∧ L.s = 0
    · rw [ll_loop_early _ _ _ _ _ _ _ _ _ _ h] at h2
      simp at h2
      omega
    · obtain ⟨hun, hs1⟩ := ll_loop_unfold env cfg cb p t st hp hodd n i L hs h
      rw [hun] at h2
      obtain ⟨-, -, f3⟩ := ll_body_flags env cfg cb (2 ^ p - 1) p t st i L
      rcases Nat.eq_or_lt_of_le h1 with e | e
      · subst e
        intro hz
        exact h ⟨h3, by rw [hs]; exact hz⟩
      · apply ih (i + 1) (ll_body env cfg cb (2 ^ p - 1) p t st i L) (by rw [ll_body_s, hs1])
          j e _ h3
        rw [f3]
        omega

/-- The sink calls of the whole loop of `ll_test`. -/
theorem ll_run_calls (env : Env) (cfg : LLConfig) (cb : Bool)
    (hp : 3 ≤ cfg.p) (hodd : cfg.p % 2 = 1) :
    (ll_run env cfg cb).calls =
      if cb = true ∧ cfg.enable_progress = true then
        ((List.range (ll_run env cfg cb).steps).filter
          (scheduled (effective_stride cfg.progress_stride (cfg.p - 2)) (cfg.p - 2))).map
          fun j => (j, make_residue_digest (limb_data env.limb_bytes (sMod cfg.p (j + 1))))
      else [] := by
  have h := (ll_loop_calls env cfg cb cfg.p (cfg.p - 2)
    (effective_stride cfg.progress_stride (cfg.p - 2)) hp hodd (cfg.p - 2) 0
    { s := 4, tmp := 0, hi := 0 } (sMod_zero_eq cfg.p hp).symm).2
  rw [List.range_eq_range']
  simpa [ll_run] using h

/-- The residue held after `i + 1` loop bodies, for every body that the loop
of `ll_test` executes, is the residue `i + 1` of the Lucas–Lehmer sequence. -/
theorem ll_run_residue (env : Env) (cfg : LLConfig) (cb : Bool)
    (hp : 3 ≤ cfg.p) (hodd : cfg.p % 2 = 1) (i : Nat) (hi : i < (ll_run env cfg cb).steps) :
    (ll_loop env cfg cb (2 ^ cfg.p - 1) cfg.p (cfg.p - 2)
      (effective_stride cfg.progress_stride (cfg.p - 2)) (i + 1) 0
      { s := 4, tmp := 0, hi := 0 }).s = sMod cfg.p (i + 1) := by
  have hnz := ll_loop_executed_nonzero env cfg cb cfg.p (cfg.p - 2)
    (effective_stride cfg.progress_stride (cfg.p - 2)) hp hodd (cfg.p - 2) 0
    { s := 4, tmp := 0, hi := 0 } (sMod_zero_eq cfg.p hp).symm
  have hspec := ll_loop_spec env cfg cb cfg.p (cfg.p - 2)
    (effective_stride cfg.progress_stride (cfg.p - 2)) hp hodd (i + 1) 0
    { s := 4, tmp := 0, hi := 0 } (sMod_zero_eq cfg.p hp).symm rfl rfl
  have hne : (ll_loop env cfg cb (2 ^ cfg.p - 1) cfg.p (cfg.p - 2)
      (effective_stride cfg.progress_stride (cfg.p - 2)) (i + 1) 0
      { s := 4, tmp := 0, hi := 0 }).early_composite = false := by
    cases hb : (ll_loop env cfg cb (2 ^ cfg.p - 1) cfg.p (cfg.p - 2)
      (effective_stride cfg.progress_stride (cfg.p - 2)) (i + 1) 0
      { s := 4, tmp := 0, hi := 0 }).early_composite with
    | false => rfl
    | true =>
      obtain ⟨k, -, hk2, hk3, hk4⟩ := hspec.2.1.1 hb
      exact absurd hk4 (hnz k (Nat.zero_le _) (by
        have : (ll_run env cfg cb).steps = (ll_loop env cfg cb (2 ^ cfg.p - 1) cfg.p (cfg.p - 2)
          (effective_stride cfg.progress_stride (cfg.p - 2)) (cfg.p - 2) 0
          { s := 4, tmp := 0, hi := 0 }).steps := rfl
        simp only [] at hi ⊢
        omega) hk3)
  have := (hspec.2.2 hne).1
  simpa using this

/-- The number of `i < m` with `i + 1` a multiple of `k`. -/
theorem multiples_count (k : Nat) (m : Nat) :
    ((List.range m).filter fun i => decide ((i + 1) % k = 0)).length = m / k := by
  induction m with
  | zero => simp
  | succ m ih =>
    rw [List.range_succ, List.filter_append, List.length_append, ih, Nat.succ_div]
    by_cases h : (m + 1) % k = 0
    · have hd : k ∣ m + 1 := Nat.dvd_of_mod_eq_zero h
      simp [h, hd]
    · have hd : ¬ k ∣ m + 1 := fun hd => h (Nat.mod_eq_zero_of_dvd hd)
      simp [h, hd]

/-- The scheduled iterations of a complete run of `n ≥ 1` bodies: the multiples
of the stride below `n`, and the last one. -/
theorem scheduled_filter (k n : Nat) (hn : 1 ≤ n) :
    (List.range n).filter (scheduled k n) =
      ((List.range (n - 1)).filter fun i => decide ((i + 1) % k = 0)) ++ [n - 1] := by
  obtain ⟨m, rfl⟩ : ∃ m, n = m + 1 := ⟨n - 1, by omega⟩
  rw [List.range_succ, List.filter_append, Nat.add_sub_cancel]
  congr 1
  · apply List.filter_congr
    intro i hi
    have := List.mem_range.1 hi
    unfold scheduled
    have hne : ¬ (i + 1 = m + 1) := by omega
    simp [hne]
  · simp [scheduled]

/-- A complete run of `n ≥ 1` bodies with stride `k ≥ 1` has
`ceil (n / k) = (n + k - 1) / k` scheduled iterations. -/
theorem scheduled_count (k n : Nat) (hn : 1 ≤ n) (hk : 1 ≤ k) :
    ((List.range n).filter (scheduled k n)).length = (n + k - 1) / k := by
  rw [scheduled_filter k n hn, List.length_append, multiples_count, List.length_singleton]
  have : n + k - 1 = (n - 1) + k := by omega
  rw [this, Nat.add_div_right _ (by omega)]

theorem effective_stride_pos (s n : Nat) : 1 ≤ effective_stride s n := by
  unfold effective_stride
  split_ifs with h
  · omega
  · exact le_max_left _ _

/-! ## The exponent check never fails -/

theorem mod_mul_total (a b m : Nat) (hm : m ≠ 0) : ∃ v, mod_mul a b m = some v := by
  unfold mod_mul
  rw [if_neg hm]
  exact ⟨_, rfl⟩

/-- The loop of `mod_pow` ends before its counter does, whatever the operands. -/
theorem mod_pow_loop_total (m : Nat) (hm : m ≠ 0) :
    ∀ (fuel a e r : Nat), e ≤ fuel → ∃ v, mod_pow_loop m fuel a e r = some v := by
  intro fuel
  induction fuel with
  | zero =>
    intro a e r he
    have : e = 0 := by omega
    subst this
    exact ⟨r, by simp [mod_pow_loop]⟩
  | succ f ih =>
    intro a e r he
    rw [mod_pow_loop]
    by_cases h0 : e = 0
    · rw [if_pos h0]; exact ⟨r, rfl⟩
    · rw [if_neg h0]
      have he2 : e >>> 1 ≤ f := by rw [Nat.shiftRight_eq_div_pow]; omega
      obtain ⟨a1, ha1⟩ := mod_mul_total a a m hm
      by_cases hodd : e &&& 1 ≠ 0
      · obtain ⟨r1, hr1⟩ := mod_mul_total r a m hm
        rw [if_pos hodd, hr1, ha1]
        exact ih a1 _ r1 he2
      · rw [if_neg hodd, ha1]
        exact ih a1 _ r he2

theorem mod_pow_total (a e m : Nat) (hm : m ≠ 0) : ∃ v, mod_pow a e m = some v := by
  unfold mod_pow
  rw [if_neg hm]
  exact mod_pow_loop_total m hm e a e _ (le_refl _)

/-- The halving loop of `mr_witness` terminates on every `d > 0`. -/
theorem mr_split_total : ∀ (fuel d s : Nat), 0 < d → d ≤ fuel →
    ∃ r, mr_split fuel d s = some r := by
  intro fuel
  induction fuel with
  | zero => intro d s hd hf; omega
  | succ f ih =>
    intro d s hd hf
    rw [mr_split, Nat.and_one_is_mod]
    by_cases hev : d % 2 = 0
    · rw [if_pos hev, Nat.shiftRight_eq_div_pow, pow_one]
      exact ih _ _ (by omega) (by omega)
    · rw [if_neg hev]; exact ⟨_, rfl⟩

theorem mr_square_loop_total (n : Nat) (hn : n ≠ 0) :
    ∀ (k x : Nat), ∃ b, mr_square_loop n k x = some b := by
  intro k
  induction k with
  | zero => intro x; exact ⟨false, rfl⟩
  | succ k ih =>
    intro x
    obtain ⟨x1, hx1⟩ := mod_mul_total x x n hn
    rw [mr_square_loop, hx1]
    simp only [Option.some_bind]
    split_ifs
    · exact ⟨true, rfl⟩
    · exact ih x1

/-- For `n ≠ 0` the call `mr_witness(n, a)` is defined: no division by zero,
and the halving loop terminates. -/
theorem mr_witness_total (n a : Nat) (hn : n ≠ 0) : ∃ b, mr_witness n a = some b := by
  unfold mr_witness
  rw [if_neg hn]
  by_cases han : a % n = 0
  · rw [if_pos han]; exact ⟨true, rfl⟩
  rw [if_neg han]
  have hn1 : 0 < n - 1 := by
    rcases Nat.lt_or_ge 1 n with h | h
    · omega
    · have : n = 1 := by omega
      subst this
      exact absurd (Nat.mod_one a) han
  obtain ⟨ds, hds⟩ := mr_split_total (n - 1) (n - 1) 0 hn1 (le_refl _)
  obtain ⟨x, hx⟩ := mod_pow_total a ds.1 n hn
  rw [hds, Option.some_bind, hx, Option.some_bind]
  split_ifs
  · exact ⟨true, rfl⟩
  · exact mr_square_loop_total n hn _ _

theorem bases_loop_total (p : Nat) (hp : p ≠ 0) :
    ∀ l : List Nat, ∃ b, bases_loop p l = some b := by
  intro l
  induction l with
  | nil => exact ⟨true, rfl⟩
  | cons a rest ih =>
    obtain ⟨w, hw⟩ := mr_witness_total p a hp
    rw [bases_loop, hw]
    simp only [Option.some_bind]
    cases w with
    | true => simpa using ih
    | false => exact ⟨false, by simp⟩

/-- The exponent check always returns a boolean. -/
theorem is_prime_exponent_total (p : Nat) : ∃ b, is_prime_exponent p = some b := by
  unfold is_prime_exponent
  by_cases h2 : p = 2
  · rw [if_pos h2]; exact ⟨true, rfl⟩
  rw [if_neg h2]
  by_cases hc : p < 2 ∨ p &&& 1 = 0
  · rw [if_pos hc]; exact ⟨false, rfl⟩
  rw [if_neg hc]
  cases hs : small_loop p small with
  | some b => exact ⟨b, rfl⟩
  | none => exact bases_loop_total p (by omega) bases

/-- The loop over `small` falls through only for an exponent above 37. -/
theorem small_loop_none (p : Nat) (hp : 3 ≤ p) (hodd : p % 2 = 1)
    (h : small_loop p small = none) : 37 < p := by
  by_contra hle
  have hp37 : p ≤ 37 := by omega
  clear hle
  interval_cases p <;> first | omega | (revert h; decide)

/-! ## The trace of `ll_test` -/

/-- The steps and sink calls that `ll_test` reports on an accepted exponent
other than 2 are those of its loop. -/
theorem ll_test_trace (env : Env) (cfg : LLConfig) (cb : Bool)
    (hacc : is_prime_exponent cfg.p = some true) (hne : cfg.p ≠ 2) :
    (ll_test env cfg cb).steps = (ll_run env cfg cb).steps ∧
    (ll_test env cfg cb).calls = (ll_run env cfg cb).calls := by
  rw [ll_test_accepted env cfg cb hacc hne]
  exact ⟨rfl, rfl⟩

/-- The loop of `ll_test` executes at most `p - 2` bodies, and all of them
unless it leaves early. -/
theorem ll_run_steps_le (env : Env) (cfg : LLConfig) (cb : Bool)
    (hp : 3 ≤ cfg.p) (hodd : cfg.p % 2 = 1) :
    (ll_run env cfg cb).steps ≤ cfg.p - 2 := by
  by_contra hlt
  push_neg at hlt
  have h1 := ll_run_residue env cfg cb hp hodd (cfg.p - 2) hlt
  have hnz := ll_loop_executed_nonzero env cfg cb cfg.p (cfg.p - 2)
    (effective_stride cfg.progress_stride (cfg.p - 2)) hp hodd (cfg.p - 2) 0
    { s := 4, tmp := 0, hi := 0 } (sMod_zero_eq cfg.p hp).symm
  obtain ⟨-, hearly, hfull⟩ := ll_run_spec env cfg cb hp hodd
  cases he : (ll_run env cfg cb).early_composite with
  | false =>
    have := (hfull he).2
    omega
  | true =>
    obtain ⟨k, hk1, hk2, hk3⟩ := hearly.1 he
    refine hnz k (Nat.zero_le _) ?_ hk1 hk3
    have : (ll_run env cfg cb).steps = (ll_loop env cfg cb (2 ^ cfg.p - 1) cfg.p (cfg.p - 2)
      (effective_stride cfg.progress_stride (cfg.p - 2)) (cfg.p - 2) 0
      { s := 4, tmp := 0, hi := 0 }).steps := rfl
    simp only [] at this ⊢
    omega

/-- The sink calls of `ll_test` on an accepted exponent other than 2, in terms
of the reference sequence of the specification. -/
theorem ll_test_calls (env : Env) (cfg : LLConfig) (cb : Bool)
    (hacc : is_prime_exponent cfg.p = some true) (hne : cfg.p ≠ 2) :
    (ll_test env cfg cb).calls =
      if cb = true ∧ cfg.enable_progress = true then
        ((List.range (ll_test env cfg cb).steps).filter
          (scheduled (effective_stride cfg.progress_stride (cfg.p - 2)) (cfg.p - 2))).map
          fun j => (j, make_residue_digest
            (limb_data env.limb_bytes (reference_residue cfg.p (j + 1))))
      else [] := by
  obtain ⟨h3, hodd⟩ := accepted_odd cfg.p hacc hne
  obtain ⟨hs, hc⟩ := ll_test_trace env cfg cb hacc hne
  rw [hc, hs, ll_run_calls env cfg cb h3 hodd]
  have : (fun j => (j, make_residue_digest
      (limb_data env.limb_bytes (reference_residue cfg.p (j + 1))))) =
      fun j => (j, make_residue_digest (limb_data env.limb_bytes (sMod cfg.p (j + 1)))) := by
    funext j
    rw [reference_residue_eq_sMod cfg.p h3]
  rw [this]

/-- With stride 1 every iteration is scheduled. -/
theorem scheduled_stride_one (n i : Nat) : scheduled 1 n i = true := by
  simp [scheduled, Nat.mod_one]

theorem effective_stride_one (s n : Nat) (h : s = 1 ∨ (s = 0 ∧ n < 200)) :
    effective_stride s n = 1 := by
  unfold effective_stride
  rcases h with h | ⟨h, hn⟩
  · subst h; simp
  · subst h
    simp only [ne_eq, not_true_eq_false, if_false]
    have : n / 100 ≤ 1 := by omega
    omega

/-- The indices of the sink calls are strictly increasing. -/
theorem filter_range_sorted (n : Nat) (f : Nat → Bool) :
    ((List.range n).filter f).Pairwise (· < ·) :=
  List.Pairwise.sublist (List.filter_sublist _) (List.pairwise_lt_range n)

/-- The indices of the sink calls of `ll_test`. -/
theorem ll_test_call_indices (env : Env) (cfg : LLConfig)
    (hacc : is_prime_exponent cfg.p = some true) (hne : cfg.p ≠ 2)
    (hen : cfg.enable_progress = true) :
    (ll_test env cfg true).calls.map Prod.fst =
      (List.range (ll_test env cfg true).steps).filter
        (scheduled (effective_stride cfg.progress_stride (cfg.p - 2)) (cfg.p - 2)) := by
  rw [ll_test_calls env cfg true hacc hne, if_pos ⟨rfl, hen⟩, List.map_map]
  have hid : (Prod.fst ∘ fun j => (j, make_residue_digest
      (limb_data env.limb_bytes (reference_residue cfg.p (j + 1))))) = id := rfl
  rw [hid, List.map_id]

/-- Without a sink, or with progress disabled, `ll_test` never invokes the
sink, whatever the exponent. -/
theorem ll_test_no_calls (env : Env) (cfg : LLConfig) (cb : Bool)
    (h : cfg.enable_progress = false ∨ cb = false) : (ll_test env cfg cb).calls = [] := by
  by_cases hlt : cfg.p < 2
  · obtain ⟨w, hw⟩ := ll_test_rejected env cfg cb (Or.inl hlt)
    rw [hw]
  cases hpe : is_prime_exponent cfg.p with
  | none =>
    unfold ll_test
    simp only [if_neg hlt, hpe]
  | some b =>
    cases b with
    | false =>
      obtain ⟨w, hw⟩ := ll_test_rejected env cfg cb (Or.inr hpe)
      rw [hw]
    | true =>
      by_cases h2 : cfg.p = 2
      · rw [ll_test_two env cfg cb h2]
      · rw [ll_test_calls env cfg cb hpe h2]
        apply if_neg
        rintro ⟨h1, h3⟩
        rcases h with h | h
        · rw [h] at h3; cases h3
        · rw [h] at h1; cases h1

/-! ## The digests of the run for `p = 7` -/

set_option maxRecDepth 1000000 in
theorem sha256_limb8_14 :
    sha256 [14, 0, 0, 0, 0, 0, 0, 0] =
      [24, 216, 214, 9, 148, 124, 107, 130, 185, 96, 119, 4, 174, 64, 211, 49,
       112, 56, 231, 9, 35, 133, 20, 222, 117, 11, 92, 116, 17, 186, 76, 32] := by
  decide

set_option maxRecDepth 1000000 in
theorem sha256_limb8_67 :
    sha256 [67, 0, 0, 0, 0, 0, 0, 0] =
      [209, 112, 83, 246, 47, 50, 100, 179, 169, 154, 93, 33, 128, 212, 195, 171,
       204, 14, 180, 156, 134, 217, 151, 150, 60, 190, 195, 214, 0, 7, 248, 51] := by
  decide

set_option maxRecDepth 1000000 in
theorem sha256_limb8_42 :
    sha256 [42, 0, 0, 0, 0, 0, 0, 0] =
      [237, 4, 145, 8, 188, 24, 242, 198, 67, 105, 232, 208, 234, 66, 133, 11,
       221, 26, 125, 29, 211, 64, 207, 222, 113, 99, 21, 87, 151, 2, 167, 108] := by
  decide

set_option maxRecDepth 1000000 in
theorem sha256_limb8_111 :
    sha256 [111, 0, 0, 0, 0, 0, 0, 0] =
      [49, 34, 139, 203, 199, 44, 101, 155, 136, 54, 17, 19, 87, 81, 216, 190,
       240, 179, 62, 160, 211, 44, 70, 80, 68, 156, 156, 23, 182, 93, 24, 128] := by
  decide

set_option maxRecDepth 1000000 in
theorem sha256_limb4_14 :
    sha256 [14, 0, 0, 0] =
      [1, 180, 246, 189, 93, 106, 6, 167, 183, 74, 133, 101, 206, 180, 248, 69,
       175, 224, 174, 150, 160, 172, 5, 207, 94, 134, 6, 107, 247, 181, 56, 236] := by
  decide

set_option maxRecDepth 1000000 in
theorem sha256_limb4_67 :
    sha256 [67, 0, 0, 0] =
      [210, 63, 150, 216, 54, 235, 237, 37, 173, 29, 61, 43, 157, 146, 54, 34,
       82, 204, 138, 52, 122, 152, 49, 42, 117, 40, 79, 127, 109, 8, 189, 2] := by
  decide

set_option maxRecDepth 1000000 in
theorem sha256_limb4_42 :
    sha256 [42, 0, 0, 0] =
      [232, 164, 178, 238, 126, 222, 121, 163, 175, 179, 50, 181, 182, 204, 61, 149,
       42, 101, 253, 140, 255, 184, 151, 245, 209, 128, 22, 87, 124, 51, 215, 204] := by
  decide

set_option maxRecDepth 1000000 in
theorem sha256_limb4_111 :
    sha256 [111, 0, 0, 0] =
      [203, 75, 157, 187, 235, 119, 112, 67, 55, 241, 180, 95, 212, 35, 128, 30,
       93, 247, 214, 34, 18, 242, 53, 192, 82, 154, 57, 247, 102, 88, 106, 127] := by
  decide

set_option maxRecDepth 1000000 in
theorem sha256_empty :
    sha256 [] =
      [227, 176, 196, 66, 152, 252, 28, 20, 154, 251, 244, 200, 153, 111, 185, 36,
       39, 174, 65, 228, 100, 155, 147, 76, 164, 149, 153, 27, 120, 82, 184, 85] := by
  decide

set_option maxRecDepth 1000000 in
theorem sha256_abc :
    sha256 [97, 98, 99] =
      [186, 120, 22, 191, 143, 1, 207, 234, 65, 65, 64, 222, 93, 174, 34, 35,
       176, 3, 97, 163, 150, 23, 122, 156, 180, 16, 255, 97, 242, 0, 21, 173] := by
  decide

/-- For `p = 7` the loop runs all five bodies. -/
theorem ll_test_steps_seven (env : Env) (cfg : LLConfig) (cb : Bool) (h7 : cfg.p = 7) :
    (ll_test env cfg cb).steps = 5 := by
  have hacc : is_prime_exponent cfg.p = some true := by rw [h7]; decide
  rw [(ll_test_trace env cfg cb hacc (by omega)).1]
  obtain ⟨-, hearly, hfull⟩ := ll_run_spec env cfg cb (by omega) (by omega)
  have he : (ll_run env cfg cb).early_composite = false := by
    cases hb : (ll_run env cfg cb).early_composite with
    | false => rfl
    | true =>
      obtain ⟨k, hk1, hk2, hk3⟩ := hearly.1 hb
      rw [h7] at hk2 hk3
      exfalso
      interval_cases k <;> norm_num [sMod] at hk3
  rw [(hfull he).2, h7]

/-- A non-zero residue below `2 ^ (8 * lb)` occupies one limb of `lb` bytes. -/
theorem mpz_size_one (lb : Nat) (s : Int) (hs : s ≠ 0)
    (hlt : s.natAbs < 2 ^ (8 * lb)) : mpz_size lb s = 1 := by
  unfold mpz_size
  rw [if_neg hs]
  have h0 : s.natAbs ≠ 0 := by simpa using hs
  have : Nat.log2 s.natAbs < 8 * lb := (Nat.log2_lt h0).2 hlt
  rw [Nat.div_eq_of_lt this]

/-- The limb bytes of a residue `0 < v < 256`: the byte `v`, then zeros. -/
theorem limb_data_byte (lb : Nat) (v : Nat) (hlb : 0 < lb) (hv0 : 0 < v) (hv : v < 256) :
    limb_data lb (v : Int) = (List.range lb).map fun k => (v >>> (8 * k)) % 256 := by
  unfold limb_data
  have hlt : (v : Int).natAbs < 2 ^ (8 * lb) := by
    rw [Int.natAbs_ofNat]
    calc v < 2 ^ 8 := by omega
      _ ≤ 2 ^ (8 * lb) := Nat.pow_le_pow_right (by norm_num) (by omega)
  rw [mpz_size_one lb v (by exact_mod_cast hv0.ne') hlt, one_mul, Int.natAbs_ofNat]

/-- The five residues of `p = 7` have pairwise distinct digests, for 64-bit
and for 32-bit limbs. -/
theorem digests_seven_nodup (lb : Nat) (hlb : lb = 8 ∨ lb = 4) :
    ((List.range 5).map fun j =>
      make_residue_digest (limb_data lb (reference_residue 7 (j + 1)))).Nodup := by
  have hr : List.range 5 = [0, 1, 2, 3, 4] := by decide
  rw [hr]
  simp only [List.map_cons, List.map_nil, make_residue_digest]
  have r1 : reference_residue 7 (0 + 1) = ((14 : Nat) : Int) := by decide
  have r2 : reference_residue 7 (1 + 1) = ((67 : Nat) : Int) := by decide
  have r3 : reference_residue 7 (2 + 1) = ((42 : Nat) : Int) := by decide
  have r4 : reference_residue 7 (3 + 1) = ((111 : Nat) : Int) := by decide
  have r5 : reference_residue 7 (4 + 1) = 0 := by decide
  have z : ∀ n, limb_data n 0 = [] := by intro n; simp [limb_data, mpz_size]
  rw [r1, r2, r3, r4, r5, z]
  rcases hlb with rfl | rfl
  · rw [limb_data_byte 8 14 (by decide) (by decide) (by decide),
      limb_data_byte 8 67 (by decide) (by decide) (by decide),
      limb_data_byte 8 42 (by decide) (by decide) (by decide),
      limb_data_byte 8 111 (by decide) (by decide) (by decide)]
    have e1 : ((List.range 8).map fun k => (14 >>> (8 * k)) % 256) = [14, 0, 0, 0, 0, 0, 0, 0] := by
      decide
    have e2 : ((List.range 8).map fun k => (67 >>> (8 * k)) % 256) = [67, 0, 0, 0, 0, 0, 0, 0] := by
      decide
    have e3 : ((List.range 8).map fun k => (42 >>> (8 * k)) % 256) = [42, 0, 0, 0, 0, 0, 0, 0] := by
      decide
    have e4 : ((List.range 8).map fun k => (111 >>> (8 * k)) % 256) =
        [111, 0, 0, 0, 0, 0, 0, 0] := by decide
    rw [e1, e2, e3, e4, sha256_limb8_14, sha256_limb8_67, sha256_limb8_42,
      sha256_limb8_111, sha256_empty]
    decide
  · rw [limb_data_byte 4 14 (by decide) (by decide) (by decide),
      limb_data_byte 4 67 (by decide) (by decide) (by decide),
      limb_data_byte 4 42 (by decide) (by decide) (by decide),
      limb_data_byte 4 111 (by decide) (by decide) (by decide)]
    have e1 : ((List.range 4).map fun k => (14 >>> (8 * k)) % 256) = [14, 0, 0, 0] := by decide
    have e2 : ((List.range 4).map fun k => (67 >>> (8 * k)) % 256) = [67, 0, 0, 0] := by decide
    have e3 : ((List.range 4).map fun k => (42 >>> (8 * k)) % 256) = [42, 0, 0, 0] := by decide
    have e4 : ((List.range 4).map fun k => (111 >>> (8 * k)) % 256) = [111, 0, 0, 0] := by decide
    rw [e1, e2, e3, e4, sha256_limb4_14, sha256_limb4_67, sha256_limb4_42,
      sha256_limb4_111, sha256_empty]
    decide

/-! ## The exponent check up to 10000 -/

/-- Trial division with enough candidates finds a divisor `k ≥ d` with
`k * k ≤ p` exactly when there is one. -/
theorem trial_loop_spec (p : Nat) :
    ∀ (fuel d : Nat), p < (d + fuel) * (d + fuel) →
      (trial_loop p fuel d = true ↔ ∀ k, d ≤ k → k * k ≤ p → ¬ p % k = 0) := by
  intro fuel
  induction fuel with
  | zero =>
    intro d hd
    simp only [trial_loop, true_iff]
    intro k hk hkk
    have : d * d ≤ k * k := Nat.mul_le_mul hk hk
    simp only [add_zero] at hd
    omega
  | succ f ih =>
    intro d hd
    rw [trial_loop]
    by_cases h1 : d * d > p
    · rw [if_pos h1]
      simp only [true_iff]
      intro k hk hkk
      have : d * d ≤ k * k := Nat.mul_le_mul hk hk
      omega
    · rw [if_neg h1]
      by_cases h2 : p % d = 0
      · rw [if_pos h2]
        simp only [Bool.false_eq_true, false_iff, not_forall]
        exact ⟨d, le_refl _, by omega, fun h => h h2⟩
      · rw [if_neg h2, ih (d + 1) (by rw [show d + 1 + f = d + (f + 1) by omega]; exact hd)]
        constructor
        · intro h k hk hkk
          rcases Nat.eq_or_lt_of_le hk with e | e
          · subst e; exact h2
          · exact h k e hkk
        · intro h k hk hkk
          exact h k (by omega) hkk

/-- Trial-division primality is primality. -/
theorem trial_division_prime_iff (p : Nat) : trial_division_prime p = true ↔ Nat.Prime p := by
  unfold trial_division_prime
  rw [Bool.and_eq_true, decide_eq_true_eq,
    trial_loop_spec p p 2 (by nlinarith), Nat.prime_def_le_sqrt]
  constructor
  · rintro ⟨h2, h⟩
    refine ⟨h2, fun m hm hms hdvd => ?_⟩
    exact h m hm (Nat.le_sqrt.1 hms) (Nat.mod_eq_zero_of_dvd hdvd)
  · rintro ⟨h2, h⟩
    refine ⟨h2, fun k hk hkk hmod => ?_⟩
    exact h k hk (Nat.le_sqrt.2 hkk) (Nat.dvd_of_mod_eq_zero hmod)

/-- The loop over `small` rejects a composite that one of the table's primes
divides. -/
theorem small_loop_composite (p : Nat) (hp : ¬ Nat.Prime p) :
    ∀ l : List Nat, (∀ q ∈ l, Nat.Prime q) → (∃ q ∈ l, q ∣ p) →
      small_loop p l = some false := by
  intro l
  induction l with
  | nil => rintro _ ⟨q, hq, -⟩; cases hq
  | cons a rest ih =>
    intro hpr hex
    rw [small_loop]
    have ha : Nat.Prime a := hpr a (List.mem_cons_self _ _)
    have hne : p ≠ a := fun h => hp (h ▸ ha)
    rw [if_neg hne]
    by_cases hdiv : p % a = 0
    · rw [if_pos hdiv]
    · rw [if_neg hdiv]
      apply ih (fun q hq => hpr q (List.mem_cons_of_mem _ hq))
      obtain ⟨q, hq, hqd⟩ := hex
      rcases List.mem_cons.1 hq with e | e
      · subst e; exact absurd (Nat.mod_eq_zero_of_dvd hqd) hdiv
      · exact ⟨q, e, hqd⟩

/-- A composite with a prime factor up to 37 is rejected before Miller–Rabin. -/
theorem is_prime_exponent_small_factor (p : Nat) (h2 : 2 ≤ p) (hp : ¬ Nat.Prime p)
    (hq : Nat.minFac p ≤ 37) : is_prime_exponent p = some false := by
  have hqp : Nat.Prime (Nat.minFac p) := Nat.minFac_prime (by omega)
  have hqd : Nat.minFac p ∣ p := Nat.minFac_dvd p
  have hp2 : p ≠ 2 := fun h => hp (h ▸ Nat.prime_two)
  unfold is_prime_exponent
  rw [if_neg hp2, Nat.and_one_is_mod]
  by_cases hev : p % 2 = 0
  · rw [if_pos (Or.inr hev)]
  · rw [if_neg (by omega)]
    have hq2 : Nat.minFac p ≠ 2 := by
      intro h
      rw [h] at hqd
      exact hev (Nat.mod_eq_zero_of_dvd hqd)
    have hmem : Nat.minFac p ∈ small := by
      generalize Nat.minFac p = q at hq hqp hq2
      have hq1 := hqp.two_le
      interval_cases q <;> first | (exfalso; exact hq2 rfl) | decide | (exfalso; revert hqp; norm_num)
    rw [small_loop_composite p hp small small_all_prime ⟨_, hmem, hqd⟩]

set_option maxRecDepth 1000000 in
set_option maxHeartbeats 4000000 in
/-- Every product `a * b ≤ 10000` with `a` a prime from 41 to 97 and `b ≥ a`
is rejected by `is_prime_exponent`. -/
theorem composite_table :
    ∀ a ∈ [41, 43, 47, 53, 59, 61, 67, 71, 73, 79, 83, 89, 97],
      ∀ j < 10000 / a - a + 1, is_prime_exponent (a * (a + j)) = some false := by
  decide

/-- Up to 10000 the exponent check is exact. -/
theorem is_prime_exponent_small_range (p : Nat) (h2 : 2 ≤ p) (hle : p ≤ 10000) :
    is_prime_exponent p = some (decide (Nat.Prime p)) := by
  by_cases hp : Nat.Prime p
  · rw [is_prime_exponent_of_prime p hp (by omega)]
    simp [hp]
  · simp only [hp, decide_False]
    by_cases hq : Nat.minFac p ≤ 37
    · exact is_prime_exponent_small_factor p h2 hp hq
    · have hqp : Nat.Prime (Nat.minFac p) := Nat.minFac_prime (by omega)
      have hqd : Nat.minFac p ∣ p := Nat.minFac_dvd p
      have hsq : Nat.minFac p ^ 2 ≤ p := Nat.minFac_sq_le_self (by omega) hp
      rw [pow_two] at hsq
      obtain ⟨b, hb⟩ := hqd
      generalize Nat.minFac p = q at hq hqp hsq hb
      have hq100 : q ≤ 100 := by
        by_contra hcon
        push_neg at hcon
        nlinarith
      have hqb : q ≤ b := by
        by_contra hcon
        push_neg at hcon
        have : q * b < q * q := Nat.mul_lt_mul_of_pos_left hcon (by omega)
        omega
      have hmem : q ∈ [41, 43, 47, 53, 59, 61, 67, 71, 73, 79, 83, 89, 97] := by
        have hq38 : 38 ≤ q := by omega
        interval_cases q <;> first | decide | (exfalso; revert hqp; norm_num)
      have hbq : b ≤ 10000 / q := by
        rw [Nat.le_div_iff_mul_le (by omega)]
        rw [mul_comm]; omega
      have := composite_table q hmem (b - q) (by omega)
      rw [show q + (b - q) = b by omega, ← hb] at this
      exact this

/-! ## Hexadecimal rendering -/

/-- Reading a list of length `n` at the indices `0, ..., n - 1` gives it back. -/
theorem map_getD_range (l : List Nat) (n : Nat) (h : l.length = n) :
    (List.range n).map (fun i => l.getD i 0) = l := by
  apply List.ext_getElem
  · simp [h]
  · intro i h1 h2
    rw [List.getElem_map, List.getElem_range, List.getD_eq_getElem l 0 h2]

/-- The characters of `to_hex d`: two for every byte, in order. -/
theorem to_hex_data (d : ResidueDigest) (hd : digest_wf d) :
    (to_hex d).data = d.bytes.flatMap hex_pair := by
  have h : (to_hex d).data = ((List.range 32).map fun i => d.bytes.getD i 0).flatMap hex_pair := by
    rw [List.flatMap_map]; rfl
  rw [h, map_getD_range d.bytes 32 hd.1]

theorem hex_pair_length (l : List Nat) : (l.flatMap hex_pair).length = 2 * l.length := by
  induction l with
  | nil => rfl
  | cons b l ih =>
    rw [List.flatMap_cons, List.length_append, ih, List.length_cons]
    simp only [hex_pair, List.length_cons, List.length_nil]
    omega

theorem hex_getD_mem : ∀ i < 16, hex.getD i '0' ∈ hex := by decide

/-- Both characters written for a byte are digits of the table. -/
theorem hex_pair_mem (b : Nat) : ∀ c ∈ hex_pair b, c ∈ hex := by
  intro c hc
  have h1 : (b >>> 4) &&& 0xF < 16 := Nat.lt_succ_of_le Nat.and_le_right
  have h2 : b &&& 0xF < 16 := Nat.lt_succ_of_le Nat.and_le_right
  simp only [hex_pair, List.mem_cons, List.mem_singleton, List.not_mem_nil, or_false] at hc
  rcases hc with rfl | rfl
  · exact hex_getD_mem _ h1
  · exact hex_getD_mem _ h2

set_option maxRecDepth 100000 in
/-- For a byte the two masks select the high and the low nibble, and the two
characters decode to the byte. -/
theorem hex_pair_byte : ∀ b < 256,
    (b >>> 4) &&& 0xF = b / 16 ∧ b &&& 0xF = b % 16 ∧
    16 * hex_value (hex.getD ((b >>> 4) &&& 0xF) '0') + hex_value (hex.getD (b &&& 0xF) '0') = b := by
  decide

theorem hex_pair_getD (l : List Nat) :
    ∀ i, i < l.length →
      (l.flatMap hex_pair).getD (2 * i) '0' = hex.getD ((l.getD i 0 >>> 4) &&& 0xF) '0' ∧
      (l.flatMap hex_pair).getD (2 * i + 1) '0' = hex.getD (l.getD i 0 &&& 0xF) '0' := by
  induction l with
  | nil => intro i hi; cases hi
  | cons b l ih =>
    intro i hi
    rw [List.flatMap_cons]
    cases i with
    | zero => exact ⟨rfl, rfl⟩
    | succ i =>
      have := ih i (by simpa using hi)
      have e1 : 2 * (i + 1) = 2 * i + 1 + 1 := by ring
      rw [e1]
      simp only [hex_pair, List.cons_append, List.nil_append, List.getD_cons_succ]
      exact this

theorem from_hex_pairs (l : List Nat) (h : ∀ b ∈ l, b < 256) :
    from_hex (l.flatMap hex_pair) = l := by
  induction l with
  | nil => rfl
  | cons b l ih =>
    rw [List.flatMap_cons]
    show (16 * hex_value (hex.getD ((b >>> 4) &&& 0xF) '0') +
      hex_value (hex.getD (b &&& 0xF) '0')) :: from_hex (l.flatMap hex_pair) = b :: l
    rw [(hex_pair_byte b (h b (List.mem_cons_self _ _))).2.2,
      ih (fun c hc => h c (List.mem_cons_of_mem _ hc))]

/-! ## The hash is SHA-256 -/

theorem getD_lt_of_forall (b : List Nat) (hb : ∀ x ∈ b, x < 256) (k : Nat) :
    b.getD k 0 < 256 := by
  rcases Nat.lt_or_ge k b.length with h | h
  · rw [List.getD_eq_getElem b 0 h]
    exact hb _ (List.getElem_mem _)
  · rw [List.getD_eq_default b 0 h]
    norm_num

/-- Four bytes joined with shifts and ors are the big-endian number. -/
theorem be32_or_eq_add (x0 x1 x2 x3 : Nat) (h1 : x1 < 256) (h2 : x2 < 256) (h3 : x3 < 256) :
    x0 <<< 24 ||| x1 <<< 16 ||| x2 <<< 8 ||| x3 =
      x0 * 2 ^ 24 + x1 * 2 ^ 16 + x2 * 2 ^ 8 + x3 := by
  simp only [Nat.shiftLeft_eq]
  have e1 : x0 * 2 ^ 24 ||| x1 * 2 ^ 16 = x0 * 2 ^ 24 + x1 * 2 ^ 16 := by
    rw [mul_comm x0, ← Nat.mul_add_lt_is_or (by omega)]
  have e2 : (x0 * 2 ^ 24 + x1 * 2 ^ 16) ||| x2 * 2 ^ 8 =
      x0 * 2 ^ 24 + x1 * 2 ^ 16 + x2 * 2 ^ 8 := by
    have : x0 * 2 ^ 24 + x1 * 2 ^ 16 = 2 ^ 16 * (x0 * 2 ^ 8 + x1) := by ring
    rw [this, ← Nat.mul_add_lt_is_or (by omega)]
  have e3 : (x0 * 2 ^ 24 + x1 * 2 ^ 16 + x2 * 2 ^ 8) ||| x3 =
      x0 * 2 ^ 24 + x1 * 2 ^ 16 + x2 * 2 ^ 8 + x3 := by
    have : x0 * 2 ^ 24 + x1 * 2 ^ 16 + x2 * 2 ^ 8 = 2 ^ 8 * (x0 * 2 ^ 16 + x1 * 2 ^ 8 + x2) := by
      ring
    rw [this, ← Nat.mul_add_lt_is_or (by omega)]
  rw [e1, e2, e3]

theorem load_be32_eq_word (b : List Nat) (hb : ∀ x ∈ b, x < 256) (t : Nat) :
    load_be32 b (4 * t) = fips_word b t := by
  unfold load_be32 fips_word
  exact be32_or_eq_add _ _ _ _ (getD_lt_of_forall b hb _) (getD_lt_of_forall b hb _)
    (getD_lt_of_forall b hb _)

/-- The message schedule of the code is the one of the standard. -/
theorem schedule_eq_fips (b : List Nat) (hb : ∀ x ∈ b, x < 256) :
    schedule b = fips_schedule b := by
  unfold schedule fips_schedule
  have hinit : ((List.range 16).map fun i => load_be32 b (4 * i)) =
      (List.range 16).map (fips_word b) :=
    List.map_congr_left (fun i _ => load_be32_eq_word b hb i)
  rw [hinit]
  congr 1
  funext w j
  simp only [schedule_step, fips_add, fips_smallSigma0, fips_smallSigma1, fips_ROTR, fips_SHR,
    rotr]
  congr 2
  omega

/-- One round of the code is one step of the standard on the working
variables. -/
theorem round_eq_fips (W : List Nat) (v : Vars) (i : Nat) :
    fips_step W [v.a, v.b2, v.c, v.d, v.e, v.f, v.g, v.h] i =
      [(round W v i).a, (round W v i).b2, (round W v i).c, (round W v i).d,
       (round W v i).e, (round W v i).f, (round W v i).g, (round W v i).h] := by
  simp only [fips_step, round, fips_add, fips_bigSigma0, fips_bigSigma1, fips_Ch, fips_Maj,
    fips_ROTR, rotr]
  congr 1
  · omega
  · congr 4
    omega

/-- The compression of the code is the one of the standard. -/
theorem compress_eq_fips (h0 h1 h2 h3 h4 h5 h6 h7 : Nat) (b : List Nat)
    (hb : ∀ x ∈ b, x < 256) :
    compress [h0, h1, h2, h3, h4, h5, h6, h7] b =
      fips_compress [h0, h1, h2, h3, h4, h5, h6, h7] b := by
  unfold compress fips_compress
  rw [← schedule_eq_fips b hb]
  have hom := List.foldl_hom
    (fun v : Vars => [v.a, v.b2, v.c, v.d, v.e, v.f, v.g, v.h])
    (round (schedule b)) (fips_step (schedule b)) (List.range 64)
    ({ a := h0, b2 := h1, c := h2, d := h3, e := h4, f := h5, g := h6, h := h7 } : Vars)
    (fun v i => round_eq_fips (schedule b) v i)
  simp only [] at hom
  rw [hom]
  simp only [List.getD_cons_zero, List.getD_cons_succ, List.zipWith_cons_cons,
    List.zipWith_nil_left, fips_add]
  simp only [Nat.add_comm]

theorem compress_length (H b : List Nat) : (compress H b).length = 8 := by
  simp [compress]

theorem list_length_eight (H : List Nat) (h : H.length = 8) :
    ∃ h0 h1 h2 h3 h4 h5 h6 h7, H = [h0, h1, h2, h3, h4, h5, h6, h7] := by
  match H, h with
  | [h0, h1, h2, h3, h4, h5, h6, h7], _ => exact ⟨h0, h1, h2, h3, h4, h5, h6, h7, rfl⟩

theorem compress_eq_fips_of_length (H b : List Nat) (hH : H.length = 8)
    (hb : ∀ x ∈ b, x < 256) : compress H b = fips_compress H b := by
  obtain ⟨h0, h1, h2, h3, h4, h5, h6, h7, rfl⟩ := list_length_eight H hH
  exact compress_eq_fips h0 h1 h2 h3 h4 h5 h6 h7 b hb

/-- The code's hash value after the full blocks of the input. -/
theorem sha256_cases (data : List Nat) :
    sha256 data =
      (List.range 8).flatMap (fun i => store_be32
        ((compress
          (if data.length - data.length / 64 * 64 ≥ 56 then
            compress ((List.range (data.length / 64)).foldl
              (fun H j => compress H ((data.drop (64 * j)).take 64)) H0)
              (data.drop (data.length / 64 * 64) ++ [0x80] ++
                List.replicate (64 - (data.length - data.length / 64 * 64) - 1) 0)
           else (List.range (data.length / 64)).foldl
              (fun H j => compress H ((data.drop (64 * j)).take 64)) H0)
          ((if data.length - data.length / 64 * 64 ≥ 56 then List.replicate 64 0
            else data.drop (data.length / 64 * 64) ++ [0x80] ++
                List.replicate (64 - (data.length - data.length / 64 * 64) - 1) 0).take 56 ++
            (List.range 8).map fun k => (((data.length * 8) % 2 ^ 64) >>> (8 * (7 - k))) % 256)).getD
          i 0)) := by
  unfold sha256
  simp only []

/-- The output bytes of the code are the big-endian bytes of the eight words. -/
theorem output_eq_fips (H : List Nat) (hH : H.length = 8) :
    ((List.range 8).flatMap fun i => store_be32 (H.getD i 0)) =
      H.flatMap fun w => [w / 2 ^ 24 % 256, w / 2 ^ 16 % 256, w / 2 ^ 8 % 256, w % 256] := by
  have h1 : ((List.range 8).flatMap fun i => store_be32 (H.getD i 0)) =
      ((List.range 8).map fun i => H.getD i 0).flatMap store_be32 := by
    rw [List.flatMap_map]
  rw [h1, map_getD_range H 8 hH]
  congr 1
  funext w
  simp only [store_be32, Nat.shiftRight_eq_div_pow]

/-- The length field written by the code is the one of the standard. -/
theorem length_bytes_eq (len : Nat) :
    ((List.range 8).map fun k => (((len * 8) % 2 ^ 64) >>> (8 * (7 - k))) % 256) =
      (List.range 8).map fun j => ((8 * len) % 2 ^ 64) / 2 ^ (8 * (7 - j)) % 256 := by
  apply List.map_congr_left
  intro k _
  rw [Nat.shiftRight_eq_div_pow, Nat.mul_comm len 8]

/-- The padded message: the input, `0x80`, zero bytes up to 56 modulo 64, and
the length field. -/
theorem fips_pad_eq (data : List Nat) :
    fips_pad data = data ++ ([0x80] ++
      List.replicate (if data.length % 64 < 56 then 55 - data.length % 64
        else 119 - data.length % 64) 0 ++
      (List.range 8).map fun j => ((8 * data.length) % 2 ^ 64) / 2 ^ (8 * (7 - j)) % 256) := by
  have hz : ((447 + 512 - 8 * data.length % 512) % 512 - 7) / 8 =
      (if data.length % 64 < 56 then 55 - data.length % 64 else 119 - data.length % 64) := by
    split_ifs <;> omega
  unfold fips_pad
  simp only [List.append_assoc, hz]

/-- Over the full blocks of the input the code and the standard compute the
same hash value, of eight words. -/
theorem full_blocks_eq (data X : List Nat) (hb : ∀ x ∈ data, x < 256) :
    ∀ n, n ≤ data.length / 64 →
      (List.range n).foldl (fun H i => fips_compress H (fips_block (data ++ X) i)) H0 =
        (List.range n).foldl (fun H j => compress H ((data.drop (64 * j)).take 64)) H0 ∧
      ((List.range n).foldl (fun H j => compress H ((data.drop (64 * j)).take 64)) H0).length
        = 8 := by
  intro n
  induction n with
  | zero => intro _; exact ⟨rfl, rfl⟩
  | succ n ih =>
    intro hn
    obtain ⟨h1, h2⟩ := ih (by omega)
    rw [List.range_succ, List.foldl_append, List.foldl_append, h1]
    simp only [List.foldl_cons, List.foldl_nil]
    refine ⟨?_, compress_length _ _⟩
    have hblk : fips_block (data ++ X) n = (data.drop (64 * n)).take 64 := by
      unfold fips_block
      rw [List.drop_append_of_le_length (by omega),
        List.take_append_of_le_length (by rw [List.length_drop]; omega)]
    rw [hblk]
    symm
    apply compress_eq_fips_of_length _ _ h2
    intro x hx
    exact hb x (List.mem_of_mem_drop (List.mem_of_mem_take hx))

theorem length_bytes_lt (len : Nat) :
    ∀ x ∈ (List.range 8).map (fun j => ((8 * len) % 2 ^ 64) / 2 ^ (8 * (7 - j)) % 256),
      x < 256 := by
  intro x hx
  obtain ⟨j, -, rfl⟩ := List.mem_map.1 hx
  exact Nat.mod_lt _ (by norm_num)

/-- The code's `sha256` computes SHA-256 as the standard defines it. -/
theorem sha256_eq_fips (data : List Nat) (hb : ∀ x ∈ data, x < 256) :
    sha256 data = fips_sha256 data := by
  have hlen : data.length / 64 * 64 + data.length % 64 = data.length := Nat.div_add_mod' _ _
  have hrem : data.length - data.length / 64 * 64 = data.length % 64 := by omega
  have hremlt : data.length % 64 < 64 := Nat.mod_lt _ (by norm_num)
  have htail : (data.drop (data.length / 64 * 64)).length = data.length % 64 := by
    rw [List.length_drop]; omega
  have htailb : ∀ x ∈ data.drop (data.length / 64 * 64), x < 256 :=
    fun x hx => hb x (List.mem_of_mem_drop hx)
  rw [sha256_cases, hrem, length_bytes_eq]
  unfold fips_sha256
  simp only []
  rw [fips_pad_eq]
  generalize hL : ((List.range 8).map fun j =>
    ((8 * data.length) % 2 ^ 64) / 2 ^ (8 * (7 - j)) % 256) = L8
  have hL8len : L8.length = 8 := by rw [← hL]; simp
  have hL8b : ∀ x ∈ L8, x < 256 := by rw [← hL]; exact length_bytes_lt _
  generalize hT : data.drop (data.length / 64 * 64) = T at htail htailb
  have hdrop : ∀ X : List Nat, (data ++ X).drop (64 * (data.length / 64)) = T ++ X := by
    intro X
    rw [List.drop_append_of_le_length (by omega), Nat.mul_comm, hT]
  by_cases hcase : data.length % 64 < 56
  · -- one padding block
    rw [if_pos hcase, if_neg (by omega), if_neg (by omega)]
    generalize hX : ([0x80] ++ List.replicate (55 - data.length % 64) 0 ++ L8) = X
    have hXlen : X.length = 64 - data.length % 64 := by
      rw [← hX]; simp [hL8len]; omega
    have hN : (data ++ X).length / 64 = data.length / 64 + 1 := by
      rw [List.length_append, hXlen]; omega
    obtain ⟨hfold, hfl⟩ := full_blocks_eq data X hb (data.length / 64) (le_refl _)
    rw [hN, List.range_succ (data.length / 64), List.foldl_append, hfold]
    simp only [List.foldl_cons, List.foldl_nil]
    have hblk : fips_block (data ++ X) (data.length / 64) = T ++ X := by
      unfold fips_block
      rw [hdrop, List.take_of_length_le (by rw [List.length_append, htail, hXlen]; omega)]
    have hcode : (T ++ [0x80] ++ List.replicate (64 - data.length % 64 - 1) 0).take 56 ++ L8 =
        T ++ X := by
      have hsplit : T ++ [0x80] ++ List.replicate (64 - data.length % 64 - 1) 0 =
          (T ++ [0x80] ++ List.replicate (55 - data.length % 64) 0) ++ List.replicate 8 0 := by
        rw [List.append_assoc _ _ (List.replicate 8 0), ← List.replicate_add]
        congr 2
        omega
      have hl56 : (T ++ [0x80] ++ List.replicate (55 - data.length % 64) 0).length = 56 := by
        simp [htail]; omega
      rw [hsplit, List.take_left' hl56, ← hX]
      simp only [List.append_assoc]
    rw [hblk, hcode]
    have hbytes : ∀ x ∈ T ++ X, x < 256 := by
      intro x hx
      rw [← hX] at hx
      simp only [List.mem_append, List.mem_singleton, List.mem_replicate, List.mem_cons,
        List.not_mem_nil, or_false] at hx
      rcases hx with h | (h | h) | h
      · exact htailb x h
      · omega
      · omega
      · exact hL8b x h
    rw [compress_eq_fips_of_length _ _ hfl hbytes, ← compress_eq_fips_of_length _ _ hfl hbytes]
    exact output_eq_fips _ (compress_length _ _)
  · -- two padding blocks
    rw [if_neg hcase, if_pos (by omega), if_pos (by omega)]
    generalize hX : ([0x80] ++ List.replicate (119 - data.length % 64) 0 ++ L8) = X
    have hXlen : X.length = 128 - data.length % 64 := by
      rw [← hX]; simp [hL8len]; omega
    have hN : (data ++ X).length / 64 = data.length / 64 + 1 + 1 := by
      rw [List.length_append, hXlen]; omega
    obtain ⟨hfold, hfl⟩ := full_blocks_eq data X hb (data.length / 64) (le_refl _)
    rw [hN, List.range_succ (data.length / 64 + 1), List.range_succ (data.length / 64),
      List.foldl_append, List.foldl_append, hfold]
    simp only [List.foldl_cons, List.foldl_nil]
    have hTX : T ++ X = (T ++ [0x80] ++ List.replicate (64 - data.length % 64 - 1) 0) ++
        (List.replicate 56 0 ++ L8) := by
      rw [← hX]
      simp only [List.append_assoc]
      congr 2
      rw [← List.append_assoc, ← List.replicate_add]
      congr 2
      omega
    have hl64 : (T ++ [0x80] ++ List.replicate (64 - data.length % 64 - 1) 0).length = 64 := by
      simp [htail]; omega
    have hblk1 : fips_block (data ++ X) (data.length / 64) =
        T ++ [0x80] ++ List.replicate (64 - data.length % 64 - 1) 0 := by
      unfold fips_block
      rw [hdrop, hTX, List.take_left' hl64]
    have hblk2 : fips_block (data ++ X) (data.length / 64 + 1) = List.replicate 56 0 ++ L8 := by
      unfold fips_block
      have : 64 * (data.length / 64 + 1) = 64 * (data.length / 64) + 64 := by ring
      rw [this, ← List.drop_drop, hdrop, hTX]
      have h2 : List.drop 64 ((T ++ [0x80] ++ List.replicate (64 - data.length % 64 - 1) 0) ++
          (List.replicate 56 0 ++ L8)) = List.replicate 56 0 ++ L8 := by
        exact List.drop_left' hl64
      rw [h2, List.take_of_length_le (by simp [hL8len])]
    have hcode : (List.replicate 64 0).take 56 ++ L8 = List.replicate 56 0 ++ L8 := by
      congr 1
    rw [hblk1, hblk2, hcode]
    have hbytes1 : ∀ x ∈ T ++ [0x80] ++ List.replicate (64 - data.length % 64 - 1) 0,
        x < 256 := by
      intro x hx
      simp only [List.mem_append, List.mem_singleton, List.mem_replicate, List.mem_cons,
        List.not_mem_nil, or_false] at hx
      rcases hx with (h | h) | h
      · exact htailb x h
      · omega
      · omega
    have hbytes2 : ∀ x ∈ List.replicate 56 0 ++ L8, x < 256 := by
      intro x hx
      simp only [List.mem_append, List.mem_replicate] at hx
      rcases hx with h | h
      · omega
      · exact hL8b x h
    rw [← compress_eq_fips_of_length _ _ hfl hbytes1,
      ← compress_eq_fips_of_length _ _ (compress_length _ _) hbytes2]
    exact output_eq_fips _ (compress_length _ _)

/-- The hexadecimal form of the SHA-256 value of the empty input. -/
theorem to_hex_sha256_empty :
    to_hex ⟨sha256 []⟩ =
      "e3b0c44298fc1c149afbf4c8996fb92427ae41e4649b934ca495991b7852b855" := by
  rw [sha256_empty]
  decide

/-- The hexadecimal form of the SHA-256 value of `abc`. -/
theorem to_hex_sha256_abc :
    to_hex ⟨sha256 [0x61, 0x62, 0x63]⟩ =
      "ba7816bf8f01cfea414140de5dae2223b00361a396177a9cb410ff61f20015ad" := by
  rw [sha256_abc]
  decide

/-! ## No residue before the last one is zero -/

/-- For a prime `q` modulo which 2 and 3 are non-zero squares,
`ω ^ ((q - 1) / 2) = 1` in `X q`. -/
theorem omega_pow_half_of_square (q : ℕ+) [hq : Fact (Nat.Prime q)]
    (h3 : IsSquare (3 : ZMod q)) (h30 : (3 : ZMod q) ≠ 0) (h2 : IsSquare (2 : ZMod q))
    (hq2 : (q : Nat) ≠ 2) : (ω : X q) ^ ((q : Nat) / 2) = 1 := by
  haveI := X_charP q
  have hodd : (q : Nat) = 2 * ((q : Nat) / 2) + 1 := by
    have := hq.out.eq_two_or_odd
    omega
  have h20 : (2 : ZMod q) ≠ 0 := by
    intro h
    have h' : ((2 : Nat) : ZMod q) = 0 := by exact_mod_cast h
    rw [ZMod.natCast_zmod_eq_zero_iff_dvd] at h'
    exact hq2 ((Nat.prime_dvd_prime_iff_eq hq.out Nat.prime_two).1 h')
  have h2pow : (2 : ZMod q) ^ ((q : Nat) / 2) = 1 := (ZMod.euler_criterion q h20).1 h2
  have h3pow : (3 : ZMod q) ^ ((q : Nat) / 2) = 1 := (ZMod.euler_criterion q h30).1 h3
  have h2X : (2 : X q) ^ ((q : Nat) / 2) = 1 := by
    have := X_ofNat_pow q 2 ((q : Nat) / 2) 1 (by simpa using h2pow) (by simp)
    simpa using this
  have h3X : (3 : X q) ^ ((q : Nat) / 2) = 1 := by
    have := X_ofNat_pow q 3 ((q : Nat) / 2) 1 (by simpa using h3pow) (by simp)
    simpa using this
  have hmul : (ω : X q) * ωb = 1 := ω_mul_ωb q
  have hadd := omega_add_omegab q
  have hr2 : ((ω : X q) - 2) ^ 2 = 3 := by linear_combination (ω : X q) * hadd - hmul
  have hrq : ((ω : X q) - 2) ^ (q : Nat) = ω - 2 := by
    conv_lhs => rw [hodd]
    rw [pow_succ, pow_mul, hr2, h3X]; ring
  have huq : ((ω : X q) - 1) ^ (q : Nat) = ω - 1 := by
    have e : (ω : X q) - 1 = 1 + (ω - 2) := by ring
    conv_lhs => rw [e]
    rw [add_pow_char, one_pow, hrq]; ring
  have hu2 : ((ω : X q) - 1) ^ 2 = 2 * ω := by linear_combination hr2
  have hnorm : ((ω : X q) - 1) * (3 - ω) = -2 := by linear_combination -hr2
  have hinv : (((((q : Nat) + 1) / 2 : Nat)) : X q) * 2 = 1 := by
    have h1 : ((((q : Nat) + 1) / 2 * 2 : Nat) : X q) = 1 := by
      have : ((q : Nat) + 1) / 2 * 2 = (q : Nat) + 1 := by omega
      rw [this]; push_cast
      rw [CharP.cast_eq_zero (X q) (q : Nat), zero_add]
    exact_mod_cast h1
  have e : ((ω : X q) - 1) ^ (2 * ((q : Nat) / 2)) * (-2) = -2 := by
    calc ((ω : X q) - 1) ^ (2 * ((q : Nat) / 2)) * (-2)
        = ((ω : X q) - 1) ^ (2 * ((q : Nat) / 2)) * (((ω : X q) - 1) * (3 - ω)) := by rw [hnorm]
      _ = ((ω : X q) - 1) ^ (2 * ((q : Nat) / 2) + 1) * (3 - ω) := by ring
      _ = ((ω : X q) - 1) ^ (q : Nat) * (3 - ω) := by rw [← hodd]
      _ = -2 := by rw [huq, hnorm]
  have hu1 : ((ω : X q) - 1) ^ (2 * ((q : Nat) / 2)) = 1 := by
    calc ((ω : X q) - 1) ^ (2 * ((q : Nat) / 2))
        = ((ω : X q) - 1) ^ (2 * ((q : Nat) / 2)) *
            ((((((q : Nat) + 1) / 2 : Nat)) : X q) * 2) := by rw [hinv, mul_one]
      _ = -((((((q : Nat) + 1) / 2 : Nat)) : X q) *
            (((ω : X q) - 1) ^ (2 * ((q : Nat) / 2)) * (-2))) := by ring
      _ = -((((((q : Nat) + 1) / 2 : Nat)) : X q) * (-2)) := by rw [e]
      _ = (((((q : Nat) + 1) / 2 : Nat)) : X q) * 2 := by ring
      _ = 1 := hinv
  rw [pow_mul, hu2, mul_pow, h2X, one_mul] at hu1
  exact hu1

/-- In `X q`, for an odd prime `q`, `-1` is not `1`. -/
theorem X_neg_one_ne_one (q : ℕ+) [hq : Fact (Nat.Prime q)] (hq2 : (q : Nat) ≠ 2) :
    (-1 : X q) ≠ 1 := by
  haveI := X_charP q
  intro h
  have h2 : ((2 : Nat) : X q) = 0 := by
    push_cast
    linear_combination -h
  rw [CharP.cast_eq_zero_iff (X q) (q : Nat)] at h2
  exact hq2 ((Nat.prime_dvd_prime_iff_eq hq.out Nat.prime_two).1 h2)

/-- A residue of the Lucas–Lehmer sequence that vanishes modulo `2 ^ p - 1`
vanishes in `X q` for every divisor `q` of `2 ^ p - 1`. -/
theorem s_eq_zero_in_X (p k : Nat) (hp : 3 ≤ p) (q : ℕ+) (hdvd : (q : Nat) ∣ 2 ^ p - 1)
    (hz : sMod p k = 0) : ((s k : Int) : X q) = 0 := by
  obtain ⟨p', rfl⟩ : ∃ p', p = p' + 2 := ⟨p - 2, by omega⟩
  have h1 : sZMod (p' + 2) k = 0 := by rw [sZMod_eq_sMod, hz]; simp
  rw [sZMod_eq_s] at h1
  have h2 : (((2 ^ (p' + 2) - 1 : Nat)) : Int) ∣ s k :=
    (ZMod.intCast_zmod_eq_zero_iff_dvd (s k) (2 ^ (p' + 2) - 1)).1 h1
  have h3 : ((q : Nat) : Int) ∣ s k := dvd_trans (Int.natCast_dvd_natCast.2 hdvd) h2
  have h4 : ((s k : Int) : ZMod q) = 0 := (ZMod.intCast_zmod_eq_zero_iff_dvd (s k) q).2 h3
  ext
  · rw [X.fst_intCast, h4]; rfl
  · rw [X.snd_intCast]; rfl

/-- If the residue `k` of the Lucas–Lehmer sequence vanishes modulo `2 ^ p - 1`
(`p` odd), every prime factor `q` of `2 ^ p - 1` is `1` or `2 ^ (k + 2) - 1`
modulo `2 ^ (k + 3)`: the order of `ω` in `X q` is `2 ^ (k + 2)`, and it divides
`(q - 1) / 2` when 3 is a square modulo `q`, and `q + 1` but not `(q + 1) / 2`
otherwise. -/
theorem mersenne_factor_class (p k q : Nat) (hp : 3 ≤ p) (hodd : p % 2 = 1)
    (hq : q.Prime) (hdvd : q ∣ 2 ^ p - 1) (hz : sMod p k = 0) :
    q % 2 ^ (k + 3) = 1 ∨ q % 2 ^ (k + 3) = 2 ^ (k + 2) - 1 := by
  obtain ⟨Q, hQ⟩ : ∃ Q : ℕ+, (Q : Nat) = q := ⟨⟨q, hq.pos⟩, rfl⟩
  subst hQ
  haveI : Fact (Nat.Prime (Q : Nat)) := ⟨hq⟩
  haveI := X_charP Q
  have hM1 : 1 ≤ 2 ^ p := Nat.one_le_two_pow
  have hMmod2 : (2 ^ p - 1) % 2 = 1 := by
    have : 2 ^ p = 2 * 2 ^ (p - 1) := by rw [← pow_succ']; congr 1; omega
    omega
  have hq2 : (Q : Nat) ≠ 2 := by
    intro h; rw [h] at hdvd; omega
  have hq3 : (Q : Nat) ≠ 3 := by
    intro h; rw [h] at hdvd
    have := mersenne_mod_three p hodd
    omega
  have hoddq : (Q : Nat) = 2 * ((Q : Nat) / 2) + 1 := by
    have := hq.eq_two_or_odd
    omega
  have h2p : (2 : ZMod Q) ^ p = 1 := by
    have h : ((2 ^ p - 1 : Nat) : ZMod Q) = 0 := (ZMod.natCast_zmod_eq_zero_iff_dvd _ _).2 hdvd
    rw [Nat.cast_sub hM1] at h
    push_cast at h
    exact sub_eq_zero.1 h
  have h2sq : IsSquare (2 : ZMod Q) := by
    refine ⟨(2 : ZMod Q) ^ ((p + 1) / 2), ?_⟩
    rw [← pow_add]
    have : (p + 1) / 2 + (p + 1) / 2 = p + 1 := by omega
    rw [this, pow_succ, h2p, one_mul]
  have h30 : (3 : ZMod Q) ≠ 0 := by
    intro h
    have h' : ((3 : Nat) : ZMod Q) = 0 := by exact_mod_cast h
    rw [ZMod.natCast_zmod_eq_zero_iff_dvd] at h'
    exact hq3 ((Nat.prime_dvd_prime_iff_eq hq Nat.prime_three).1 h')
  have hsX := s_eq_zero_in_X p k hp Q hdvd hz
  have hAB : (ω : X Q) ^ 2 ^ k * ωb ^ 2 ^ k = 1 := by
    rw [← mul_pow, ω_mul_ωb, one_pow]
  have hneg : (ω : X Q) ^ 2 ^ (k + 1) = -1 := by
    rw [closed_form] at hsX
    rw [pow_succ, pow_mul]
    linear_combination (ω : X Q) ^ 2 ^ k * hsX - hAB
  have hne := X_neg_one_ne_one Q hq2
  have hord : orderOf (ω : X Q) = 2 ^ (k + 1 + 1) := by
    apply orderOf_eq_prime_pow
    · rw [hneg]; exact hne
    · rw [pow_succ 2 (k + 1), pow_mul, hneg]; norm_num
  have hpow4 : 2 ^ (k + 3) = 2 * 2 ^ (k + 2) := by rw [pow_succ]; ring
  have hpos : 0 < 2 ^ (k + 2) := Nat.two_pow_pos _
  by_cases h3 : IsSquare (3 : ZMod Q)
  · left
    have h1 := omega_pow_half_of_square Q h3 h30 h2sq hq2
    have hd := orderOf_dvd_of_pow_eq_one h1
    rw [hord] at hd
    obtain ⟨t, ht⟩ := hd
    have e : (Q : Nat) = 1 + 2 ^ (k + 3) * t := by
      rw [hpow4]
      have : 2 * 2 ^ (k + 2) * t = 2 * (2 ^ (k + 1 + 1) * t) := by ring
      rw [this, ← ht]; omega
    rw [e, Nat.add_mul_mod_self_left]
    apply Nat.mod_eq_of_lt
    rw [hpow4]; omega
  · right
    have h1 := omega_pow_half Q h3 h2sq hq2
    have hfull : (ω : X Q) ^ ((Q : Nat) + 1) = 1 := by
      have : (Q : Nat) + 1 = ((Q : Nat) + 1) / 2 * 2 := by omega
      rw [this, pow_mul, h1]; norm_num
    have hd := orderOf_dvd_of_pow_eq_one hfull
    rw [hord] at hd
    have hnd : ¬ 2 ^ (k + 1 + 1) ∣ ((Q : Nat) + 1) / 2 := by
      intro hh
      rw [← hord] at hh
      have := orderOf_dvd_iff_pow_eq_one.1 hh
      rw [h1] at this
      exact hne this
    obtain ⟨t, ht⟩ := hd
    have htodd : t % 2 = 1 := by
      by_contra hte
      apply hnd
      refine ⟨t / 2, ?_⟩
      have ht2 : t = 2 * (t / 2) := by omega
      have : (Q : Nat) + 1 = 2 * (2 ^ (k + 1 + 1) * (t / 2)) := by
        rw [ht]; conv_lhs => rw [ht2]
        ring
      omega
    have e : (Q : Nat) = (2 ^ (k + 2) - 1) + 2 ^ (k + 3) * (t / 2) := by
      have ht2 : t = 2 * (t / 2) + 1 := by omega
      have : (Q : Nat) + 1 = 2 ^ (k + 2) + 2 * 2 ^ (k + 2) * (t / 2) := by
        rw [ht]; conv_lhs => rw [ht2]
        ring
      rw [hpow4]; omega
    rw [e, Nat.add_mul_mod_self_left]
    apply Nat.mod_eq_of_lt
    rw [hpow4]; omega

/-- The classes `1` and `2 ^ (k + 2) - 1` modulo `2 ^ (k + 3)` are closed under
multiplication. -/
theorem mod_class_mul (k a b : Nat)
    (ha : a % 2 ^ (k + 3) = 1 ∨ a % 2 ^ (k + 3) = 2 ^ (k + 2) - 1)
    (hb : b % 2 ^ (k + 3) = 1 ∨ b % 2 ^ (k + 3) = 2 ^ (k + 2) - 1) :
    (a * b) % 2 ^ (k + 3) = 1 ∨ (a * b) % 2 ^ (k + 3) = 2 ^ (k + 2) - 1 := by
  obtain ⟨h, hh⟩ : ∃ h, 2 ^ (k + 1) = h + 1 :=
    ⟨2 ^ (k + 1) - 1, by have : 0 < 2 ^ (k + 1) := Nat.two_pow_pos _; omega⟩
  have e2 : 2 ^ (k + 2) = 2 * h + 2 := by rw [pow_succ, hh]; ring
  have e3 : 2 ^ (k + 3) = 4 * h + 4 := by rw [pow_succ, e2]; ring
  rw [e2, e3] at ha hb ⊢
  have h1 : 1 % (4 * h + 4) = 1 := Nat.mod_eq_of_lt (by omega)
  have h2 : (2 * h + 2 - 1) % (4 * h + 4) = 2 * h + 2 - 1 := Nat.mod_eq_of_lt (by omega)
  rw [Nat.mul_mod]
  rcases ha with ha | ha <;> rcases hb with hb | hb <;> rw [ha, hb]
  · left; rw [one_mul, h1]
  · right; rw [one_mul, h2]
  · right; rw [mul_one, h2]
  · left
    have : (2 * h + 2 - 1) * (2 * h + 2 - 1) = 1 + (4 * h + 4) * h := by
      have : 2 * h + 2 - 1 = 2 * h + 1 := by omega
      rw [this]; ring
    rw [this, Nat.add_mul_mod_self_left, h1]

/-- The residues of the Lucas–Lehmer sequence before the last one are not zero:
for odd `p ≥ 3` and `k < p - 2`, `sMod p k ≠ 0`.  (Otherwise every prime factor
of `2 ^ p - 1`, hence `2 ^ p - 1` itself, would be `1` or `2 ^ (k + 2) - 1`
modulo `2 ^ (k + 3)`, while `2 ^ p - 1` is `-1` modulo `2 ^ (k + 3)`.) -/
theorem sMod_ne_zero_of_lt (p k : Nat) (hp : 3 ≤ p) (hodd : p % 2 = 1) (hk : k + 2 < p) :
    sMod p k ≠ 0 := by
  intro hz
  have key : ∀ l : List Nat, (∀ q ∈ l, q.Prime ∧ q ∣ 2 ^ p - 1) →
      (l.prod % 2 ^ (k + 3) = 1 ∨ l.prod % 2 ^ (k + 3) = 2 ^ (k + 2) - 1) := by
    intro l
    induction l with
    | nil =>
      intro _
      left
      rw [List.prod_nil]
      apply Nat.mod_eq_of_lt
      exact Nat.one_lt_two_pow (by omega)
    | cons q l ih =>
      intro h
      rw [List.prod_cons]
      apply mod_class_mul
      · exact mersenne_factor_class p k q hp hodd (h q (List.mem_cons_self _ _)).1
          (h q (List.mem_cons_self _ _)).2 hz
      · exact ih fun q' hq' => h q' (List.mem_cons_of_mem _ hq')
  have h8 : 2 ^ 3 ≤ 2 ^ p := Nat.pow_le_pow_right (by norm_num) hp
  have hM := key (Nat.primeFactorsList (2 ^ p - 1)) fun q hq =>
    ⟨Nat.prime_of_mem_primeFactorsList hq, Nat.dvd_of_mem_primeFactorsList hq⟩
  rw [Nat.prod_primeFactorsList (by omega)] at hM
  obtain ⟨c, hc⟩ : ∃ c, 2 ^ p = 2 ^ (k + 3) * (c + 1) := by
    refine ⟨2 ^ (p - (k + 3)) - 1, ?_⟩
    have : 0 < 2 ^ (p - (k + 3)) := Nat.two_pow_pos _
    rw [Nat.sub_add_cancel this, ← pow_add]
    congr 1; omega
  have hpow4 : 2 ^ (k + 3) = 2 * 2 ^ (k + 2) := by rw [pow_succ]; ring
  have hpos : 2 ≤ 2 ^ (k + 2) := by
    have : 2 ^ 1 ≤ 2 ^ (k + 2) := Nat.pow_le_pow_right (by norm_num) (by omega)
    simpa using this
  have e : 2 ^ p - 1 = (2 ^ (k + 3) - 1) + 2 ^ (k + 3) * c := by
    rw [hc, Nat.mul_add, mul_one]; omega
  rw [e, Nat.add_mul_mod_self_left, Nat.mod_eq_of_lt (by omega), hpow4] at hM
  omega

/-! ## The loop runs all its bodies -/

/-- The loop run for `n + m` bodies is the loop run for `n` bodies and then for
`m` more, as long as no residue met on the way is zero. -/
theorem ll_loop_split (env : Env) (cfg : LLConfig) (cb : Bool) (p t st : Nat)
    (hp : 3 ≤ p) (hodd : p % 2 = 1) :
    ∀ (n m i : Nat) (L : Loop), L.s = sMod p i →
      (∀ j, i ≤ j → j < i + n → 0 < j → sMod p j ≠ 0) →
      ll_loop env cfg cb (2 ^ p - 1) p t st (n + m) i L =
        ll_loop env cfg cb (2 ^ p - 1) p t st m (i + n)
          (ll_loop env cfg cb (2 ^ p - 1) p t st n i L) := by
  intro n
  induction n with
  | zero =>
    intro m i L _ _
    rw [Nat.zero_add, ll_loop_zero]
    rfl
  | succ n ih =>
    intro m i L hs hnz
    have h : ¬ (i > 0 ∧ L.s = 0) := fun hh =>
      hnz i (le_refl _) (by omega) hh.1 (by rw [← hs]; exact hh.2)
    obtain ⟨hun1, hs1⟩ := ll_loop_unfold env cfg cb p t st hp hodd (n + m) i L hs h
    obtain ⟨hun2, -⟩ := ll_loop_unfold env cfg cb p t st hp hodd n i L hs h
    have e : n + 1 + m = (n + m) + 1 := by omega
    rw [e, hun1, hun2, ih m (i + 1) (ll_body env cfg cb (2 ^ p - 1) p t st i L)
      (by rw [ll_body_s, hs1]) (fun j h1 h2 h3 => hnz j (by omega) (by omega) h3)]
    have e2 : i + 1 + n = i + (n + 1) := by omega
    rw [e2]

/-- The state of the loop of `ll_test` after `i ≤ p - 2` bodies: the residue is
the residue `i` of the Lucas–Lehmer sequence, no exception and no early exit
has occurred, and the whole loop is the remaining `p - 2 - i` bodies run from
this state. -/
theorem ll_loop_prefix (env : Env) (cfg : LLConfig) (cb : Bool)
    (hp : 3 ≤ cfg.p) (hodd : cfg.p % 2 = 1) (i : Nat) (hi : i ≤ cfg.p - 2) :
    (ll_loop env cfg cb (2 ^ cfg.p - 1) cfg.p (cfg.p - 2)
      (effective_stride cfg.progress_stride (cfg.p - 2)) i 0
      { s := 4, tmp := 0, hi := 0 }).s = sMod cfg.p i ∧
    (ll_loop env cfg cb (2 ^ cfg.p - 1) cfg.p (cfg.p - 2)
      (effective_stride cfg.progress_stride (cfg.p - 2)) i 0
      { s := 4, tmp := 0, hi := 0 }).steps = i ∧
    (ll_loop env cfg cb (2 ^ cfg.p - 1) cfg.p (cfg.p - 2)
      (effective_stride cfg.progress_stride (cfg.p - 2)) i 0
      { s := 4, tmp := 0, hi := 0 }).violated = false ∧
    (ll_loop env cfg cb (2 ^ cfg.p - 1) cfg.p (cfg.p - 2)
      (effective_stride cfg.progress_stride (cfg.p - 2)) i 0
      { s := 4, tmp := 0, hi := 0 }).early_composite = false ∧
    ll_run env cfg cb =
      ll_loop env cfg cb (2 ^ cfg.p - 1) cfg.p (cfg.p - 2)
        (effective_stride cfg.progress_stride (cfg.p - 2)) (cfg.p - 2 - i) i
        (ll_loop env cfg cb (2 ^ cfg.p - 1) cfg.p (cfg.p - 2)
          (effective_stride cfg.progress_stride (cfg.p - 2)) i 0
          { s := 4, tmp := 0, hi := 0 }) := by
  have e : i + (cfg.p - 2 - i) = cfg.p - 2 := by omega
  have hspec := ll_loop_spec env cfg cb cfg.p (cfg.p - 2)
    (effective_stride cfg.progress_stride (cfg.p - 2)) hp hodd i 0
    { s := 4, tmp := 0, hi := 0 } (sMod_zero_eq cfg.p hp).symm rfl rfl
  have hne : (ll_loop env cfg cb (2 ^ cfg.p - 1) cfg.p (cfg.p - 2)
      (effective_stride cfg.progress_stride (cfg.p - 2)) i 0
      { s := 4, tmp := 0, hi := 0 }).early_composite = false := by
    cases hb : (ll_loop env cfg cb (2 ^ cfg.p - 1) cfg.p (cfg.p - 2)
      (effective_stride cfg.progress_stride (cfg.p - 2)) i 0
      { s := 4, tmp := 0, hi := 0 }).early_composite with
    | false => rfl
    | true =>
      obtain ⟨k, -, hk2, -, hk4⟩ := hspec.2.1.1 hb
      have hk : k + 2 < cfg.p := by
        clear hspec hb hk4
        omega
      exact absurd hk4 (sMod_ne_zero_of_lt cfg.p k hp hodd hk)
  have hsplit := ll_loop_split env cfg cb cfg.p (cfg.p - 2)
    (effective_stride cfg.progress_stride (cfg.p - 2)) hp hodd i (cfg.p - 2 - i) 0
    { s := 4, tmp := 0, hi := 0 } (sMod_zero_eq cfg.p hp).symm
    (fun j _ h2 _ => sMod_ne_zero_of_lt cfg.p j hp hodd (by clear hspec hne; omega))
  rw [e, Nat.zero_add] at hsplit
  obtain ⟨g1, g2⟩ := hspec.2.2 hne
  exact ⟨by simpa using g1, by simpa using g2, hspec.1, hne, hsplit⟩

/-- The loop of `ll_test` on an odd exponent `p ≥ 3` never leaves early: it
executes all `p - 2` bodies and ends on the residue `p - 2` of the
Lucas–Lehmer sequence. -/
theorem ll_run_full (env : Env) (cfg : LLConfig) (cb : Bool)
    (hp : 3 ≤ cfg.p) (hodd : cfg.p % 2 = 1) :
    (ll_run env cfg cb).early_composite = false ∧
    (ll_run env cfg cb).steps = cfg.p - 2 ∧
    (ll_run env cfg cb).s = sMod cfg.p (cfg.p - 2) := by
  obtain ⟨-, hearly, hfull⟩ := ll_run_spec env cfg cb hp hodd
  have hne : (ll_run env cfg cb).early_composite = false := by
    cases hb : (ll_run env cfg cb).early_composite with
    | false => rfl
    | true =>
      obtain ⟨k, -, hk2, hk3⟩ := hearly.1 hb
      exact absurd hk3 (sMod_ne_zero_of_lt cfg.p k hp hodd (by omega))
  exact ⟨hne, (hfull hne).2, (hfull hne).1⟩

/-- On an accepted exponent `ll_test` executes all `p - 2` loop bodies. -/
theorem ll_test_steps_full (env : Env) (cfg : LLConfig) (cb : Bool)
    (hacc : is_prime_exponent cfg.p = some true) (hne : cfg.p ≠ 2) :
    (ll_test env cfg cb).steps = cfg.p - 2 := by
  obtain ⟨h3, hodd⟩ := accepted_odd cfg.p hacc hne
  rw [(ll_test_trace env cfg cb hacc hne).1]
  exact (ll_run_full env cfg cb h3 hodd).2.1

/-- The step of the loop from a residue `2 ≤ s < M`: the new residue obtained
by computing `s * s - 2` and applying `mersenne_reduce_once` lies in
`[0, M)`. -/
theorem ll_step_range (p : Nat) (s hi : Int) (hp : 2 < p) (h2 : 2 ≤ s)
    (hlt : s < 2 ^ p - 1) :
    0 ≤ (mersenne_reduce_once (s * s - 2) (2 ^ p - 1) p hi).1 ∧
      (mersenne_reduce_once (s * s - 2) (2 ^ p - 1) p hi).1 < 2 ^ p - 1 := by
  have hM := mersenne_pos_of_one_le p (by omega)
  rw [step_residue p hp s hi h2 hlt]
  exact ⟨Int.emod_nonneg _ hM.ne', Int.emod_lt_of_pos _ hM⟩

/-! ## The claims on the loop invariant, determinism, progress, hashing and totality -/

/-- C8: the residue range is an invariant of the loop step.  For every
accepted exponent `p > 2` with `M = 2 ^ p - 1` and every iteration `i < p - 2`,
let `L` be the state of the loop of `ll_test` after `i` bodies.  The loop
performs its step `i` on `L` (the run is the step from `L` followed by the
remaining bodies: no early exit, no invariant exception); the residue `L.s`
is the residue `i` of the reference sequence, it is `4` at the first
iteration and satisfies `2 ≤ L.s < M` (so it is neither `0` nor `1`); and the
new residue, obtained by computing `s * s - 2` and applying
`mersenne_reduce_once`, satisfies `0 ≤ s' < M` and is the residue `i + 1` of
the reference sequence.  More generally the step from any `2 ≤ s < M` lands in
`[0, M)`. -/
theorem ll_step_invariant (env : Env) (cfg : LLConfig) (cb : Bool)
    (hacc : is_prime_exponent cfg.p = some true) (hp : 2 < cfg.p)
    (i : Nat) (hi : i < cfg.p - 2) (L : Loop)
    (hL : L = ll_loop env cfg cb (2 ^ cfg.p - 1) cfg.p (cfg.p - 2)
      (effective_stride cfg.progress_stride (cfg.p - 2)) i 0
      { s := 4, tmp := 0, hi := 0 }) :
    ll_run env cfg cb =
      ll_loop env cfg cb (2 ^ cfg.p - 1) cfg.p (cfg.p - 2)
        (effective_stride cfg.progress_stride (cfg.p - 2)) (cfg.p - 2 - i - 1) (i + 1)
        (ll_body env cfg cb (2 ^ cfg.p - 1) cfg.p (cfg.p - 2)
          (effective_stride cfg.progress_stride (cfg.p - 2)) i L) ∧
    (ll_body env cfg cb (2 ^ cfg.p - 1) cfg.p (cfg.p - 2)
      (effective_stride cfg.progress_stride (cfg.p - 2)) i L).s =
      (mersenne_reduce_once (L.s * L.s - 2) (2 ^ cfg.p - 1) cfg.p L.hi).1 ∧
    L.s = reference_residue cfg.p i ∧
    (i = 0 → L.s = 4) ∧
    2 ≤ L.s ∧ L.s < 2 ^ cfg.p - 1 ∧
    0 ≤ (mersenne_reduce_once (L.s * L.s - 2) (2 ^ cfg.p - 1) cfg.p L.hi).1 ∧
    (mersenne_reduce_once (L.s * L.s - 2) (2 ^ cfg.p - 1) cfg.p L.hi).1 < 2 ^ cfg.p - 1 ∧
    (mersenne_reduce_once (L.s * L.s - 2) (2 ^ cfg.p - 1) cfg.p L.hi).1 =
      reference_residue cfg.p (i + 1) ∧
    (∀ s hi1 : Int, 2 ≤ s → s < 2 ^ cfg.p - 1 →
      0 ≤ (mersenne_reduce_once (s * s - 2) (2 ^ cfg.p - 1) cfg.p hi1).1 ∧
      (mersenne_reduce_once (s * s - 2) (2 ^ cfg.p - 1) cfg.p hi1).1 < 2 ^ cfg.p - 1) := by
  obtain ⟨h3, hodd⟩ := accepted_odd cfg.p hacc (by omega)
  obtain ⟨hs, -, -, -, hrun⟩ := ll_loop_prefix env cfg cb h3 hodd i (by omega)
  rw [← hL] at hs hrun
  have hnn := sMod_nonneg cfg.p (by omega) i
  have hlt := sMod_lt cfg.p (by omega) i
  have hn0 := sMod_ne_zero_of_lt cfg.p i h3 hodd (by omega)
  have hn1 := sMod_ne_one cfg.p h3 hodd i
  have h2 : 2 ≤ L.s := by rw [hs]; omega
  have hnot : ¬ (i > 0 ∧ L.s = 0) := fun hh => hn0 (by rw [← hs]; exact hh.2)
  obtain ⟨hun, hs1⟩ := ll_loop_unfold env cfg cb cfg.p (cfg.p - 2)
    (effective_stride cfg.progress_stride (cfg.p - 2)) h3 hodd (cfg.p - 2 - i - 1) i L hs hnot
  have e : cfg.p - 2 - i = cfg.p - 2 - i - 1 + 1 := by omega
  rw [e, hun] at hrun
  have hrange := ll_step_range cfg.p L.s L.hi hp h2 (by rw [hs]; exact hlt)
  refine ⟨hrun, ll_body_s _ _ _ _ _ _ _ _ _, ?_, ?_, h2, by rw [hs]; exact hlt, hrange.1,
    hrange.2, ?_, fun s hi1 hs2 hslt => ll_step_range cfg.p s hi1 hp hs2 hslt⟩
  · rw [hs, reference_residue_eq_sMod cfg.p h3]
  · intro h0
    rw [hs, h0, sMod_zero_eq cfg.p h3]
  · rw [hs1, reference_residue_eq_sMod cfg.p h3]

theorem ll_step_invariant_witness :
    (is_prime_exponent 7 = some true ∧ 2 < 7 ∧ 3 < 7 - 2) ∧
    (ll_loop ⟨true, 8, 0, ""⟩ { p := 7 } false (2 ^ 7 - 1) 7 5 1 3 0
      { s := 4, tmp := 0, hi := 0 }).s = reference_residue 7 3 ∧
    (0 ≤ (mersenne_reduce_once
        ((ll_loop ⟨true, 8, 0, ""⟩ { p := 7 } false (2 ^ 7 - 1) 7 5 1 3 0
          { s := 4, tmp := 0, hi := 0 }).s *
         (ll_loop ⟨true, 8, 0, ""⟩ { p := 7 } false (2 ^ 7 - 1) 7 5 1 3 0
          { s := 4, tmp := 0, hi := 0 }).s - 2) (2 ^ 7 - 1) 7
        (ll_loop ⟨true, 8, 0, ""⟩ { p := 7 } false (2 ^ 7 - 1) 7 5 1 3 0
          { s := 4, tmp := 0, hi := 0 }).hi).1 ∧
      (mersenne_reduce_once
        ((ll_loop ⟨true, 8, 0, ""⟩ { p := 7 } false (2 ^ 7 - 1) 7 5 1 3 0
          { s := 4, tmp := 0, hi := 0 }).s *
         (ll_loop ⟨true, 8, 0, ""⟩ { p := 7 } false (2 ^ 7 - 1) 7 5 1 3 0
          { s := 4, tmp := 0, hi := 0 }).s - 2) (2 ^ 7 - 1) 7
        (ll_loop ⟨true, 8, 0, ""⟩ { p := 7 } false (2 ^ 7 - 1) 7 5 1 3 0
          { s := 4, tmp := 0, hi := 0 }).hi).1 < 2 ^ 7 - 1) :=
  ⟨by decide,
   (ll_step_invariant ⟨true, 8, 0, ""⟩ { p := 7 } false (by decide) (by decide) 3 (by decide)
      _ rfl).2.2.1,
   (ll_step_invariant ⟨true, 8, 0, ""⟩ { p := 7 } false (by decide) (by decide) 3 (by decide)
      _ rfl).2.2.2.2.2.2.1,
   (ll_step_invariant ⟨true, 8, 0, ""⟩ { p := 7 } false (by decide) (by decide) 3 (by decide)
      _ rfl).2.2.2.2.2.2.2.1⟩


/-- C11: determinism and independence from the progress settings.  Two runs
on the same exponent, with any progress flag, any stride, with or without a
sink (and whatever the clock, the build and the platform), are either both
rejected with `invalid_argument` or both return results with the same
`is_prime`, `final_residue_is_zero` and `iterations`. -/
theorem ll_test_deterministic (env1 env2 : Env) (cfg1 cfg2 : LLConfig) (cb1 cb2 : Bool)
    (hp : cfg1.p = cfg2.p) :
    ((∃ w1, (ll_test env1 cfg1 cb1).outcome = .thrown (.invalid_argument w1)) ∧
      (∃ w2, (ll_test env2 cfg2 cb2).outcome = .thrown (.invalid_argument w2))) ∨
    (∃ r1 r2, (ll_test env1 cfg1 cb1).outcome = .returned r1 ∧
      (ll_test env2 cfg2 cb2).outcome = .returned r2 ∧
      r1.is_prime = r2.is_prime ∧
      r1.final_residue_is_zero = r2.final_residue_is_zero ∧
      r1.iterations = r2.iterations) := by
  obtain ⟨b, hb⟩ := is_prime_exponent_total cfg1.p
  have hb2 : is_prime_exponent cfg2.p = some b := by rw [← hp]; exact hb
  by_cases hlt : cfg1.p < 2
  · left
    obtain ⟨w1, h1⟩ := ll_test_rejected env1 cfg1 cb1 (Or.inl hlt)
    obtain ⟨w2, h2⟩ := ll_test_rejected env2 cfg2 cb2 (Or.inl (by rw [← hp]; exact hlt))
    exact ⟨⟨w1, by rw [h1]⟩, ⟨w2, by rw [h2]⟩⟩
  cases b with
  | false =>
    left
    obtain ⟨w1, h1⟩ := ll_test_rejected env1 cfg1 cb1 (Or.inr hb)
    obtain ⟨w2, h2⟩ := ll_test_rejected env2 cfg2 cb2 (Or.inr hb2)
    exact ⟨⟨w1, by rw [h1]⟩, ⟨w2, by rw [h2]⟩⟩
  | true =>
    right
    by_cases h2 : cfg1.p = 2
    · rw [ll_test_two env1 cfg1 cb1 h2, ll_test_two env2 cfg2 cb2 (by rw [← hp]; exact h2)]
      exact ⟨_, _, rfl, rfl, rfl, rfl, rfl⟩
    · rw [ll_test_verdict env1 cfg1 cb1 hb h2,
        ll_test_verdict env2 cfg2 cb2 hb2 (by rw [← hp]; exact h2)]
      exact ⟨_, _, rfl, rfl, by simp only [hp], by simp only [hp], by simp only [hp]⟩

theorem ll_test_deterministic_witness :
    (({ p := 7, progress_stride := 1 } : LLConfig).p =
      ({ p := 7, enable_progress := false, progress_stride := 3 } : LLConfig).p) ∧
    ∃ r1 r2, (ll_test ⟨true, 8, 5, ""⟩ { p := 7, progress_stride := 1 } true).outcome =
        .returned r1 ∧
      (ll_test ⟨false, 4, 7, ""⟩
        { p := 7, enable_progress := false, progress_stride := 3 } false).outcome =
        .returned r2 ∧
      r1.is_prime = r2.is_prime ∧
      r1.final_residue_is_zero = r2.final_residue_is_zero ∧
      r1.iterations = r2.iterations :=
  ⟨rfl,
   (ll_test_deterministic ⟨true, 8, 5, ""⟩ ⟨false, 4, 7, ""⟩ { p := 7, progress_stride := 1 }
      { p := 7, enable_progress := false, progress_stride := 3 } true false rfl).resolve_left
    (fun h => by
      obtain ⟨⟨w, hw⟩, -⟩ := h
      rw [ll_test_verdict _ _ _ (by decide) (by decide)] at hw
      exact Outcome.noConfusion hw)⟩

/-- C12: progress fires once per iteration.  For every accepted exponent
`p > 2` with progress enabled, a non-empty sink and effective stride 1
(`progress_stride = 1`, or `progress_stride = 0` with `p - 2 < 200`), the sink
is invoked exactly once for every executed loop body, with the indices
0, 1, 2, ... in increasing order, each call carrying the digest of the residue
that this body produced.  For `p = 7` these are exactly 5 calls with indices
0..4 whose digests are pairwise distinct (for 64-bit and for 32-bit limbs). -/
theorem progress_once_per_iteration (env : Env) (cfg : LLConfig)
    (hacc : is_prime_exponent cfg.p = some true) (hp : 2 < cfg.p)
    (hen : cfg.enable_progress = true)
    (hstride : cfg.progress_stride = 1 ∨ (cfg.progress_stride = 0 ∧ cfg.p - 2 < 200)) :
    (ll_test env cfg true).calls =
      (List.range (ll_test env cfg true).steps).map (fun i =>
        (i, make_residue_digest (limb_data env.limb_bytes (reference_residue cfg.p (i + 1))))) ∧
    (∀ i, i < (ll_test env cfg true).steps →
      (ll_loop env cfg true (2 ^ cfg.p - 1) cfg.p (cfg.p - 2)
        (effective_stride cfg.progress_stride (cfg.p - 2)) (i + 1) 0
        { s := 4, tmp := 0, hi := 0 }).s = reference_residue cfg.p (i + 1)) ∧
    (cfg.p = 7 → (env.limb_bytes = 8 ∨ env.limb_bytes = 4) →
      (ll_test env cfg true).calls.length = 5 ∧
      (ll_test env cfg true).calls.map Prod.fst = [0, 1, 2, 3, 4] ∧
      ((ll_test env cfg true).calls.map Prod.snd).Nodup) := by
  have hne : cfg.p ≠ 2 := by omega
  obtain ⟨h3, hodd⟩ := accepted_odd cfg.p hacc hne
  have hcalls : (ll_test env cfg true).calls =
      (List.range (ll_test env cfg true).steps).map (fun i =>
        (i, make_residue_digest
          (limb_data env.limb_bytes (reference_residue cfg.p (i + 1))))) := by
    rw [ll_test_calls env cfg true hacc hne, if_pos ⟨rfl, hen⟩,
      effective_stride_one _ _ hstride]
    congr 1
    exact List.filter_eq_self.2 (fun i _ => scheduled_stride_one _ i)
  refine ⟨hcalls, ?_, ?_⟩
  · intro i hi
    rw [(ll_test_trace env cfg true hacc hne).1] at hi
    rw [reference_residue_eq_sMod cfg.p h3]
    exact ll_run_residue env cfg true h3 hodd i hi
  · intro h7 hlb
    have hsteps := ll_test_steps_seven env cfg true h7
    rw [hcalls, hsteps, h7]
    refine ⟨by simp, ?_, ?_⟩
    · rw [List.map_map]
      have hid : (Prod.fst ∘ fun i => (i, make_residue_digest
          (limb_data env.limb_bytes (reference_residue 7 (i + 1))))) = id := rfl
      rw [hid, List.map_id]
      decide
    · rw [List.map_map]
      exact digests_seven_nodup env.limb_bytes hlb

theorem progress_once_per_iteration_witness :
    (is_prime_exponent 7 = some true ∧ 2 < 7) ∧
    (ll_test ⟨true, 8, 0, ""⟩ { p := 7 } true).calls.length = 5 ∧
    (ll_test ⟨true, 8, 0, ""⟩ { p := 7 } true).calls.map Prod.fst = [0, 1, 2, 3, 4] ∧
    ((ll_test ⟨true, 8, 0, ""⟩ { p := 7 } true).calls.map Prod.snd).Nodup :=
  ⟨by decide,
   (progress_once_per_iteration ⟨true, 8, 0, ""⟩ { p := 7 } (by decide) (by decide) rfl
    (Or.inr ⟨rfl, by decide⟩)).2.2 rfl (Or.inl rfl)⟩

/-- C13: exponent checker agreement.  For every `p` with `2 ≤ p ≤ 10000`,
`is_prime_exponent(p)` returns the verdict of trial-division primality (`p`
has no divisor `d` with `2 ≤ d` and `d * d ≤ p`). -/
theorem is_prime_exponent_agrees_trial_division (p : Nat) (h2 : 2 ≤ p) (hle : p ≤ 10000) :
    is_prime_exponent p = some (trial_division_prime p) := by
  rw [is_prime_exponent_small_range p h2 hle]
  congr 1
  rw [Bool.eq_iff_iff, decide_eq_true_iff, trial_division_prime_iff]

theorem is_prime_exponent_agrees_trial_division_witness :
    (2 ≤ 9409 ∧ 9409 ≤ 10000) ∧ is_prime_exponent 9409 = some (trial_division_prime 9409) :=
  ⟨by decide, is_prime_exponent_agrees_trial_division 9409 (by decide) (by decide)⟩

/-- C14: for every digest `d` (32 bytes), `to_hex(d)` is a string of exactly 64
characters, all from `0-9a-f`, in which characters `2 * i` and `2 * i + 1`
encode the high and the low nibble of byte `i`; decoding the string recovers
the 32 bytes, and `to_hex` is injective. -/
theorem to_hex_spec (d : ResidueDigest) (hd : digest_wf d) :
    (to_hex d).length = 64 ∧
    (∀ c ∈ (to_hex d).data, c ∈ hex) ∧
    (∀ i, i < 32 →
      (to_hex d).data.getD (2 * i) '0' = hex.getD (d.bytes.getD i 0 / 16) '0' ∧
      (to_hex d).data.getD (2 * i + 1) '0' = hex.getD (d.bytes.getD i 0 % 16) '0') ∧
    from_hex (to_hex d).data = d.bytes ∧
    (∀ d', digest_wf d' → to_hex d = to_hex d' → d = d') := by
  have hdata := to_hex_data d hd
  have hround : from_hex (to_hex d).data = d.bytes := by
    rw [hdata]; exact from_hex_pairs d.bytes hd.2
  refine ⟨?_, ?_, ?_, hround, ?_⟩
  · show (to_hex d).data.length = 64
    rw [hdata, hex_pair_length, hd.1]
  · intro c hc
    rw [hdata, List.mem_flatMap] at hc
    obtain ⟨b, -, hb⟩ := hc
    exact hex_pair_mem b c hb
  · intro i hi
    have hlt : i < d.bytes.length := by rw [hd.1]; exact hi
    have hb : d.bytes.getD i 0 < 256 := by
      rw [List.getD_eq_getElem d.bytes 0 hlt]
      exact hd.2 _ (List.getElem_mem _)
    obtain ⟨h1, h2, -⟩ := hex_pair_byte _ hb
    rw [hdata, ← h1, ← h2]
    exact hex_pair_getD d.bytes i hlt
  · intro d' hd' heq
    have hround' : from_hex (to_hex d').data = d'.bytes := by
      rw [to_hex_data d' hd']; exact from_hex_pairs d'.bytes hd'.2
    have : d.bytes = d'.bytes := by rw [← hround, ← hround', heq]
    cases d; cases d'
    simp only [ResidueDigest.mk.injEq]
    exact this

theorem to_hex_spec_witness :
    digest_wf ⟨List.range 32⟩ ∧ (to_hex ⟨List.range 32⟩).length = 64 ∧
      from_hex (to_hex ⟨List.range 32⟩).data = List.range 32 :=
  ⟨⟨rfl, by decide⟩,
   (to_hex_spec ⟨List.range 32⟩ ⟨rfl, by decide⟩).1,
   (to_hex_spec ⟨List.range 32⟩ ⟨rfl, by decide⟩).2.2.2.1⟩

/-- C15: for every exponent `p > 2`, whenever `ll_test` returns a result,
`is_prime` and `final_residue_is_zero` both equal `(r (p - 2) = 0)` for the
reference Lucas–Lehmer sequence `r 0 = 4`,
`r (k + 1) = (r k ^ 2 - 2) mod (2 ^ p - 1)` run for all `p - 2` steps with
generic modular reduction: neither the early exit nor the fold-based reducer
changes the verdict. -/
theorem ll_test_matches_reference (env : Env) (cfg : LLConfig) (cb : Bool) (r : LLResult)
    (hp : 2 < cfg.p) (hret : (ll_test env cfg cb).outcome = .returned r) :
    r.is_prime = decide (reference_residue cfg.p (cfg.p - 2) = 0) ∧
    r.final_residue_is_zero = decide (reference_residue cfg.p (cfg.p - 2) = 0) := by
  obtain ⟨-, hacc⟩ := ll_test_returned_inv env cfg cb r hret
  rw [ll_test_verdict env cfg cb hacc (by omega)] at hret
  injection hret with hr
  subst hr
  rw [reference_residue_eq_sMod cfg.p (by omega)]
  exact ⟨rfl, rfl⟩

theorem ll_test_matches_reference_witness :
    ((2 : Nat) < 11 ∧
      (ll_test ⟨true, 8, 0, ""⟩ { p := 11 } false).outcome =
        .returned { p := 11, is_prime := false, iterations := 9, ns_elapsed := 0,
                    final_residue_is_zero := false, engine_info := "" }) ∧
    false = decide (reference_residue 11 (11 - 2) = 0) ∧
    false = decide (reference_residue 11 (11 - 2) = 0) :=
  ⟨⟨by decide, by decide⟩,
   ll_test_matches_reference ⟨true, 8, 0, ""⟩ { p := 11 } false
    { p := 11, is_prime := false, iterations := 9, ns_elapsed := 0,
      final_residue_is_zero := false, engine_info := "" } (by decide) (by decide)⟩

/-- C16: for every `p ≥ 1` with `M = 2 ^ p - 1` and every `x` with
`0 ≤ x < 2 ^ (2 * p)`, the folded sum `(x >> p) + (x & (2 ^ p - 1))` is at most
`2 * M`, `mersenne_reduce_once` subtracts `M` at most twice and returns
`x mod M`; when `x = 2 ^ (2 * p) - 1` the folded sum is exactly `2 * M` and
the result is `0`, not `M`. -/
theorem mersenne_reduce_once_two_subtractions (p : Nat) (x hi : Int) (hp : 1 ≤ p)
    (hx : 0 ≤ x) (hlt : x < 2 ^ (2 * p)) :
    Int.tdiv x (2 ^ p) + Int.tmod x (2 ^ p) ≤ 2 * (2 ^ p - 1) ∧
    (∃ j : Int, 0 ≤ j ∧ j ≤ 2 ∧ (mersenne_reduce_once x (2 ^ p - 1) p hi).1 =
      Int.tdiv x (2 ^ p) + Int.tmod x (2 ^ p) - j * (2 ^ p - 1)) ∧
    (mersenne_reduce_once x (2 ^ p - 1) p hi).1 = x % (2 ^ p - 1) ∧
    (x = 2 ^ (2 * p) - 1 →
      Int.tdiv x (2 ^ p) + Int.tmod x (2 ^ p) = 2 * (2 ^ p - 1) ∧
      (mersenne_reduce_once x (2 ^ p - 1) p hi).1 = 0) := by
  have hM := mersenne_pos_of_one_le p hp
  obtain ⟨q, r, hq, hr, hq0, hr0, hrB, hxe⟩ := fold_facts p x hx
  have hsq : (2 : Int) ^ (2 * p) = 2 ^ p * 2 ^ p := by rw [two_mul, pow_add]
  rw [hsq] at hlt
  have hqB : q < 2 ^ p := by
    by_contra hcon
    push_neg at hcon
    nlinarith
  have hsum : Int.tdiv x (2 ^ p) + Int.tmod x (2 ^ p) ≤ 2 * (2 ^ p - 1) := by
    rw [hq, hr]; linarith
  have hred := reduce_of_sum_lt p x hi hp hx (by rw [hq, hr] at hsum ⊢; linarith)
  refine ⟨hsum, ?_, hred, ?_⟩
  · rw [reduce_fst]
    simp only []
    split_ifs
    · exact ⟨2, by norm_num, by norm_num, by ring⟩
    · exact ⟨1, by norm_num, by norm_num, by ring⟩
    · exact ⟨0, by norm_num, by norm_num, by ring⟩
  · intro hxmax
    rw [hsq] at hxmax
    have hqr : q = 2 ^ p - 1 ∧ r = 2 ^ p - 1 := by
      have h1 : (2 : Int) ^ p * (q - (2 ^ p - 1)) = (2 ^ p - 1) - r := by
        linear_combination hxmax - hxe
      have h2 : q - (2 ^ p - 1) = 0 := by
        by_contra hne
        rcases lt_or_gt_of_ne hne with h | h
        · have : q - (2 ^ p - 1) ≤ -1 := by omega
          nlinarith
        · have : 1 ≤ q - (2 ^ p - 1) := by omega
          nlinarith
      rw [h2, mul_zero] at h1
      constructor <;> linarith
    refine ⟨by rw [hq, hr, hqr.1, hqr.2]; ring, ?_⟩
    rw [hred, hxmax]
    have : (2 : Int) ^ p * 2 ^ p - 1 = 0 + (2 ^ p + 1) * (2 ^ p - 1) := by ring
    rw [this, Int.add_mul_emod_self]
    rfl

theorem mersenne_reduce_once_two_subtractions_witness :
    (1 ≤ 3 ∧ (0 : Int) ≤ 63 ∧ (63 : Int) < 2 ^ (2 * 3)) ∧
    Int.tdiv 63 (2 ^ 3) + Int.tmod 63 (2 ^ 3) ≤ 2 * (2 ^ 3 - 1) ∧
    (∃ j : Int, 0 ≤ j ∧ j ≤ 2 ∧ (mersenne_reduce_once 63 (2 ^ 3 - 1) 3 0).1 =
      Int.tdiv 63 (2 ^ 3) + Int.tmod 63 (2 ^ 3) - j * (2 ^ 3 - 1)) ∧
    (mersenne_reduce_once 63 (2 ^ 3 - 1) 3 0).1 = 63 % (2 ^ 3 - 1) ∧
    ((63 : Int) = 2 ^ (2 * 3) - 1 →
      Int.tdiv 63 (2 ^ 3) + Int.tmod 63 (2 ^ 3) = 2 * (2 ^ 3 - 1) ∧
      (mersenne_reduce_once 63 (2 ^ 3 - 1) 3 0).1 = 0) :=
  ⟨by decide,
   mersenne_reduce_once_two_subtractions 3 63 0 (by decide) (by decide) (by decide)⟩

/-- C17: the progress schedule.  For every accepted exponent `p > 2` with
`n = p - 2`, progress enabled, a non-empty sink and effective stride `k`
(`progress_stride` if it is non-zero, otherwise `max 1 (n / 100)`), the run
executes all `n` loop bodies and the sink is invoked after loop body `i` if
and only if `i < n` and (`(i + 1) mod k = 0` or `i = n - 1`), once per such
body, in increasing order of `i`, with the digest of the residue that the body
produced; so the run makes exactly `ceil (n / k) = (n + k - 1) / k` calls, at
least one, and the last call reports the last body.  The sink is never invoked
when `enable_progress` is false or the sink is empty. -/
theorem progress_schedule (env : Env) (cfg : LLConfig) (cb : Bool) :
    (is_prime_exponent cfg.p = some true → 2 < cfg.p → cb = true →
      cfg.enable_progress = true →
      (ll_test env cfg cb).steps = cfg.p - 2 ∧
      (ll_test env cfg cb).calls =
        ((List.range (cfg.p - 2)).filter
          (scheduled (effective_stride cfg.progress_stride (cfg.p - 2)) (cfg.p - 2))).map
          (fun i => (i, make_residue_digest
            (limb_data env.limb_bytes (reference_residue cfg.p (i + 1))))) ∧
      (∀ i, i ∈ (ll_test env cfg cb).calls.map Prod.fst ↔
        (i < cfg.p - 2 ∧
          ((i + 1) % effective_stride cfg.progress_stride (cfg.p - 2) = 0 ∨
            i = cfg.p - 2 - 1))) ∧
      ((ll_test env cfg cb).calls.map Prod.fst).Pairwise (· < ·) ∧
      (ll_test env cfg cb).calls.length =
        (cfg.p - 2 + effective_stride cfg.progress_stride (cfg.p - 2) - 1) /
          effective_stride cfg.progress_stride (cfg.p - 2) ∧
      1 ≤ (ll_test env cfg cb).calls.length ∧
      (ll_test env cfg cb).calls.getLast? =
        some (cfg.p - 2 - 1, make_residue_digest
          (limb_data env.limb_bytes (reference_residue cfg.p (cfg.p - 2))))) ∧
    ((cfg.enable_progress = false ∨ cb = false) → (ll_test env cfg cb).calls = []) := by
  constructor
  · intro hacc hp hcb hen
    have hne : cfg.p ≠ 2 := by omega
    subst hcb
    have hfull := ll_test_steps_full env cfg true hacc hne
    have hidx := ll_test_call_indices env cfg hacc hne hen
    have hcalls := ll_test_calls env cfg true hacc hne
    rw [if_pos ⟨rfl, hen⟩, hfull] at hcalls
    rw [hfull] at hidx
    have hn : 1 ≤ cfg.p - 2 := by omega
    have hlen : (ll_test env cfg true).calls.length =
        (cfg.p - 2 + effective_stride cfg.progress_stride (cfg.p - 2) - 1) /
          effective_stride cfg.progress_stride (cfg.p - 2) := by
      have h1 : (ll_test env cfg true).calls.length =
          ((ll_test env cfg true).calls.map Prod.fst).length := by simp
      rw [h1, hidx]
      exact scheduled_count _ _ hn (effective_stride_pos _ _)
    refine ⟨hfull, hcalls, ?_, ?_, hlen, ?_, ?_⟩
    · intro i
      rw [hidx, List.mem_filter, List.mem_range]
      unfold scheduled
      rw [decide_eq_true_eq]
      have : (i + 1 = cfg.p - 2) ↔ (i = cfg.p - 2 - 1) := by omega
      rw [this]
    · rw [hidx]
      exact filter_range_sorted _ _
    · rw [hlen]
      have hk := effective_stride_pos cfg.progress_stride (cfg.p - 2)
      apply (Nat.le_div_iff_mul_le (by omega)).2
      omega
    · rw [hcalls, scheduled_filter _ _ hn, List.map_append, List.map_singleton,
        List.getLast?_append_of_ne_nil _ (by simp)]
      have : cfg.p - 2 - 1 + 1 = cfg.p - 2 := by omega
      simp [this]
  · exact ll_test_no_calls env cfg cb

theorem progress_schedule_witness :
    (is_prime_exponent 7 = some true ∧ 2 < 7) ∧
    (ll_test ⟨true, 8, 0, ""⟩ { p := 7, progress_stride := 2 } true).steps = 5 ∧
    (ll_test ⟨true, 8, 0, ""⟩ { p := 7, progress_stride := 2 } true).calls.length = 3 ∧
    (∀ i, i ∈ (ll_test ⟨true, 8, 0, ""⟩ { p := 7, progress_stride := 2 } true).calls.map
        Prod.fst ↔ (i < 5 ∧ ((i + 1) % 2 = 0 ∨ i = 4))) ∧
    (ll_test ⟨true, 8, 0, ""⟩ { p := 7, progress_stride := 2 } false).calls = [] :=
  ⟨by decide,
   ((progress_schedule ⟨true, 8, 0, ""⟩ { p := 7, progress_stride := 2 } true).1 (by decide)
      (by decide) rfl rfl).1,
   ((progress_schedule ⟨true, 8, 0, ""⟩ { p := 7, progress_stride := 2 } true).1 (by decide)
      (by decide) rfl rfl).2.2.2.2.1,
   ((progress_schedule ⟨true, 8, 0, ""⟩ { p := 7, progress_stride := 2 } true).1 (by decide)
      (by decide) rfl rfl).2.2.1,
   (progress_schedule ⟨true, 8, 0, ""⟩ { p := 7, progress_stride := 2 } false).2 (Or.inr rfl)⟩

/-- C18: with automatic stride (`progress_stride = 0`), progress enabled and a
non-empty sink, a run that completes all `n = p - 2` bodies invokes the sink
at least 100 and at most 199 times whenever `n ≥ 100`, and exactly `n` times
when `n < 100`. -/
theorem progress_auto_stride_count (env : Env) (cfg : LLConfig)
    (hacc : is_prime_exponent cfg.p = some true) (hp : 2 < cfg.p)
    (hen : cfg.enable_progress = true) (hauto : cfg.progress_stride = 0)
    (hfull : (ll_test env cfg true).steps = cfg.p - 2) :
    (100 ≤ cfg.p - 2 → 100 ≤ (ll_test env cfg true).calls.length ∧
      (ll_test env cfg true).calls.length ≤ 199) ∧
    (cfg.p - 2 < 100 → (ll_test env cfg true).calls.length = cfg.p - 2) := by
  have hne : cfg.p ≠ 2 := by omega
  have hn : 1 ≤ cfg.p - 2 := by omega
  have hlen : (ll_test env cfg true).calls.length =
      (cfg.p - 2 + max 1 ((cfg.p - 2) / 100) - 1) / max 1 ((cfg.p - 2) / 100) := by
    have h1 : (ll_test env cfg true).calls.length =
        ((ll_test env cfg true).calls.map Prod.fst).length := by simp
    rw [h1, ll_test_call_indices env cfg hacc hne hen, hfull,
      scheduled_count _ _ hn (effective_stride_pos _ _)]
    simp [effective_stride, hauto]
  rw [hlen]
  generalize cfg.p - 2 = n at hn
  constructor
  · intro h100
    have hk : max 1 (n / 100) = n / 100 := max_eq_right (by omega)
    rw [hk]
    have hkpos : 0 < n / 100 := by omega
    constructor
    · rw [Nat.le_div_iff_mul_le hkpos]; omega
    · rw [← Nat.lt_succ_iff, Nat.div_lt_iff_lt_mul hkpos]; omega
  · intro hlt
    have hk : max 1 (n / 100) = 1 := max_eq_left (by omega)
    rw [hk]
    simp

set_option maxRecDepth 1000000 in
theorem progress_auto_stride_count_witness :
    (is_prime_exponent 107 = some true ∧ 2 < 107 ∧
      (ll_test ⟨true, 8, 0, ""⟩ { p := 107 } true).steps = 107 - 2) ∧
    (100 ≤ 107 - 2 → 100 ≤ (ll_test ⟨true, 8, 0, ""⟩ { p := 107 } true).calls.length ∧
      (ll_test ⟨true, 8, 0, ""⟩ { p := 107 } true).calls.length ≤ 199) ∧
    (107 - 2 < 100 → (ll_test ⟨true, 8, 0, ""⟩ { p := 107 } true).calls.length = 107 - 2) :=
  ⟨⟨by decide, by decide, by decide⟩,
   progress_auto_stride_count ⟨true, 8, 0, ""⟩ { p := 107 } (by decide) (by decide) rfl rfl
    (by decide)⟩

/-- C19: for every byte sequence, of any length, `make_residue_digest`
returns the SHA-256 hash of exactly those bytes as FIPS 180-4 defines it
(padding with `0x80`, zeros and the 64-bit big-endian bit length, in a second
block when the remainder is at least 56); the empty input gives
`e3b0c442...7852b855` and `abc` gives `ba7816bf...f20015ad`.  The
`std::string` and `std::vector` overloads return the same digest as the
pointer/length form on the same bytes. -/
theorem make_residue_digest_is_sha256 (data : List Nat) (hb : ∀ x ∈ data, x < 256) :
    (make_residue_digest data).bytes = fips_sha256 data ∧
    make_residue_digest_string data = make_residue_digest data ∧
    make_residue_digest_vector data = make_residue_digest data ∧
    to_hex (make_residue_digest []) =
      "e3b0c44298fc1c149afbf4c8996fb92427ae41e4649b934ca495991b7852b855" ∧
    to_hex (make_residue_digest [0x61, 0x62, 0x63]) =
      "ba7816bf8f01cfea414140de5dae2223b00361a396177a9cb410ff61f20015ad" :=
  ⟨sha256_eq_fips data hb, rfl, rfl, to_hex_sha256_empty, to_hex_sha256_abc⟩

theorem make_residue_digest_is_sha256_witness :
    (∀ x ∈ [0x61, 0x62, 0x63], x < 256) ∧
    (make_residue_digest [0x61, 0x62, 0x63]).bytes = fips_sha256 [0x61, 0x62, 0x63] :=
  ⟨by decide, (make_residue_digest_is_sha256 [0x61, 0x62, 0x63] (by decide)).1⟩

/-- C20: `is_prime_exponent` is total: for every 32-bit `p` it returns a
boolean.  `mr_witness` is reached only when the parity test and the loop over
`small` fall through, and then `p` is odd and above 37; for such `p` the
halving loop terminates with `p - 1 = d * 2 ^ s`, `d` odd, and every call
`mr_witness(p, a)` is defined (no modulo by zero). -/
theorem is_prime_exponent_never_fails (p : Nat) (hp32 : p < 2 ^ 32) :
    (∃ b, is_prime_exponent p = some b) ∧
    (p ≠ 2 → ¬ (p < 2 ∨ p &&& 1 = 0) → small_loop p small = none →
      p % 2 = 1 ∧ 37 < p ∧ p - 1 ≠ 0 ∧
      (∃ d s, mr_split (p - 1) (p - 1) 0 = some (d, s) ∧ p - 1 = d * 2 ^ s ∧ d % 2 = 1) ∧
      (∀ a, (∃ b, mr_witness p a = some b) ∧ (∃ v, mod_mul a a p = some v) ∧
        ∀ e, ∃ v, mod_pow a e p = some v)) := by
  refine ⟨is_prime_exponent_total p, ?_⟩
  intro h2 hc hsmall
  rw [Nat.and_one_is_mod] at hc
  have hodd : p % 2 = 1 := by omega
  have h37 := small_loop_none p (by omega) hodd hsmall
  have hp0 : p ≠ 0 := by omega
  refine ⟨hodd, h37, by omega, ?_, ?_⟩
  · obtain ⟨d, k, h1, h2, h3⟩ :=
      mr_split_spec (p - 1) (p - 1) 0 (by omega) (le_refl _) (by simpa using by omega) (by omega)
    exact ⟨d, k, by simpa using h1, h2, h3⟩
  · intro a
    exact ⟨mr_witness_total p a hp0, mod_mul_total a a p hp0, fun e => mod_pow_total a e p hp0⟩

theorem is_prime_exponent_never_fails_witness :
    ((41 : Nat) < 2 ^ 32 ∧ (41 : Nat) ≠ 2 ∧ ¬ ((41 : Nat) < 2 ∨ 41 &&& 1 = 0) ∧
      small_loop 41 small = none) ∧
    (41 % 2 = 1 ∧ 37 < 41 ∧ 41 - 1 ≠ 0 ∧
      (∃ d s, mr_split (41 - 1) (41 - 1) 0 = some (d, s) ∧ 41 - 1 = d * 2 ^ s ∧ d % 2 = 1) ∧
      (∀ a, (∃ b, mr_witness 41 a = some b) ∧ (∃ v, mod_mul a a 41 = some v) ∧
        ∀ e, ∃ v, mod_pow a e 41 = some v)) :=
  ⟨by decide,
   (is_prime_exponent_never_fails 41 (by decide)).2 (by decide) (by decide) (by decide)⟩

/-- C21: exact modular arithmetic without overflow.  For all unsigned 64-bit
`a`, `b`, every exponent `e` and every 64-bit modulus `m ≥ 1`, `mod_mul(a, b, m)`
is `(a * b) mod m` and `mod_pow(a, e, m)` is `a ^ e mod m` as mathematical
integers (so `mod_pow(a, 0, 1) = 0`): the product fits the 128 bits in which it
is formed, and the reduced value fits the 64 bits to which it is cast. -/
theorem mod_mul_mod_pow_exact (a b e m : Nat) (ha : a < 2 ^ 64) (hb : b < 2 ^ 64)
    (hm1 : 1 ≤ m) (hm : m < 2 ^ 64) :
    mod_mul a b m = some (a * b % m) ∧
    mod_pow a e m = some (a ^ e % m) ∧
    mod_pow a 0 1 = some 0 ∧
    a * b % 2 ^ 128 = a * b ∧
    a * b % m % 2 ^ 64 = a * b % m := by
  have hm0 : m ≠ 0 := by omega
  have hprod : a * b < 2 ^ 128 := by
    calc a * b < 2 ^ 64 * 2 ^ 64 := Nat.mul_lt_mul'' ha hb
      _ = 2 ^ 128 := by norm_num
  refine ⟨mod_mul_eq a b m hm0 (le_of_lt hm) ha hb, mod_pow_eq a e m hm0 (le_of_lt hm) ha,
    ?_, Nat.mod_eq_of_lt hprod,
    Nat.mod_eq_of_lt (lt_trans (Nat.mod_lt _ (Nat.pos_of_ne_zero hm0)) hm)⟩
  rw [mod_pow_eq a 0 1 one_ne_zero (by norm_num) ha, Nat.mod_one]

theorem mod_mul_mod_pow_exact_witness :
    ((2 ^ 64 - 1 : Nat) < 2 ^ 64 ∧ (2 ^ 64 - 3 : Nat) < 2 ^ 64 ∧ 1 ≤ (2 ^ 64 - 59 : Nat) ∧
      (2 ^ 64 - 59 : Nat) < 2 ^ 64) ∧
    mod_mul (2 ^ 64 - 1) (2 ^ 64 - 3) (2 ^ 64 - 59) = some 3248 ∧
    mod_pow (2 ^ 64 - 1) 5 (2 ^ 64 - 59) = some 656356768 ∧
    mod_pow (2 ^ 64 - 1) 0 1 = some 0 :=
  ⟨by decide,
   by
    rw [(mod_mul_mod_pow_exact (2 ^ 64 - 1) (2 ^ 64 - 3) 5 (2 ^ 64 - 59) (by decide) (by decide)
      (by decide) (by decide)).1]
    decide,
   by
    rw [(mod_mul_mod_pow_exact (2 ^ 64 - 1) (2 ^ 64 - 3) 5 (2 ^ 64 - 59) (by decide) (by decide)
      (by decide) (by decide)).2.1]
    decide,
   (mod_mul_mod_pow_exact (2 ^ 64 - 1) (2 ^ 64 - 3) 5 (2 ^ 64 - 59) (by decide) (by decide)
      (by decide) (by decide)).2.2.1⟩

end ll
